import Mathlib

/-!
# TCGP_plus: card definition parser and decision-tree simulator

A shallow embedding of `Utils.h`, `PokemonCard.h`, `FileParser.cpp` and the
search routines and the deck loader of `GameSimulation.cpp`, followed by the
properties proved about them.

Conventions of the embedding.

* `std::string` is a list of characters.
* A C++ `int` is an `Int`.  The one arithmetic step of the simulator on card
  data, `hp -= dmg`, is reduced to the 32-bit range with `wrapInt32`; results
  about it carry the hypothesis that the subtraction stays in range, which is
  the domain on which C++ gives it a meaning.
* The finite values of a `double` are rationals.  `simulateDecisionTree` and
  `simulateDecisionTreeSequential` compute in exact arithmetic;
  `simulateDecisionTreeTeam` and `simulateDecisionTreeSequentialIn` are the
  same functions with the arithmetic (`DoubleOps`: the addition and the
  division by a count) as a parameter, so that what is proved about them holds
  for the rounded operations of the machine as well.
* `evaluateGameState` draws from a random generator, so the leaf evaluator is
  a parameter of type `GameState → σ → ℚ × σ`: it reads the state and the
  generator state `σ` and returns the score with the next generator state.  A
  deterministic evaluator is one that leaves `σ` alone.
* The recursion of the simulator is on a caller supplied `int`, so it is
  modelled with a nesting budget: `none` means that the budget of nested calls
  was used up before a value was returned.  The step `depth - 1` is taken in
  ℤ; for a depth below 0 it moves away from the test `depth == 0`, and C++
  gives the subtraction no meaning once the `int` range is left.
* `simulateDecisionTree` is the run of the function by a team of one thread:
  the OpenMP loop is the loop it annotates, run in index order on the generator
  of the calling thread.  `simulateDecisionTreeTeam` is the run by a team of
  threads: `evaluateGameState` draws from a `thread_local` generator, so every
  thread has a generator state of its own, runs the loop indices that the
  schedule gives it and accumulates a private total, and the private totals
  are added to the original variable thread by thread.
  `simulateDecisionTreeReduction` is the one-thread run with the order in which
  the sum reduction adds the children made explicit.
* The parallel region of `filterMetaDecksByVisibleBoard` is run under a
  schedule: the loop indices that each thread runs, the threads in the order
  in which they merge their matches.
* An input file is the list of its lines, `none` when it cannot be opened; the
  stream handed to `parsePokemonBlock` is the list of the lines not yet read,
  and the lines left unread are part of its result.
* A `std::unordered_map<std::string, Pokemon>` is a list of key and card.
-/

namespace TCGP

/-! ## Machine integers -/

/-- The values of a 32-bit `int`. -/
def InInt32 (n : Int) : Prop := -2147483648 ≤ n ∧ n ≤ 2147483647

instance (n : Int) : Decidable (InInt32 n) := by
  unfold InInt32; infer_instance

/-- Two's complement reduction of an integer to the 32-bit range. -/
def wrapInt32 (n : Int) : Int := (n + 2147483648) % 4294967296 - 2147483648

/-! ## Data model (`PokemonCard.h`) -/

/-- The type `std::string`. -/
abbrev CppString := List Char

/-- The energy type and amount required for a skill. -/
structure EnergyRequirement where
  energyType : CppString := []
  amount : Int := 0
deriving DecidableEq, Repr

/-- Additional effects of a skill. -/
structure SpecialSkill where
  doCoinFlips : Bool := false
  numFlips : Int := 0
  flipUntilTails : Bool := false
  damagePerFlip : Int := 0
  randomHitDamage : Int := 0
  randomHitCount : Int := 0
  extraDmg : Int := 0
  extraDmgIfPoisoned : Int := 0
  extraDmgIfParalyzed : Int := 0
  damagePerEnergyAttached : Int := 0
  heal : Int := 0
  damageReduction : Int := 0
  benchedDamage : Int := 0
  numBenched : Int := 0
  switchOutOpp : Bool := false
  paralyzeOpp : Bool := false
  poisonOpp : Bool := false
  shuffleOpponentBackIfHeads : Bool := false
  banSupporter : Bool := false
deriving DecidableEq, Repr

/-- A passive ability; the two constructors of the source are the default
record and `Ability.named`. -/
structure Ability where
  activeOnly : Bool := false
  poisonOpp : Bool := false
  forceSwitchOpp : Bool := false
  banSupporter : Bool := false
  moveEnergy : Bool := false
  attachEnergyCount : Int := 0
  attachEnergyType : CppString := []
  attachOnlyActive : Bool := false
  name : CppString := []
  description : CppString := []
deriving DecidableEq, Repr

/-- The constructor `Ability(name, description)`. -/
def Ability.named (name description : CppString) : Ability :=
  { name := name, description := description }

/-- An attack move. -/
structure Skill where
  skillName : CppString := []
  dmg : Int := 0
  energyRequirements : List EnergyRequirement := []
  energyDrop : Int := 0
  flipCoin : Bool := false
  maxFlip : Int := 0
  specialEffect : SpecialSkill := {}
deriving DecidableEq, Repr

/-- The constructor `Skill(name, damage, energyDrop, coin, flipMax)`. -/
def Skill.make (name : CppString) (damage energyDrop : Int) (coin : Bool) (flipMax : Int) :
    Skill :=
  { skillName := name, dmg := damage, energyDrop := energyDrop, flipCoin := coin,
    maxFlip := flipMax, specialEffect := {} }

/-- A card: a Pokémon, a Supporter or an Item.  The two raw pointers of the
source are addresses, `none` for `nullptr`. -/
structure Pokemon where
  name : CppString := []
  isEx : Bool := false
  type : CppString := []
  package : CppString := []
  canEvolve : Bool := false
  cardType : Int := 0
  hp : Int := 0
  stage : Int := 0
  prevEvo : CppString := []
  nextEvo : CppString := []
  preEvolution : Option Nat := none
  postEvolution : Option Nat := none
  skills : List Skill := []
  abilities : List Ability := []
  weakness : CppString := []
  retreatCost : Int := 0
  attachedEnergy : List EnergyRequirement := []
  isPoisoned : Bool := false
  isParalyzed : Bool := false
deriving DecidableEq, Repr

/-- An attack action during a game. -/
structure AttackRecord where
  attacker : CppString := []
  moveName : CppString := []
  target : CppString := []
  effects : List CppString := []
deriving DecidableEq, Repr

/-- An energy attachment during a game. -/
structure EnergyAttachment where
  pokemonName : CppString := []
  energyType : CppString := []
  amount : Int := 0
deriving DecidableEq, Repr

/-- The current game state. -/
structure GameState where
  deck : List Pokemon := []
  hand : List Pokemon := []
  activePokemon : Pokemon := {}
  bench : List Pokemon := []
  turn : Int := 0
  firstTurn : Bool := true
  opponentActivePokemon : Pokemon := {}
  opponentBench : List Pokemon := []
  actionHistory : List CppString := []
  attacksThisRound : List AttackRecord := []
  yourAttachments : List EnergyAttachment := []
  oppAttachments : List EnergyAttachment := []
  oppMetaDeckGuesses : List CppString := []
deriving DecidableEq, Repr

/-! ## Decision-tree simulator (`GameSimulation.cpp`) -/

/-- The body of the branch loop: copy the state, subtract the skill's damage
from the opponent's active card, and raise a negative result to 0. -/
def branchState (state : GameState) (skill : Skill) : GameState :=
  let s := state
  let s := { s with opponentActivePokemon :=
    { s.opponentActivePokemon with hp := wrapInt32 (s.opponentActivePokemon.hp - skill.dmg) } }
  if s.opponentActivePokemon.hp < 0 then
    { s with opponentActivePokemon := { s.opponentActivePokemon with hp := 0 } }
  else s

/-- The vector `nextStates` after the branch loop: one `push_back` per skill
of the active card. -/
def nextStates (state : GameState) : List GameState :=
  state.activePokemon.skills.foldl (fun acc skill => acc ++ [branchState state skill]) []

/-- The accumulation loop `totalOutcome += run(nextState)` over the children,
threading the generator state; `none` as soon as one call gives no value. -/
def sumOutcomes {σ : Type} (run : GameState → σ → Option (ℚ × σ)) :
    List GameState → ℚ → σ → Option (ℚ × σ)
  | [], totalOutcome, g => some (totalOutcome, g)
  | nextState :: rest, totalOutcome, g =>
    match run nextState g with
    | none => none
    | some (v, g1) => sumOutcomes run rest (totalOutcome + v) g1

/-- The function `simulateDecisionTreeSequential(state, depth)` with a budget
of nested calls. -/
def simulateDecisionTreeSequential {σ : Type} (evaluateGameState : GameState → σ → ℚ × σ) :
    Nat → GameState → Int → σ → Option (ℚ × σ)
  | 0, _, _, _ => none
  | budget + 1, state, depth, g =>
    if depth = 0 then some (evaluateGameState state g)
    else
      let children := nextStates state
      if children.isEmpty then some (evaluateGameState state g)
      else
        match sumOutcomes
            (fun c g1 => simulateDecisionTreeSequential evaluateGameState budget c (depth - 1) g1)
            children 0 g with
        | none => none
        | some (totalOutcome, g1) => some (totalOutcome / (children.length : ℚ), g1)

/-- The function `simulateDecisionTree(state, depth)`: the same steps, the
children being handed to `simulateDecisionTreeSequential`.  This is the run by
a team of one thread, in exact arithmetic: the loop runs in index order on the
generator of the calling thread (`simulateDecisionTreeTeam` is the run by a
team of threads in a given arithmetic). -/
def simulateDecisionTree {σ : Type} (evaluateGameState : GameState → σ → ℚ × σ) :
    Nat → GameState → Int → σ → Option (ℚ × σ)
  | 0, _, _, _ => none
  | budget + 1, state, depth, g =>
    if depth = 0 then some (evaluateGameState state g)
    else
      let children := nextStates state
      if children.isEmpty then some (evaluateGameState state g)
      else
        match sumOutcomes
            (fun c g1 => simulateDecisionTreeSequential evaluateGameState budget c (depth - 1) g1)
            children 0 g with
        | none => none
        | some (totalOutcome, g1) => some (totalOutcome / (children.length : ℚ), g1)

/-- The values returned for a list of states, one call after the other on the
threaded generator state, kept as a list. -/
def childValues {σ : Type} (run : GameState → σ → Option (ℚ × σ)) :
    List GameState → σ → Option (List ℚ × σ)
  | [], g => some ([], g)
  | c :: rest, g =>
    match run c g with
    | none => none
    | some (v, g1) =>
      match childValues run rest g1 with
      | none => none
      | some (vs, g2) => some (v :: vs, g2)

/-- The parent state with the opponent's active hit points replaced. -/
def withOpponentHp (state : GameState) (hp : Int) : GameState :=
  { state with opponentActivePokemon := { state.opponentActivePokemon with hp := hp } }

/-! ## Token utilities (`Utils.h`) -/

/-- Membership in the character set `" \t"` used by `trim`. -/
def isBlank (c : Char) : Bool := c == ' ' || c == '\t'

/-- The call `s.find_first_not_of(" \t")`; `none` stands for `npos`. -/
def find_first_not_of (s : CppString) : Option Nat :=
  s.findIdx? (fun c => !isBlank c)

/-- The call `s.find_last_not_of(" \t")`; `none` stands for `npos`. -/
def find_last_not_of (s : CppString) : Option Nat :=
  match s.reverse.findIdx? (fun c => !isBlank c) with
  | none => none
  | some i => some (s.length - 1 - i)

/-- The function `trim`: the substring from the first to the last character
that is neither a space nor a tab. -/
def trim (s : CppString) : CppString :=
  match find_first_not_of s with
  | none => []
  | some start =>
    match find_last_not_of s with
    | none => s.drop start
    | some last => (s.drop start).take (last - start + 1)

/-- One call `std::getline(iss, token, delimiter)` on the unread characters:
`none` when the stream is already at its end, else the token and what is left
after it and its delimiter. -/
def getline (delimiter : Char) : CppString → Option (CppString × CppString)
  | [] => none
  | c :: cs =>
    if c = delimiter then some ([], cs)
    else
      match getline delimiter cs with
      | none => some ([c], [])
      | some (token, rest) => some (c :: token, rest)

/-- The reading loop of `splitAndTrim`, bounded by a number of iterations. -/
def splitLoop (delimiter : Char) : Nat → CppString → List CppString
  | 0, _ => []
  | n + 1, s =>
    match getline delimiter s with
    | none => []
    | some (token, rest) => trim token :: splitLoop delimiter n rest

/-- The function `splitAndTrim`.  Every successful `getline` consumes at least
one character, so `s.length + 1` iterations always reach the end of the
stream. -/
def splitAndTrim (s : CppString) (delimiter : Char) : List CppString :=
  splitLoop delimiter (s.length + 1) s

/-- The function `toLower`: `::tolower` on every character. -/
def toLower (s : CppString) : CppString := s.map Char.toLower

/-- The predicate `isspace` of the C locale. -/
def isspace (c : Char) : Bool := c == ' ' || (9 ≤ c.toNat && c.toNat ≤ 13)

/-- The function `normalize`: lower case, whitespace removed. -/
def normalize (s : CppString) : CppString := (toLower s).filter (fun c => !isspace c)

/-- The call `s.find(c)`; `none` stands for `npos`. -/
def find (c : Char) (s : CppString) : Option Nat := s.findIdx? (fun x => x == c)

/-- The test `token.rfind(lit, 0) == 0`: the token begins with `lit`. -/
def startsWith (lit token : CppString) : Bool := lit.isPrefixOf token

/-! ## Card definition parser (`FileParser.cpp`) -/

/-- The two exceptions of `std::stoi`. -/
inductive StoiError where
  | invalid_argument
  | out_of_range
deriving DecidableEq, Repr

/-- The value of a decimal digit character. -/
def digitValue (c : Char) : Nat := c.toNat - 48

/-- The accumulation of a digit run, most significant digit first. -/
def digitsValue (ds : CppString) : Nat :=
  ds.foldl (fun acc c => 10 * acc + digitValue c) 0

/-- The start of the number that `std::stoi` reads: leading whitespace is
skipped and an optional sign taken; the flag tells a minus sign, the text is
what follows. -/
def numberStart (s : CppString) : Bool × CppString :=
  let s1 := s.dropWhile isspace
  match s1 with
  | [] => (false, s1)
  | c :: r => if c = '-' then (true, r) else if c = '+' then (false, r) else (false, s1)

/-- The longest run of digits at the start of the number. -/
def leadingDigits (s : CppString) : CppString :=
  (numberStart s).2.takeWhile Char.isDigit

/-- The signed value of the leading number. -/
def leadingValue (s : CppString) : Int :=
  if (numberStart s).1 then -(digitsValue (leadingDigits s) : Int)
  else (digitsValue (leadingDigits s) : Int)

/-- The function `std::stoi(s)` in base 10: `invalid_argument` when no digit
leads the text, `out_of_range` when the leading number is not an `int`, and
the leading number otherwise (what follows it is ignored). -/
def stoi (s : CppString) : Except StoiError Int :=
  if (leadingDigits s).isEmpty then Except.error StoiError.invalid_argument
  else if InInt32 (leadingValue s) then Except.ok (leadingValue s)
  else Except.error StoiError.out_of_range

/-- The loop `while (!s.empty() && !isdigit(s.back())) s.pop_back()`. -/
def stripTrailingNonDigits (s : CppString) : CppString :=
  (s.reverse.dropWhile (fun c => !c.isDigit)).reverse

/-- The function `parseIntOrZero`: `catch (...)` turns both exceptions of
`std::stoi` into 0. -/
def parseIntOrZero (raw : CppString) : Int :=
  let s := stripTrailingNonDigits (trim raw)
  if s.isEmpty then 0
  else
    match stoi s with
    | Except.ok v => v
    | Except.error _ => 0

/-- The function `applySkillEffectToken`, the effect passed by reference being
returned. -/
def applySkillEffectToken (token : CppString) (effect : SpecialSkill) : SpecialSkill :=
  if token = "None".toList then effect
  else if startsWith "Heal:".toList token then
    { effect with heal := parseIntOrZero (token.drop 5) }
  else if startsWith "CoinFlip:".toList token then
    { effect with doCoinFlips := true, damagePerFlip := parseIntOrZero (token.drop 9) }
  else if token = "CoinFlip:ParalyzeOpp".toList then
    { effect with doCoinFlips := true, numFlips := 1, paralyzeOpp := true }
  else if token = "ShuffleBackIfHeads".toList then
    { effect with doCoinFlips := true, numFlips := 1, shuffleOpponentBackIfHeads := true }
  else if startsWith "DamagePerEnergy:".toList token
      || startsWith "energyAttached:".toList token then
    match find ':' token with
    | none => { effect with damagePerEnergyAttached := parseIntOrZero token }
    | some sep => { effect with damagePerEnergyAttached := parseIntOrZero (token.drop (sep + 1)) }
  else if startsWith "randomDmg:".toList token then
    let parts := splitAndTrim (token.drop 10) ','
    if parts.length = 2 then
      { effect with randomHitDamage := parseIntOrZero (parts.getD 0 []),
                    randomHitCount := parseIntOrZero (parts.getD 1 []) }
    else effect
  else if token = "PoisonOpp".toList then { effect with poisonOpp := true }
  else if token = "switchOut".toList then { effect with switchOutOpp := true }
  else if token = "banSupporter".toList || token = "BanSupporter:nextTurn".toList then
    { effect with banSupporter := true }
  else if startsWith "dmgIfPoisoned:".toList token then
    { effect with extraDmgIfPoisoned := parseIntOrZero (token.drop 14) }
  else if startsWith "reduceDmg:".toList token then
    { effect with damageReduction := parseIntOrZero (token.drop 10) }
  else if startsWith "benchedDmg:".toList token then
    { effect with benchedDamage := parseIntOrZero (token.drop 11) }
  else effect

/-- The energy requirement loop of a skill token: one `emplace_back` per
element of the cost field that contains a colon. -/
def parseEnergyRequirements (field : CppString) (s : Skill) : Skill :=
  (splitAndTrim field '|').foldl
    (fun s enToken =>
      match find ':' enToken with
      | none => s
      | some pos =>
        { s with energyRequirements := s.energyRequirements ++
            [{ energyType := trim (enToken.take pos),
               amount := parseIntOrZero (trim (enToken.drop (pos + 1))) }] })
    s

/-- The body of the loop over the skill tokens of a `Skills` line. -/
def parseSkillToken (skillToken : CppString) (p : Pokemon) : Pokemon :=
  let tokens := splitAndTrim skillToken ','
  if tokens.length < 6 then p
  else
    let s := Skill.make (tokens.getD 0 []) (parseIntOrZero (tokens.getD 1 []))
      (parseIntOrZero (tokens.getD 3 [])) (toLower (tokens.getD 4 []) == "true".toList)
      (parseIntOrZero (tokens.getD 5 []))
    let s := parseEnergyRequirements (tokens.getD 2 []) s
    { p with skills := p.skills ++ [s] }

/-- The body of the loop over the entries of an `Abilities` line. -/
def parseAbilityToken (tok : CppString) (p : Pokemon) : Pokemon :=
  let parts := splitAndTrim tok '|'
  if parts.isEmpty then p
  else if toLower (parts.getD 0 []) = "none".toList then p
  else
    let name := parts.getD 0 []
    let desc := if parts.length > 1 then parts.getD 1 [] else []
    { p with abilities := p.abilities ++ [Ability.named name desc] }

/-- `None` stands for the empty string in the name-like fields. -/
def noneToEmpty (value : CppString) : CppString :=
  if value = "None".toList then [] else value

/-- The chain of key tests in the loop of `parsePokemonBlock`, applied to one
`key: value` line. -/
def applyField (key value : CppString) (p : Pokemon) : Pokemon :=
  if key = "Name".toList then { p with name := noneToEmpty value }
  else if key = "ex".toList then { p with isEx := toLower value == "true".toList }
  else if key = "Type".toList then
    let p := { p with type := value }
    if value = "Supporter".toList then { p with cardType := 1 }
    else if value = "Item".toList then { p with cardType := 2 }
    else { p with cardType := 0 }
  else if key = "Package".toList then { p with package := value }
  else if key = "CanEvolve".toList then { p with canEvolve := toLower value == "true".toList }
  else if key = "CardType".toList then { p with cardType := parseIntOrZero value }
  else if key = "HP".toList then { p with hp := parseIntOrZero value }
  else if key = "Stage".toList then
    let p := { p with stage := parseIntOrZero value }
    if p.stage ≠ 0 then { p with canEvolve := false } else p
  else if key = "Weakness".toList then { p with weakness := noneToEmpty value }
  else if key = "RetreatCost".toList then { p with retreatCost := parseIntOrZero value }
  else if key = "PrevEvo".toList then { p with prevEvo := noneToEmpty value }
  else if key = "NextEvo".toList then { p with nextEvo := noneToEmpty value }
  else if key = "Skills".toList then
    (splitAndTrim value ';').foldl (fun p skillToken => parseSkillToken skillToken p) p
  else if key = "SkillEffect".toList then
    match p.skills.getLast? with
    | none => p
    | some last =>
      let effect := (splitAndTrim value ';').foldl
        (fun effect tok => applySkillEffectToken (trim tok) effect) last.specialEffect
      { p with skills := p.skills.dropLast ++ [{ last with specialEffect := effect }] }
  else if key = "Abilities".toList then
    (splitAndTrim value ';').foldl (fun p tok => parseAbilityToken tok p) p
  else p

/-- The function `parsePokemonBlock` on the lines that `std::getline` delivers
from the stream: the result flag, the card, and the lines left unread. -/
def parsePokemonBlock : List CppString → Pokemon → Bool × Pokemon × List CppString
  | [], p => (false, p, [])
  | rawLine :: rest, p =>
    let line := trim rawLine
    if line.isEmpty then parsePokemonBlock rest p
    else if line = "END_POKEMON".toList then (true, p, rest)
    else
      match find ':' line with
      | none => parsePokemonBlock rest p
      | some delimPos =>
        let key := trim (line.take delimPos)
        let value := trim (line.drop (delimPos + 1))
        parsePokemonBlock rest (applyField key value p)

/-- The number that a string of decimal digits denotes. -/
def decimalValue (d : CppString) : Nat := Nat.ofDigits 10 ((d.map digitValue).reverse)

/-- The test `line == "END_POKEMON"` on the trimmed line. -/
def isEndLine (rawLine : CppString) : Bool := trim rawLine == "END_POKEMON".toList

/-- The key and value that the loop of `parsePokemonBlock` extracts from a
line; `none` for a line that it skips (blank, or without a colon). -/
def keyValue (rawLine : CppString) : Option (CppString × CppString) :=
  let line := trim rawLine
  if line.isEmpty then none
  else
    match find ':' line with
    | none => none
    | some delimPos => some (trim (line.take delimPos), trim (line.drop (delimPos + 1)))

/-- One iteration of the loop of `parsePokemonBlock` on a line that is not the
end marker. -/
def stepLine (p : Pokemon) (rawLine : CppString) : Pokemon :=
  match keyValue rawLine with
  | none => p
  | some (key, value) => applyField key value p

/-- The lines that the loop of `parsePokemonBlock` goes through: those before
the first end marker. -/
def blockBody (lines : List CppString) : List CppString :=
  lines.takeWhile (fun l => !isEndLine l)

/-- A `Stage` line whose value parses to a nonzero number. -/
def nonzeroStageLine (rawLine : CppString) : Bool :=
  match keyValue rawLine with
  | none => false
  | some (key, value) => key == "Stage".toList && parseIntOrZero value != 0

/-- A `CanEvolve` line at all. -/
def canEvolveLine (rawLine : CppString) : Bool :=
  match keyValue rawLine with
  | none => false
  | some (key, _) => key == "CanEvolve".toList

/-- A `CanEvolve` line whose value is `true` in some letter case. -/
def canEvolveTrueLine (rawLine : CppString) : Bool :=
  match keyValue rawLine with
  | none => false
  | some (key, value) => key == "CanEvolve".toList && toLower value == "true".toList

/-! ## Concrete inputs used by the worked examples -/

/-- The skill `("Fire Blast", 60, [], 0, false, 0)`. -/
def fireBlast : Skill := Skill.make "Fire Blast".toList 60 0 false 0

/-- A second skill, of damage 30. -/
def ember : Skill := Skill.make "Ember".toList 30 0 false 0

/-- The card `Charizard` with the single skill `fireBlast`. -/
def charizard : Pokemon := { name := "Charizard".toList, hp := 150, skills := [fireBlast] }

/-- A state whose active card is `charizard`, the opponent having `hp` hit
points. -/
def charizardState (hp : Int) : GameState :=
  { activePokemon := charizard, opponentActivePokemon := { name := "Pikachu".toList, hp := hp } }

/-- A state whose active card has the two skills `fireBlast` and `ember`. -/
def twoSkillState (hp : Int) : GameState :=
  { activePokemon := { charizard with skills := [fireBlast, ember] },
    opponentActivePokemon := { name := "Pikachu".toList, hp := hp } }

/-- A deterministic leaf evaluator: the score is 3/4 when the opponent is at
40 hit points or less and 1/4 otherwise; the generator state counts the
calls. -/
def countingLeaf (state : GameState) (calls : Nat) : ℚ × Nat :=
  (if state.opponentActivePokemon.hp ≤ 40 then 3 / 4 else 1 / 4, calls + 1)

/-! ## Card repository and deck assembly (`FileParser.cpp`, `GameSimulation.cpp`) -/

/-- The type `std::unordered_map<std::string, Pokemon>`: the entries as a list
of key and card, each key at most once; the iteration order of the source type
is unspecified and nothing below depends on it. -/
abbrev CardMap := List (CppString × Pokemon)

/-- The call `cardMap.find(key)`; `none` stands for `cardMap.end()`. -/
def mapFind : CardMap → CppString → Option Pokemon
  | [], _ => none
  | (k, card) :: rest, key => if k = key then some card else mapFind rest key

/-- The assignment `cardMap[key] = card`: the card of an existing key is
replaced, a new key is added. -/
def mapAssign : CardMap → CppString → Pokemon → CardMap
  | [], key, card => [(key, card)]
  | (k, c) :: rest, key, card =>
    if k = key then (key, card) :: rest else (k, c) :: mapAssign rest key card

/-- The test `trim(line) == "BEGIN_POKEMON"`. -/
def isBeginLine (rawLine : CppString) : Bool := trim rawLine == "BEGIN_POKEMON".toList

/-- The reading loop of `loadCardMapFromFile`, bounded by a number of
iterations; `parsePokemonBlock` reads on from the same stream. -/
def loadCardMapLoop : Nat → List CppString → CardMap → CardMap
  | 0, _, cardMap => cardMap
  | _ + 1, [], cardMap => cardMap
  | n + 1, line :: rest, cardMap =>
    if trim line = "BEGIN_POKEMON".toList then
      let r := parsePokemonBlock rest {}
      let cardMap := if r.1 then mapAssign cardMap (normalize r.2.1.name) r.2.1 else cardMap
      loadCardMapLoop n r.2.2 cardMap
    else loadCardMapLoop n rest cardMap

/-- The function `loadCardMapFromFile` on the content of the file, `none` when
the file cannot be opened.  Every iteration reads at least one line, so
`lines.length` iterations reach the end of the stream. -/
def loadCardMapFromFile (file : Option (List CppString)) (cardMap : CardMap) : CardMap :=
  match file with
  | none => cardMap
  | some lines => loadCardMapLoop lines.length lines cardMap

/-- The reading loop of `loadCardDatabase`, bounded by a number of
iterations. -/
def loadCardDatabaseLoop : Nat → List CppString → CardMap → CardMap
  | 0, _, cardMap => cardMap
  | _ + 1, [], cardMap => cardMap
  | n + 1, rawLine :: rest, cardMap =>
    let line := trim rawLine
    if line.isEmpty then loadCardDatabaseLoop n rest cardMap
    else if line = "BEGIN_POKEMON".toList then
      let r := parsePokemonBlock rest {}
      let cardMap := if r.1 then mapAssign cardMap (normalize r.2.1.name) r.2.1 else cardMap
      loadCardDatabaseLoop n r.2.2 cardMap
    else loadCardDatabaseLoop n rest cardMap

/-- The function `loadCardDatabase` on the content of the file, `none` when the
file cannot be opened. -/
def loadCardDatabase (file : Option (List CppString)) (cardMap : CardMap) : CardMap :=
  match file with
  | none => cardMap
  | some lines => loadCardDatabaseLoop lines.length lines cardMap

/-- The loop `for (int i = 0; i < count; ++i) deck.push_back(card)`. -/
def pushCopies (card : Pokemon) (count : Int) (deck : List Pokemon) : List Pokemon :=
  (List.range count.toNat).foldl (fun deck _ => deck ++ [card]) deck

/-- The body of the reading loop of `loadPresetDeck` for one line. -/
def presetDeckLine (cardMap : CardMap) (deck : List Pokemon) (rawLine : CppString) :
    List Pokemon :=
  let line := trim rawLine
  if line.isEmpty then deck
  else
    let tokens := splitAndTrim line ','
    if tokens.length < 2 then deck
    else
      let cardName := tokens.getD 0 []
      let count := parseIntOrZero (tokens.getD 1 [])
      match mapFind cardMap (normalize cardName) with
      | none => deck
      | some card => pushCopies card count deck

/-- The function `loadPresetDeck` on the content of the deck file, `none` when
the file cannot be opened: the card map, which the source takes by constant
reference, and the deck after the call. -/
def loadPresetDeck (file : Option (List CppString)) (cardMap : CardMap)
    (deck : List Pokemon) : CardMap × List Pokemon :=
  match file with
  | none => (cardMap, deck)
  | some lines => (cardMap, lines.foldl (presetDeckLine cardMap) deck)

/-! ## The parsed values in the words of the specification -/

/-- The energy requirements that a cost field denotes: one entry for each
`|`-separated element that contains a colon, the type being the trimmed text
before the first colon and the amount the number read from the text after
it. -/
def energyOfField (field : CppString) : List EnergyRequirement :=
  (splitAndTrim field '|').filterMap (fun element =>
    if ':' ∈ element then
      some { energyType := trim (element.takeWhile (fun c => c != ':')),
             amount := parseIntOrZero ((element.dropWhile (fun c => c != ':')).drop 1) }
    else none)

/-- The skill that a skill token denotes: none with fewer than 6 fields. -/
def skillOfToken (token : CppString) : Option Skill :=
  let fields := splitAndTrim token ','
  if 6 ≤ fields.length then
    some { skillName := fields.getD 0 [],
           dmg := parseIntOrZero (fields.getD 1 []),
           energyRequirements := energyOfField (fields.getD 2 []),
           energyDrop := parseIntOrZero (fields.getD 3 []),
           flipCoin := toLower (fields.getD 4 []) == "true".toList,
           maxFlip := parseIntOrZero (fields.getD 5 []),
           specialEffect := {} }
  else none

/-- The ability that an entry of an `Abilities` line denotes: none for an empty
entry and for an entry named `none` in any letter case. -/
def abilityOfEntry (entry : CppString) : Option Ability :=
  match splitAndTrim entry '|' with
  | [] => none
  | name :: rest =>
    if toLower name = "none".toList then none
    else some { name := name, description := rest.headD [] }

/-- The keys that `parsePokemonBlock` recognizes. -/
def recognizedKeys : List CppString :=
  ["Name".toList, "ex".toList, "Type".toList, "Package".toList, "CanEvolve".toList,
    "CardType".toList, "HP".toList, "Stage".toList, "Weakness".toList, "RetreatCost".toList,
    "PrevEvo".toList, "NextEvo".toList, "Skills".toList, "SkillEffect".toList,
    "Abilities".toList]

/-- The card kind that a `Type` value denotes. -/
def cardKindOfType (value : CppString) : Int :=
  if value = "Supporter".toList then 1 else if value = "Item".toList then 2 else 0

/-- A line that assigns `cardType`: a `Type` or a `CardType` line. -/
def cardTypeLine (rawLine : CppString) : Bool :=
  match keyValue rawLine with
  | none => false
  | some (key, _) => key == "Type".toList || key == "CardType".toList

/-- The cards that a deck line denotes: `count` copies of the card stored
under the normalized name, none when the line is blank, has fewer than two
fields or names no stored card. -/
def entryCards (cardMap : CardMap) (rawLine : CppString) : List Pokemon :=
  match splitAndTrim (trim rawLine) ',' with
  | name :: count :: _ =>
    match mapFind cardMap (normalize name) with
    | none => []
    | some card => List.replicate (parseIntOrZero count).toNat card
  | _ => []

/-- The cards of the complete blocks of a source read as one pass over the
lines: outside a block (`none`) a `BEGIN_POKEMON` line opens a block on a fresh
card, inside a block (`some p`) an `END_POKEMON` line closes it and yields the
card, any other line is applied to the card; a block that is still open at the
end of the source yields nothing. -/
def blockCardsFrom : Option Pokemon → List CppString → List Pokemon
  | _, [] => []
  | none, line :: rest =>
    if isBeginLine line then blockCardsFrom (some {}) rest else blockCardsFrom none rest
  | some p, line :: rest =>
    if isEndLine line then p :: blockCardsFrom none rest
    else blockCardsFrom (some (stepLine p line)) rest

/-- The cards of the complete blocks of a source, in source order. -/
def blockCards (lines : List CppString) : List Pokemon := blockCardsFrom none lines

/-- The registration `cardMap[normalize(p.name)] = p`. -/
def register (cardMap : CardMap) (p : Pokemon) : CardMap :=
  mapAssign cardMap (normalize p.name) p

/-! ## Concrete inputs used by the repository examples -/

/-- A card database source with two complete blocks whose names have the same
normalized form. -/
def twoPikachuSource : List CppString :=
  ["BEGIN_POKEMON".toList, "Name: Pikachu".toList, "HP: 60".toList, "END_POKEMON".toList,
    "".toList, "BEGIN_POKEMON".toList, "Name: pika chu".toList, "HP: 70".toList,
    "END_POKEMON".toList]

/-- The card of the first block of `twoPikachuSource`. -/
def pikachu60 : Pokemon := { name := "Pikachu".toList, hp := 60 }

/-- The card of the second block of `twoPikachuSource`. -/
def pikachu70 : Pokemon := { name := "pika chu".toList, hp := 70 }

/-! ## Constants (`Constants.h`) -/

/-- Maximum of 3 Pokémon on the bench. -/
def MAX_BENCH : Int := 3

/-- Maximum hand size. -/
def MAX_HAND_SIZE : Int := 10

/-- Starting hand size. -/
def INITIAL_HAND_SIZE : Int := 5

/-- The set `deckPokemons` that `filterMetaDecksByVisibleBoard` builds from a
deck text, as the list of the inserted names (only membership is tested).  The
reading loop `getline(deckStream, line); line = trim(line)` is the loop of
`splitAndTrim` with the newline as delimiter. -/
def deckPokemons (deck : CppString) : List CppString :=
  (splitAndTrim deck '\n').foldl
    (fun names line =>
      if line.isEmpty || line == "BEGIN_DECK".toList || line == "END_DECK".toList then names
      else
        let tokens := splitAndTrim line ','
        if tokens.length = 2 then names ++ [toLower (tokens.getD 0 [])] else names)
    []

/-- The flag `allMatch`: every visible name, lower-cased, is found in the
set. -/
def allMatch (names visiblePokemons : List CppString) : Bool :=
  visiblePokemons.all (fun visiblePoke => decide (toLower visiblePoke ∈ names))

/-- The vector `localFilteredDecks` of one thread of the parallel region: the
matching decks among the loop indices that the thread runs, in the order in
which it runs them. -/
def localFilteredDecks (allMetaDecks visiblePokemons : List CppString) (indices : List Nat) :
    List CppString :=
  indices.foldl
    (fun found i =>
      match allMetaDecks.get? i with
      | none => found
      | some deck =>
        if allMatch (deckPokemons deck) visiblePokemons then found ++ [deck] else found)
    []

/-- The function `filterMetaDecksByVisibleBoard` on the global catalog
`allMetaDecks`.  The run of the parallel region is given by `schedule`: one
list of loop indices for each thread, the threads in the order in which they
enter the critical section that merges their vectors. -/
def filterMetaDecksByVisibleBoard (allMetaDecks visiblePokemons : List CppString)
    (schedule : List (List Nat)) : List CppString :=
  let filteredDecks := schedule.foldl
    (fun filteredDecks indices =>
      filteredDecks ++ localFilteredDecks allMetaDecks visiblePokemons indices) []
  if filteredDecks.isEmpty then allMetaDecks else filteredDecks

/-- A schedule of the loop over a catalog of `n` decks: every loop index is
run exactly once, by one of the threads. -/
def ValidSchedule (n : Nat) (schedule : List (List Nat)) : Prop :=
  schedule.flatten.Perm (List.range n)

/-- The card-name set of a deck text in the words of the specification: the
lower-cased first field of every deck line that has exactly two
`,`-separated fields. -/
def cardNameSet (deck : CppString) : List CppString :=
  (splitAndTrim deck '\n').filterMap (fun line =>
    match splitAndTrim line ',' with
    | [name, _] => some (toLower name)
    | _ => none)

/-- A candidate deck matches when its card-name set contains the lower-cased
form of every visible name. -/
def deckMatches (visiblePokemons : List CppString) (deck : CppString) : Bool :=
  visiblePokemons.all (fun visiblePoke => decide (toLower visiblePoke ∈ cardNameSet deck))

/-! ## The search with the reduction order made explicit -/

/-- The function `simulateDecisionTree` with the sum reduction of the OpenMP
loop adding the values of the children in the order `order`, a rearrangement
of `nextStates`; the division is by `nextStates.size()`. -/
def simulateDecisionTreeReduction {σ : Type} (evaluateGameState : GameState → σ → ℚ × σ) :
    Nat → GameState → Int → σ → List GameState → Option (ℚ × σ)
  | 0, _, _, _, _ => none
  | budget + 1, state, depth, g, order =>
    if depth = 0 then some (evaluateGameState state g)
    else
      let children := nextStates state
      if children.isEmpty then some (evaluateGameState state g)
      else
        match sumOutcomes
            (fun c g1 => simulateDecisionTreeSequential evaluateGameState budget c (depth - 1) g1)
            order 0 g with
        | none => none
        | some (totalOutcome, g1) => some (totalOutcome / (children.length : ℚ), g1)

/-- The value of the search for a leaf evaluator that is a function `f` of the
state: the leaf score at depth 0 or without children, else the mean of the
values of the children one ply down. -/
def searchValue (f : GameState → ℚ) : Nat → GameState → ℚ
  | 0, state => f state
  | n + 1, state =>
    if (nextStates state).isEmpty then f state
    else ((nextStates state).map (searchValue f n)).sum / ((nextStates state).length : ℚ)

/-! ## Further notions of the specification -/

/-- The segments of a string between the occurrences of a delimiter, the last
one left out when it is empty. -/
def segmentsDropLastEmpty (s : CppString) (delimiter : Char) : List CppString :=
  if (s.splitOn delimiter).getLast? = some [] then (s.splitOn delimiter).dropLast
  else s.splitOn delimiter

/-- A skill without regard to its special effect. -/
def withoutEffect (s : Skill) : Skill := { s with specialEffect := {} }

/-- A line of the key `key`. -/
def keyLine (key rawLine : CppString) : Bool :=
  match keyValue rawLine with
  | none => false
  | some (k, _) => k == key

/-- The card that the lines of a block body give on a fresh card. -/
def cardOfBody (body : List CppString) : Pokemon := body.foldl stepLine {}

/-- The card that the lines of the body `bodyB` give on top of the card of the
body `bodyA`. -/
def absorbedCard (bodyA bodyB : List CppString) : Pokemon :=
  bodyB.foldl stepLine (cardOfBody bodyA)

/-- The lines of an unterminated block followed by a complete block. -/
def absorbedSource : List CppString :=
  ["BEGIN_POKEMON".toList, "Name: Charmander".toList, "HP: 60".toList,
    "Skills: Scratch, 10, Colorless:1, 0, false, 0".toList,
    "BEGIN_POKEMON".toList, "HP: 90".toList, "SkillEffect: Heal:20".toList,
    "Skills: Ember, 30, Fire:1, 1, false, 0".toList, "END_POKEMON".toList]

/-- A deck text whose card names are Pikachu and Raichu. -/
def pikachuDeck : CppString := "Pikachu, 2\nRaichu, 1\nxyz\n".toList

/-- A deck text whose card names are Charmander and Charizard. -/
def charizardDeck : CppString := "BEGIN_DECK\nCharmander, 2\n Charizard , 1\n".toList

/-- The amount texts of a cost field: the text after the first colon of every
element that has a colon. -/
def costAmountTexts (field : CppString) : List CppString :=
  ((splitAndTrim field '|').filter (fun element => decide (':' ∈ element))).map
    (fun element => (element.dropWhile (fun c => c != ':')).drop 1)

/-- The amount texts of the value of a `Skills` line: those of the cost field
of every skill token that has at least 6 fields. -/
def amountTexts (value : CppString) : List CppString :=
  (((splitAndTrim value ';').filter
      (fun skillToken => decide (6 ≤ (splitAndTrim skillToken ',').length))).map
    (fun skillToken => costAmountTexts ((splitAndTrim skillToken ',').getD 2 []))).flatten

/-! ## The simulators in the arithmetic of `double` and on a team of threads -/

/-- The arithmetic of the type `double` as the simulators use it, on its finite
values, which are rationals: the addition of `totalOutcome += ...` and the
division of the total by `nextStates.size()`.  Exact arithmetic is one
instance; the rounded operations of the machine are another. -/
structure DoubleOps where
  add : ℚ → ℚ → ℚ
  divCount : ℚ → Nat → ℚ

/-- Exact arithmetic. -/
def exactOps : DoubleOps := { add := fun x y => x + y, divCount := fun x n => x / (n : ℚ) }

/-- The accumulation loop `totalOutcome += run(nextState)` in the arithmetic
`ops`. -/
def sumOutcomesIn {σ : Type} (ops : DoubleOps) (run : GameState → σ → Option (ℚ × σ)) :
    List GameState → ℚ → σ → Option (ℚ × σ)
  | [], totalOutcome, g => some (totalOutcome, g)
  | nextState :: rest, totalOutcome, g =>
    match run nextState g with
    | none => none
    | some (v, g1) => sumOutcomesIn ops run rest (ops.add totalOutcome v) g1

/-- The function `simulateDecisionTreeSequential(state, depth)` in the
arithmetic `ops`, with a budget of nested calls; `g` is the state of the
`thread_local` generator of the thread that runs the call. -/
def simulateDecisionTreeSequentialIn {σ : Type} (ops : DoubleOps)
    (evaluateGameState : GameState → σ → ℚ × σ) :
    Nat → GameState → Int → σ → Option (ℚ × σ)
  | 0, _, _, _ => none
  | budget + 1, state, depth, g =>
    if depth = 0 then some (evaluateGameState state g)
    else
      let children := nextStates state
      if children.isEmpty then some (evaluateGameState state g)
      else
        match sumOutcomesIn ops
            (fun c g1 => simulateDecisionTreeSequentialIn ops evaluateGameState budget c
              (depth - 1) g1)
            children 0 g with
        | none => none
        | some (totalOutcome, g1) => some (ops.divCount totalOutcome children.length, g1)

/-- One thread of the team that runs the parallel loop of
`simulateDecisionTree`: the state of its own `thread_local` generator when it
enters the region, and the loop indices that it runs, in the order in which it
runs them. -/
structure TeamThread (σ : Type) where
  gen : σ
  indices : List Nat

/-- The private copy of `totalOutcome` of one thread of the reduction: from the
total given, `totalOutcome += run(nextStates[i])` for the loop indices of the
thread, on the generator of the thread. -/
def threadOutcome {σ : Type} (ops : DoubleOps) (run : GameState → σ → Option (ℚ × σ))
    (children : List GameState) : List Nat → ℚ → σ → Option (ℚ × σ)
  | [], totalOutcome, g => some (totalOutcome, g)
  | i :: rest, totalOutcome, g =>
    match children.get? i with
    | none => threadOutcome ops run children rest totalOutcome g
    | some nextState =>
      match run nextState g with
      | none => none
      | some (v, g1) => threadOutcome ops run children rest (ops.add totalOutcome v) g1

/-- The clause `reduction(+:totalOutcome)`: every thread accumulates a private
copy that starts at 0, and the copies are added to the original variable, the
threads being listed in the order in which their copies are added.  The result
is the total and the generator states that the threads are left with. -/
def reduceOutcomes {σ : Type} (ops : DoubleOps) (run : GameState → σ → Option (ℚ × σ))
    (children : List GameState) : List (TeamThread σ) → ℚ → Option (ℚ × List σ)
  | [], totalOutcome => some (totalOutcome, [])
  | thread :: rest, totalOutcome =>
    match threadOutcome ops run children thread.indices 0 thread.gen with
    | none => none
    | some (threadTotal, g1) =>
      match reduceOutcomes ops run children rest (ops.add totalOutcome threadTotal) with
      | none => none
      | some (r, gens) => some (r, g1 :: gens)

/-- The function `simulateDecisionTree(state, depth)` in the arithmetic `ops`,
run by a team of threads: `master` is the thread that makes the call (its
loop indices are those it runs in the parallel loop), `before` and `after` are
the other threads of the team, those whose private totals are added before and
after that of `master`.  The result is the value returned and the generator
states of the team afterwards, in that order of the threads. -/
def simulateDecisionTreeTeam {σ : Type} (ops : DoubleOps)
    (evaluateGameState : GameState → σ → ℚ × σ) :
    Nat → GameState → Int → List (TeamThread σ) → TeamThread σ → List (TeamThread σ) →
      Option (ℚ × List σ)
  | 0, _, _, _, _, _ => none
  | budget + 1, state, depth, before, master, after =>
    if depth = 0 then
      some ((evaluateGameState state master.gen).1,
        before.map TeamThread.gen ++ (evaluateGameState state master.gen).2
          :: after.map TeamThread.gen)
    else
      let children := nextStates state
      if children.isEmpty then
        some ((evaluateGameState state master.gen).1,
          before.map TeamThread.gen ++ (evaluateGameState state master.gen).2
            :: after.map TeamThread.gen)
      else
        match reduceOutcomes ops
            (fun c g1 => simulateDecisionTreeSequentialIn ops evaluateGameState budget c
              (depth - 1) g1)
            children (before ++ master :: after) 0 with
        | none => none
        | some (totalOutcome, gens) => some (ops.divCount totalOutcome children.length, gens)

/-- The values that the calls of one thread return, in the order of its loop
indices. -/
def threadValues {σ : Type} (run : GameState → σ → Option (ℚ × σ))
    (children : List GameState) : List Nat → σ → Option (List ℚ × σ)
  | [], g => some ([], g)
  | i :: rest, g =>
    match children.get? i with
    | none => threadValues run children rest g
    | some nextState =>
      match run nextState g with
      | none => none
      | some (v, g1) =>
        match threadValues run children rest g1 with
        | none => none
        | some (vs, g2) => some (v :: vs, g2)

/-- The values that the calls of the threads of a team return, thread by
thread, and the generator states that the threads are left with. -/
def teamValues {σ : Type} (run : GameState → σ → Option (ℚ × σ))
    (children : List GameState) : List (TeamThread σ) → Option (List (List ℚ) × List σ)
  | [] => some ([], [])
  | thread :: rest =>
    match threadValues run children thread.indices thread.gen with
    | none => none
    | some (vs, g1) =>
      match teamValues run children rest with
      | none => none
      | some (perThread, gens) => some (vs :: perThread, g1 :: gens)

/-- A leaf evaluator that draws from the generator: the first draw of a
generator gives 1/8 and every later draw 7/8; the generator state counts the
draws. -/
def drawingLeaf (_ : GameState) (draws : Nat) : ℚ × Nat :=
  (if draws = 0 then 1 / 8 else 7 / 8, draws + 1)

/-! ## Properties of the simulator -/

theorem wrapInt32_of_inInt32 {n : Int} (h : InInt32 n) : wrapInt32 n = n := by
  unfold InInt32 at h
  unfold wrapInt32
  omega

theorem foldl_push_eq_map {α β : Type} (f : α → β) (l : List α) (acc : List β) :
    l.foldl (fun acc a => acc ++ [f a]) acc = acc ++ l.map f := by
  induction l generalizing acc with
  | nil => simp
  | cons a l ih => simp [ih]

theorem nextStates_eq_map (state : GameState) :
    nextStates state = state.activePokemon.skills.map (branchState state) := by
  unfold nextStates
  rw [foldl_push_eq_map]
  simp

theorem branchState_eq (state : GameState) (skill : Skill)
    (h : InInt32 (state.opponentActivePokemon.hp - skill.dmg)) :
    branchState state skill
      = withOpponentHp state (max (state.opponentActivePokemon.hp - skill.dmg) 0) := by
  unfold branchState withOpponentHp
  simp only [wrapInt32_of_inInt32 h]
  by_cases hneg : state.opponentActivePokemon.hp - skill.dmg < 0
  · simp [hneg, max_eq_right (le_of_lt hneg)]
  · simp [hneg, max_eq_left (not_lt.mp hneg)]

/-- C1. Branch step, the loop that `simulateDecisionTree` and
`simulateDecisionTreeSequential` share: when no subtraction `hp - dmg` leaves
the `int` range, the child states are exactly one per skill of the active card,
in skill order, and the child of a skill is the parent state with
`opponentActivePokemon.hp` replaced by `max (hp - dmg) 0`, every other field
being the parent's; so no child has negative hit points. -/
theorem branch_step_children (state : GameState)
    (hrange : ∀ skill ∈ state.activePokemon.skills,
      InInt32 (state.opponentActivePokemon.hp - skill.dmg)) :
    nextStates state
      = state.activePokemon.skills.map (fun skill =>
          { state with opponentActivePokemon :=
              { state.opponentActivePokemon with
                  hp := max (state.opponentActivePokemon.hp - skill.dmg) 0 } }) := by
  rw [nextStates_eq_map]
  apply List.map_congr_left
  intro skill hmem
  rw [branchState_eq state skill (hrange skill hmem)]
  rfl

/-- C1, worked examples: hp 100 and damage 60 give the one child with hp 40;
hp 10 and damage 60 give the one child with hp 0, not -50. -/
theorem branch_step_children_witness :
    (∀ skill ∈ (charizardState 10).activePokemon.skills,
        InInt32 ((charizardState 10).opponentActivePokemon.hp - skill.dmg))
      ∧ nextStates (charizardState 10)
          = (charizardState 10).activePokemon.skills.map (fun skill =>
              { charizardState 10 with opponentActivePokemon :=
                  { (charizardState 10).opponentActivePokemon with
                      hp := max ((charizardState 10).opponentActivePokemon.hp - skill.dmg) 0 } })
      ∧ nextStates (charizardState 10) = [charizardState 0]
      ∧ nextStates (charizardState 100) = [charizardState 40] :=
  ⟨by decide, branch_step_children (charizardState 10) (by decide), by decide, by decide⟩

theorem simulateDecisionTreeSequential_succ {σ : Type} (leaf : GameState → σ → ℚ × σ)
    (budget : Nat) (state : GameState) (depth : Int) (g : σ) :
    simulateDecisionTreeSequential leaf (budget + 1) state depth g
      = if depth = 0 then some (leaf state g)
        else if (nextStates state).isEmpty then some (leaf state g)
        else (sumOutcomes (fun c g1 => simulateDecisionTreeSequential leaf budget c (depth - 1) g1)
                (nextStates state) 0 g).map
              (fun r => (r.1 / ((nextStates state).length : ℚ), r.2)) := by
  rw [simulateDecisionTreeSequential]
  by_cases h0 : depth = 0
  · simp [h0]
  · by_cases he : (nextStates state).isEmpty = true
    · simp [h0, he]
    · simp only [h0, he, if_false]
      cases sumOutcomes (fun c g1 => simulateDecisionTreeSequential leaf budget c (depth - 1) g1)
          (nextStates state) 0 g with
      | none => rfl
      | some r => rfl

theorem simulateDecisionTree_eq_sequential {σ : Type} (leaf : GameState → σ → ℚ × σ)
    (budget : Nat) (state : GameState) (depth : Int) (g : σ) :
    simulateDecisionTree leaf budget state depth g
      = simulateDecisionTreeSequential leaf budget state depth g := by
  cases budget with
  | zero => rfl
  | succ n => rw [simulateDecisionTree, simulateDecisionTreeSequential]

theorem sumOutcomes_eq_childValues {σ : Type} (run : GameState → σ → Option (ℚ × σ))
    (cs : List GameState) (total : ℚ) (g : σ) :
    sumOutcomes run cs total g
      = (childValues run cs g).map (fun r => (total + r.1.sum, r.2)) := by
  induction cs generalizing total g with
  | nil => simp [sumOutcomes, childValues]
  | cons c rest ih =>
    rw [sumOutcomes, childValues]
    cases hrun : run c g with
    | none => rfl
    | some r =>
      obtain ⟨v, g1⟩ := r
      simp only []
      rw [ih]
      cases childValues run rest g1 with
      | none => rfl
      | some r2 =>
        obtain ⟨vs, g2⟩ := r2
        simp [add_assoc]

theorem childValues_of_forall {σ : Type} (run : GameState → σ → Option (ℚ × σ))
    (P : ℚ → Prop) (cs : List GameState)
    (hrun : ∀ c ∈ cs, ∀ g, ∃ v g1, run c g = some (v, g1) ∧ P v) (g : σ) :
    ∃ vs g1, childValues run cs g = some (vs, g1) ∧ vs.length = cs.length ∧ ∀ v ∈ vs, P v := by
  induction cs generalizing g with
  | nil => exact ⟨[], g, rfl, rfl, by simp⟩
  | cons c rest ih =>
    obtain ⟨v, g1, hv, hP⟩ := hrun c (List.mem_cons_self c rest) g
    obtain ⟨vs, g2, hvs, hlen, hall⟩ :=
      ih (fun c1 hc1 => hrun c1 (List.mem_cons_of_mem c hc1)) g1
    refine ⟨v :: vs, g2, ?_, by simp [hlen], ?_⟩
    · rw [childValues, hv]
      simp only []
      rw [hvs]
    · intro w hw
      rcases List.mem_cons.mp hw with rfl | hw
      · exact hP
      · exact hall w hw

theorem nextStates_length (state : GameState) :
    (nextStates state).length = state.activePokemon.skills.length := by
  rw [nextStates_eq_map, List.length_map]

theorem nextStates_isEmpty_iff (state : GameState) :
    (nextStates state).isEmpty = true ↔ state.activePokemon.skills = [] := by
  rw [nextStates_eq_map, List.isEmpty_iff, List.map_eq_nil_iff]

theorem branchState_activePokemon (state : GameState) (skill : Skill) :
    (branchState state skill).activePokemon = state.activePokemon := by
  unfold branchState
  simp only []
  split_ifs <;> rfl

theorem activePokemon_of_mem_nextStates {state c : GameState} (hc : c ∈ nextStates state) :
    c.activePokemon = state.activePokemon := by
  rw [nextStates_eq_map] at hc
  obtain ⟨skill, _, rfl⟩ := List.mem_map.mp hc
  exact branchState_activePokemon state skill

/-- The search returns within `depth + 1` nested calls, and a property of the
leaf scores that is kept by taking means holds of the returned value. -/
theorem sequential_returns {σ : Type} (leaf : GameState → σ → ℚ × σ) (P : ℚ → Prop)
    (hmean : ∀ vs : List ℚ, vs ≠ [] → (∀ v ∈ vs, P v) → P (vs.sum / (vs.length : ℚ)))
    (hleaf : ∀ state g, P (leaf state g).1) :
    ∀ (d budget : Nat) (state : GameState) (g : σ), d < budget →
      ∃ v g1, simulateDecisionTreeSequential leaf budget state (d : Int) g = some (v, g1)
        ∧ P v := by
  intro d
  induction d with
  | zero =>
    intro budget state g hb
    obtain ⟨b, rfl⟩ : ∃ b, budget = b + 1 := ⟨budget - 1, by omega⟩
    refine ⟨(leaf state g).1, (leaf state g).2, ?_, hleaf state g⟩
    rw [simulateDecisionTreeSequential_succ]
    simp
  | succ n ih =>
    intro budget state g hb
    obtain ⟨b, rfl⟩ : ∃ b, budget = b + 1 := ⟨budget - 1, by omega⟩
    rw [simulateDecisionTreeSequential_succ]
    have h0 : ¬ (((n + 1 : Nat) : Int) = 0) := by omega
    have hsub : ((n + 1 : Nat) : Int) - 1 = (n : Int) := by omega
    rw [if_neg h0, hsub]
    by_cases he : (nextStates state).isEmpty = true
    · rw [if_pos he]
      exact ⟨(leaf state g).1, (leaf state g).2, rfl, hleaf state g⟩
    · rw [if_neg he]
      obtain ⟨vs, g1, hvs, hlen, hall⟩ :=
        childValues_of_forall (fun c g0 => simulateDecisionTreeSequential leaf b c (n : Int) g0)
          P (nextStates state) (fun c _ g0 => ih b c g0 (by omega)) g
      have hne : vs ≠ [] := by
        intro hnil
        apply he
        rw [List.isEmpty_iff]
        apply List.eq_nil_of_length_eq_zero
        rw [← hlen, hnil]
        rfl
      refine ⟨vs.sum / (vs.length : ℚ), g1, ?_, hmean vs hne hall⟩
      rw [sumOutcomes_eq_childValues, hvs]
      simp [hlen]

theorem mean_mem_unit_interval (vs : List ℚ) (hne : vs ≠ [])
    (hall : ∀ v ∈ vs, 0 ≤ v ∧ v ≤ 1) :
    0 ≤ vs.sum / (vs.length : ℚ) ∧ vs.sum / (vs.length : ℚ) ≤ 1 := by
  have hlen : (0 : ℚ) < (vs.length : ℚ) := by
    have : 0 < vs.length := List.length_pos.mpr hne
    exact_mod_cast this
  have hsum : 0 ≤ vs.sum ∧ vs.sum ≤ (vs.length : ℚ) := by
    clear hne hlen
    induction vs with
    | nil => simp
    | cons v rest ih =>
      have hv := hall v (List.mem_cons_self v rest)
      have hrest := ih (fun w hw => hall w (List.mem_cons_of_mem v hw))
      simp only [List.sum_cons, List.length_cons, Nat.cast_add, Nat.cast_one]
      constructor <;> linarith [hv.1, hv.2, hrest.1, hrest.2]
  constructor
  · exact div_nonneg hsum.1 (le_of_lt hlen)
  · rw [div_le_one hlen]
    exact hsum.2

theorem sequential_base_case {σ : Type} (leaf : GameState → σ → ℚ × σ) (state : GameState)
    (depth : Int) (g : σ) (budget : Nat)
    (h : depth = 0 ∨ state.activePokemon.skills = []) :
    simulateDecisionTreeSequential leaf (budget + 1) state depth g = some (leaf state g) := by
  rw [simulateDecisionTreeSequential_succ]
  rcases h with h0 | hnil
  · rw [if_pos h0]
  · by_cases h0 : depth = 0
    · rw [if_pos h0]
    · rw [if_neg h0, if_pos ((nextStates_isEmpty_iff state).mpr hnil)]

/-- C3. Base case: at depth 0, and at any depth when the active card has no
skills, both simulators return the result of one call of the leaf evaluator on
the unmodified input state: its score, and the generator state that this single
call leaves behind. -/
theorem base_case_is_leaf {σ : Type} (leaf : GameState → σ → ℚ × σ) (state : GameState)
    (depth : Int) (g : σ) (budget : Nat)
    (h : depth = 0 ∨ state.activePokemon.skills = []) :
    simulateDecisionTreeSequential leaf (budget + 1) state depth g = some (leaf state g)
      ∧ simulateDecisionTree leaf (budget + 1) state depth g = some (leaf state g) := by
  have hseq := sequential_base_case leaf state depth g budget h
  exact ⟨hseq, by rw [simulateDecisionTree_eq_sequential, hseq]⟩

/-- C4. Bounded estimate: when every leaf score lies in [0, 1], for every state
and every depth `≥ 0` both simulators return a value in [0, 1]. -/
theorem estimate_in_unit_interval {σ : Type} (leaf : GameState → σ → ℚ × σ)
    (hleaf : ∀ state g, 0 ≤ (leaf state g).1 ∧ (leaf state g).1 ≤ 1)
    (state : GameState) (depth : Int) (g : σ) (budget : Nat)
    (hd : 0 ≤ depth) (hb : depth < (budget : Int)) :
    (∃ v g1, simulateDecisionTree leaf budget state depth g = some (v, g1) ∧ 0 ≤ v ∧ v ≤ 1)
      ∧ ∃ v g1, simulateDecisionTreeSequential leaf budget state depth g = some (v, g1)
          ∧ 0 ≤ v ∧ v ≤ 1 := by
  obtain ⟨n, rfl⟩ : ∃ n : Nat, depth = (n : Int) := ⟨depth.toNat, by omega⟩
  have hseq := sequential_returns leaf (fun v => 0 ≤ v ∧ v ≤ 1) mean_mem_unit_interval hleaf
    n budget state g (by omega)
  refine ⟨?_, hseq⟩
  rw [simulateDecisionTree_eq_sequential]
  exact hseq

theorem countingLeaf_bounded (state : GameState) (calls : Nat) :
    0 ≤ (countingLeaf state calls).1 ∧ (countingLeaf state calls).1 ≤ 1 := by
  unfold countingLeaf
  simp only []
  split_ifs <;> norm_num

/-- C3, worked example: at depth 0 the search on the Charizard state is one
leaf call on that state (score 1/4, one call counted); the state with a
skill-less active card gives the same at depth 3. -/
theorem base_case_is_leaf_witness :
    ((0 : Int) = 0 ∨ (charizardState 100).activePokemon.skills = [])
      ∧ (simulateDecisionTreeSequential countingLeaf (0 + 1) (charizardState 100) 0 0
            = some (countingLeaf (charizardState 100) 0)
          ∧ simulateDecisionTree countingLeaf (0 + 1) (charizardState 100) 0 0
            = some (countingLeaf (charizardState 100) 0))
      ∧ countingLeaf (charizardState 100) 0 = (1 / 4, 1)
      ∧ simulateDecisionTree countingLeaf (0 + 1) { opponentActivePokemon := { hp := 100 } } 3 0
            = some (countingLeaf { opponentActivePokemon := { hp := 100 } } 0) :=
  ⟨Or.inl rfl, base_case_is_leaf countingLeaf (charizardState 100) 0 0 0 (Or.inl rfl),
    by simp [countingLeaf, charizardState],
    (base_case_is_leaf countingLeaf { opponentActivePokemon := { hp := 100 } } 3 0 0
      (Or.inr rfl)).2⟩

/-- C4, worked example: the leaf evaluator `countingLeaf` scores in [0, 1], and
the search at depth 3 on the Charizard state returns a value in [0, 1]. -/
theorem estimate_in_unit_interval_witness :
    (∀ state g, 0 ≤ (countingLeaf state g).1 ∧ (countingLeaf state g).1 ≤ 1)
      ∧ (0 : Int) ≤ 3 ∧ (3 : Int) < ((4 : Nat) : Int)
      ∧ ((∃ v g1, simulateDecisionTree countingLeaf 4 (charizardState 100) 3 0 = some (v, g1)
            ∧ 0 ≤ v ∧ v ≤ 1)
          ∧ ∃ v g1, simulateDecisionTreeSequential countingLeaf 4 (charizardState 100) 3 0
              = some (v, g1) ∧ 0 ≤ v ∧ v ≤ 1) :=
  ⟨countingLeaf_bounded, by decide, by decide,
    estimate_in_unit_interval countingLeaf countingLeaf_bounded (charizardState 100) 3 0 4
      (by decide) (by decide)⟩

/-- With a negative depth and an active card that has a skill, no budget of
nested calls lets the search return: the test `depth == 0` is never met on the
way down. -/
theorem sequential_none_of_neg {σ : Type} (leaf : GameState → σ → ℚ × σ) :
    ∀ (budget : Nat) (state : GameState) (depth : Int) (g : σ),
      depth < 0 → state.activePokemon.skills ≠ [] →
      simulateDecisionTreeSequential leaf budget state depth g = none := by
  intro budget
  induction budget with
  | zero => intro state depth g _ _; rfl
  | succ b ih =>
    intro state depth g hneg hk
    rw [simulateDecisionTreeSequential_succ]
    have h0 : ¬ depth = 0 := by omega
    have he : ¬ (nextStates state).isEmpty = true := by
      rw [nextStates_isEmpty_iff]
      exact hk
    rw [if_neg h0, if_neg he]
    cases hns : nextStates state with
    | nil => simp [hns] at he
    | cons c rest =>
      have hc : c.activePokemon = state.activePokemon :=
        activePokemon_of_mem_nextStates (by rw [hns]; exact List.mem_cons_self c rest)
      have hnone := ih c (depth - 1) g (by omega) (by rw [hc]; exact hk)
      simp [sumOutcomes, hnone]

/-- C5, as stated, fails: on the Charizard state with depth `-1` the search does
not return, whatever the number of nested calls allowed. -/
theorem negative_depth_never_returns :
    ¬ ∃ budget : Nat,
      (simulateDecisionTree countingLeaf budget (charizardState 100) (-1) 0).isSome = true := by
  rintro ⟨budget, h⟩
  rw [simulateDecisionTree_eq_sequential,
    sequential_none_of_neg countingLeaf budget (charizardState 100) (-1) 0 (by decide)
      (by decide)] at h
  exact absurd h (by decide)

/-- C5, amended. Termination: for every state and every depth `≥ 0`, and for
every depth at all when the active card has no skills, both simulators return a
numeric estimate, and they do so within `max depth 0 + 1` nested calls. -/
theorem search_terminates {σ : Type} (leaf : GameState → σ → ℚ × σ) (state : GameState)
    (depth : Int) (g : σ) (budget : Nat)
    (h : 0 ≤ depth ∨ state.activePokemon.skills = []) (hb : depth.toNat < budget) :
    (∃ r, simulateDecisionTree leaf budget state depth g = some r)
      ∧ ∃ r, simulateDecisionTreeSequential leaf budget state depth g = some r := by
  have hseq : ∃ r, simulateDecisionTreeSequential leaf budget state depth g = some r := by
    rcases h with hd | hnil
    · obtain ⟨n, rfl⟩ : ∃ n : Nat, depth = (n : Int) := ⟨depth.toNat, by omega⟩
      obtain ⟨v, g1, hv, _⟩ := sequential_returns leaf (fun _ => True) (fun _ _ _ => trivial)
        (fun _ _ => trivial) n budget state g (by simpa using hb)
      exact ⟨(v, g1), hv⟩
    · obtain ⟨b, rfl⟩ : ∃ b, budget = b + 1 := ⟨budget - 1, by omega⟩
      exact ⟨leaf state g, sequential_base_case leaf state depth g b (Or.inr hnil)⟩
  refine ⟨?_, hseq⟩
  rw [simulateDecisionTree_eq_sequential]
  exact hseq

/-- C5 amended, worked example: depth 3 on the Charizard state returns within 4
nested calls. -/
theorem search_terminates_witness :
    ((0 : Int) ≤ 3 ∨ (charizardState 100).activePokemon.skills = [])
      ∧ (3 : Int).toNat < 4
      ∧ ((∃ r, simulateDecisionTree countingLeaf 4 (charizardState 100) 3 0 = some r)
          ∧ ∃ r, simulateDecisionTreeSequential countingLeaf 4 (charizardState 100) 3 0
              = some r) :=
  ⟨Or.inl (by decide), by decide,
    search_terminates countingLeaf (charizardState 100) 3 0 4 (Or.inl (by decide))
      (by decide)⟩

theorem findIdx?_not_eq {α : Type} (p : α → Bool) (l : List α) :
    l.findIdx? (fun c => !p c)
      = if (l.dropWhile p).isEmpty then none else some (l.takeWhile p).length := by
  induction l with
  | nil => simp
  | cons a l ih =>
    rw [List.findIdx?_cons]
    by_cases h : p a = true
    · rw [List.findIdx?_succ, ih, List.dropWhile_cons_of_pos h, List.takeWhile_cons_of_pos h]
      simp only [h, Bool.not_true, Bool.false_eq_true, if_false]
      split_ifs <;> simp
    · simp [h]

theorem drop_length_takeWhile {α : Type} (p : α → Bool) (l : List α) :
    l.drop (l.takeWhile p).length = l.dropWhile p := by
  have h := List.takeWhile_append_dropWhile p l
  conv_lhs => arg 2; rw [← h]
  exact List.drop_left _ _

theorem rdropWhile_eq_take {α : Type} (p : α → Bool) (l : List α) :
    l.rdropWhile p = l.take (l.length - (l.reverse.takeWhile p).length) := by
  unfold List.rdropWhile
  rw [← drop_length_takeWhile p l.reverse, List.drop_reverse, List.reverse_reverse]

/-- The index arithmetic of `trim` removes the spaces and tabs at both ends. -/
theorem trim_eq (s : CppString) : trim s = (s.dropWhile isBlank).rdropWhile isBlank := by
  unfold trim find_first_not_of find_last_not_of
  rw [findIdx?_not_eq, findIdx?_not_eq]
  by_cases h : s.dropWhile isBlank = []
  · simp [h, List.rdropWhile]
  · have hex : ∃ x ∈ s, ¬ isBlank x = true := by
      by_contra hcon
      push_neg at hcon
      exact h (List.dropWhile_eq_nil_iff.mpr hcon)
    have h2 : ¬ s.reverse.dropWhile isBlank = [] := by
      intro h2
      obtain ⟨x, hx, hxb⟩ := hex
      exact hxb (List.dropWhile_eq_nil_iff.mp h2 x (List.mem_reverse.mpr hx))
    have h1e : ¬ (s.dropWhile isBlank).isEmpty = true := by rwa [List.isEmpty_iff]
    have h2e : ¬ (s.reverse.dropWhile isBlank).isEmpty = true := by rwa [List.isEmpty_iff]
    simp only [if_neg h1e, if_neg h2e]
    rw [drop_length_takeWhile, rdropWhile_eq_take]
    have hsplit : s.reverse
        = (s.dropWhile isBlank).reverse ++ (s.takeWhile isBlank).reverse := by
      rw [← List.reverse_append, List.takeWhile_append_dropWhile]
    have hlen : s.length = (s.takeWhile isBlank).length + (s.dropWhile isBlank).length := by
      rw [← List.length_append, List.takeWhile_append_dropWhile]
    have hhead : ∃ x r, s.dropWhile isBlank = x :: r ∧ ¬ isBlank x = true := by
      cases hr : s.dropWhile isBlank with
      | nil => exact absurd hr h
      | cons x r =>
        refine ⟨x, r, rfl, ?_⟩
        have := List.head_dropWhile_not isBlank s (by rw [hr]; simp)
        simpa [hr] using this
    have hlt : ((s.dropWhile isBlank).reverse.takeWhile isBlank).length
        < (s.dropWhile isBlank).length := by
      obtain ⟨x, r, hr, hx⟩ := hhead
      rw [hr, List.reverse_cons, List.takeWhile_append]
      split_ifs with hfull
      · simp [hx]
      · have := (List.takeWhile_sublist (l := r.reverse) isBlank).length_le
        simp at this ⊢
        omega
    have hb : s.reverse.takeWhile isBlank
        = (s.dropWhile isBlank).reverse.takeWhile isBlank := by
      conv_lhs => rw [hsplit]
      rw [List.takeWhile_append, if_neg]
      intro heq
      rw [List.length_reverse] at heq
      omega
    rw [hb]
    congr 1
    omega

theorem mem_of_mem_trim {s : CppString} {c : Char} (h : c ∈ trim s) : c ∈ s := by
  rw [trim_eq] at h
  exact List.dropWhile_subset isBlank ((List.rdropWhile_prefix isBlank _).subset h)

theorem rdropWhile_append_keep {α : Type} (p : α → Bool) (d g : List α)
    (hd : ∀ h : d ≠ [], ¬ p (d.getLast h) = true) :
    (d ++ g).rdropWhile p = d ++ g.rdropWhile p := by
  have hself : d.rdropWhile p = d := List.rdropWhile_eq_self_iff.mpr hd
  unfold List.rdropWhile at hself ⊢
  rw [List.reverse_append, List.dropWhile_append]
  split_ifs with he
  · rw [List.isEmpty_iff] at he
    rw [he, hself]
    simp
  · rw [List.reverse_append, List.reverse_reverse]

theorem isDigit_iff (c : Char) : c.isDigit = true ↔ 48 ≤ c.toNat ∧ c.toNat ≤ 57 := by
  unfold Char.isDigit Char.toNat
  simp [UInt32.le_def, BitVec.le_def, UInt32.toNat]

theorem isBlank_iff (c : Char) : isBlank c = true ↔ c = ' ' ∨ c = '\t' := by
  unfold isBlank
  simp

theorem not_isBlank_of_isDigit {c : Char} (h : c.isDigit = true) : ¬ isBlank c = true := by
  intro hb
  rcases (isBlank_iff c).mp hb with rfl | rfl <;> exact absurd h (by decide)

theorem not_isspace_of_isDigit {c : Char} (h : c.isDigit = true) : ¬ isspace c = true := by
  rw [isDigit_iff] at h
  unfold isspace
  intro hs
  simp only [Bool.or_eq_true, beq_iff_eq, Bool.and_eq_true, decide_eq_true_eq] at hs
  rcases hs with rfl | hs
  · exact absurd h (by decide)
  · omega

theorem ne_sign_of_isDigit {c : Char} (h : c.isDigit = true) : c ≠ '-' ∧ c ≠ '+' := by
  constructor <;> rintro rfl <;> exact absurd h (by decide)

/-- The accumulation of `std::stoi` computes the positional value. -/
theorem digitsValue_eq_decimalValue (d : CppString) : digitsValue d = decimalValue d := by
  unfold digitsValue decimalValue
  induction d using List.reverseRecOn with
  | nil => simp
  | append_singleton init c ih =>
    rw [List.foldl_append, List.foldl_cons, List.foldl_nil, ih, List.map_append,
      List.reverse_append]
    simp [Nat.ofDigits_cons]
    ring

/-- Trimming and stripping a digit string followed by digit-free text leaves
the digit string. -/
theorem strip_trim_digits_append (d g : CppString) (hd : ∀ c ∈ d, c.isDigit = true)
    (hg : ∀ c ∈ g, c.isDigit = false) :
    stripTrailingNonDigits (trim (d ++ g)) = d := by
  have hstrip : ∀ s : CppString,
      stripTrailingNonDigits s = s.rdropWhile (fun c => !c.isDigit) := fun _ => rfl
  rw [hstrip]
  cases d with
  | nil =>
    rw [List.nil_append, List.rdropWhile_eq_nil_iff]
    intro x hx
    simp [hg x (mem_of_mem_trim hx)]
  | cons c r =>
    have hc := not_isBlank_of_isDigit (hd c (List.mem_cons_self c r))
    have hlast : ∀ h : (c :: r) ≠ [], ((c :: r).getLast h).isDigit = true :=
      fun h => hd _ (List.getLast_mem h)
    rw [trim_eq, List.cons_append, List.dropWhile_cons_of_neg hc, ← List.cons_append,
      rdropWhile_append_keep isBlank (c :: r) g
        (fun h => not_isBlank_of_isDigit (hlast h)),
      rdropWhile_append_keep (fun c => !c.isDigit) (c :: r) _ (fun h => by simp [hlast h])]
    have hnil : (g.rdropWhile isBlank).rdropWhile (fun c => !c.isDigit) = [] := by
      rw [List.rdropWhile_eq_nil_iff]
      intro x hx
      simp [hg x ((List.rdropWhile_prefix isBlank g).subset hx)]
    rw [hnil, List.append_nil]

theorem stoi_digits {d : CppString} (hne : d ≠ []) (hd : ∀ c ∈ d, c.isDigit = true)
    (hfit : decimalValue d ≤ 2147483647) :
    stoi d = Except.ok (decimalValue d : Int) := by
  obtain ⟨c, r, rfl⟩ := List.exists_cons_of_ne_nil hne
  have hc := hd c (List.mem_cons_self c r)
  have hstart : numberStart (c :: r) = (false, c :: r) := by
    unfold numberStart
    rw [List.dropWhile_cons_of_neg (not_isspace_of_isDigit hc)]
    simp [(ne_sign_of_isDigit hc).1, (ne_sign_of_isDigit hc).2]
  have hdigits : leadingDigits (c :: r) = c :: r := by
    unfold leadingDigits
    rw [hstart]
    exact List.takeWhile_eq_self_iff.mpr hd
  have hvalue : leadingValue (c :: r) = (decimalValue (c :: r) : Int) := by
    unfold leadingValue
    rw [hstart, hdigits, digitsValue_eq_decimalValue]
    simp
  unfold stoi
  rw [hdigits, hvalue]
  have hin : InInt32 (decimalValue (c :: r) : Int) := by
    unfold InInt32
    omega
  simp [hin]

/-- C9. Tolerant integer parse: for a string `d` of decimal digits (possibly
empty) whose value fits a 32-bit `int`, followed by any text `g` without a
digit, `parseIntOrZero (d ++ g)` is the number that `d` denotes, the empty
digit string counting as 0. -/
theorem parseIntOrZero_digits_then_garbage (d g : CppString)
    (hd : ∀ c ∈ d, c.isDigit = true) (hg : ∀ c ∈ g, c.isDigit = false)
    (hfit : decimalValue d ≤ 2147483647) :
    parseIntOrZero (d ++ g) = (decimalValue d : Int) := by
  unfold parseIntOrZero
  simp only [strip_trim_digits_append d g hd hg]
  by_cases hne : d = []
  · subst hne
    simp [decimalValue]
  · have hemp : ¬ d.isEmpty = true := by rwa [List.isEmpty_iff]
    rw [if_neg hemp, stoi_digits hne hd hfit]

/-- C9, worked examples: `30hp` and `30` both give 30, and a string without
digits gives 0. -/
theorem parseIntOrZero_digits_then_garbage_witness :
    (∀ c ∈ "30".toList, c.isDigit = true) ∧ (∀ c ∈ "hp".toList, c.isDigit = false)
      ∧ decimalValue "30".toList ≤ 2147483647
      ∧ parseIntOrZero ("30".toList ++ "hp".toList) = (decimalValue "30".toList : Int)
      ∧ parseIntOrZero "30hp".toList = 30
      ∧ parseIntOrZero "30".toList = 30
      ∧ parseIntOrZero "abc".toList = 0 :=
  ⟨by decide, by decide, by decide,
    parseIntOrZero_digits_then_garbage "30".toList "hp".toList (by decide) (by decide)
      (by decide),
    by decide, by decide, by decide⟩
/-- C10. `parseIntOrZero` never fails: for every input it returns an `int`, and
the result is 0 whenever `std::stoi` throws on the text `t` left after trimming
and stripping trailing non-digits, which covers a `t` with no leading number
(an empty `t` included) and a leading number outside the `int` range. -/
theorem parseIntOrZero_never_fails (raw : CppString) :
    InInt32 (parseIntOrZero raw)
      ∧ (∀ e, stoi (stripTrailingNonDigits (trim raw)) = Except.error e →
          parseIntOrZero raw = 0)
      ∧ (leadingDigits (stripTrailingNonDigits (trim raw)) = [] → parseIntOrZero raw = 0)
      ∧ (¬ InInt32 (leadingValue (stripTrailingNonDigits (trim raw))) →
          parseIntOrZero raw = 0) := by
  have hzero : InInt32 0 := by decide
  unfold parseIntOrZero
  dsimp only []
  by_cases hemp : (stripTrailingNonDigits (trim raw)).isEmpty = true
  · rw [if_pos hemp]
    exact ⟨hzero, fun _ _ => rfl, fun _ => rfl, fun _ => rfl⟩
  · rw [if_neg hemp]
    unfold stoi
    by_cases hnone : (leadingDigits (stripTrailingNonDigits (trim raw))).isEmpty = true
    · rw [if_pos hnone]
      exact ⟨hzero, fun _ _ => rfl, fun _ => rfl, fun _ => rfl⟩
    · rw [if_neg hnone]
      by_cases hin : InInt32 (leadingValue (stripTrailingNonDigits (trim raw)))
      · rw [if_pos hin]
        refine ⟨hin, fun e he => ?_, fun hnil => ?_, fun hout => absurd hin hout⟩
        · cases he
        · exact absurd (List.isEmpty_iff.mpr hnil) hnone
      · rw [if_neg hin]
        exact ⟨hzero, fun _ _ => rfl, fun _ => rfl, fun _ => rfl⟩

/-- C10, worked examples: a digit run beyond the `int` range, a text with no
leading number and the empty text all give 0; a signed number in range is
returned as it is. -/
theorem parseIntOrZero_never_fails_witness :
    ¬ InInt32 (leadingValue (stripTrailingNonDigits (trim "99999999999".toList)))
      ∧ parseIntOrZero "99999999999".toList = 0
      ∧ leadingDigits (stripTrailingNonDigits (trim "hp30".toList)) = []
      ∧ parseIntOrZero "hp30".toList = 0
      ∧ parseIntOrZero [] = 0
      ∧ parseIntOrZero " -12 ".toList = -12 :=
  ⟨by decide,
    (parseIntOrZero_never_fails "99999999999".toList).2.2.2 (by decide),
    by decide,
    (parseIntOrZero_never_fails "hp30".toList).2.2.1 (by decide),
    by decide, by decide⟩

/-! ## Properties of `parsePokemonBlock` -/

/-- The end marker has no colon, so a line that yields a key is not the end
marker. -/
theorem keyValue_none_of_isEndLine {l : CppString} (h : isEndLine l = true) :
    keyValue l = none := by
  unfold isEndLine at h
  unfold keyValue
  rw [beq_iff_eq] at h
  simp only [h]
  decide

/-- The loop of `parsePokemonBlock` applies `stepLine` to the lines before the
first end marker, in order. -/
theorem parsePokemonBlock_card (lines : List CppString) (p : Pokemon) :
    (parsePokemonBlock lines p).2.1 = (blockBody lines).foldl stepLine p := by
  induction lines generalizing p with
  | nil => rfl
  | cons l rest ih =>
    unfold blockBody at ih ⊢
    rw [parsePokemonBlock]
    by_cases hend : isEndLine l = true
    · have hne : ¬ (trim l).isEmpty = true := by
        unfold isEndLine at hend
        rw [beq_iff_eq] at hend
        rw [hend]
        decide
      have heq : trim l = "END_POKEMON".toList := by
        unfold isEndLine at hend
        exact beq_iff_eq.mp hend
      simp [hend, hne, heq]
    · have hneq : ¬ trim l = "END_POKEMON".toList := by
        unfold isEndLine at hend
        intro h
        exact hend (beq_iff_eq.mpr h)
      rw [List.takeWhile_cons_of_pos (by simp [hend]), List.foldl_cons]
      unfold stepLine keyValue
      dsimp only []
      by_cases hemp : (trim l).isEmpty = true
      · simp only [hemp, if_true]
        exact ih p
      · simp only [hemp, hneq, if_false, Bool.false_eq_true]
        cases hfind : find ':' (trim l) with
        | none => exact ih p
        | some delimPos => exact ih _

/-- A terminated block returns success, the card after the body lines, and
the lines after the end marker. -/
theorem parsePokemonBlock_terminated (body rest : List CppString) (endLine : CppString)
    (p : Pokemon) (hbody : ∀ l ∈ body, isEndLine l = false) (hend : isEndLine endLine = true) :
    parsePokemonBlock (body ++ endLine :: rest) p = (true, body.foldl stepLine p, rest) := by
  induction body generalizing p with
  | nil =>
    have heq : trim endLine = "END_POKEMON".toList := by
      unfold isEndLine at hend
      exact beq_iff_eq.mp hend
    have hne : ¬ (trim endLine).isEmpty = true := by
      rw [heq]
      decide
    rw [List.nil_append, parsePokemonBlock]
    simp [hne, heq]
  | cons l body ih =>
    have hl : isEndLine l = false := hbody l (List.mem_cons_self l body)
    have hneq : ¬ trim l = "END_POKEMON".toList := by
      unfold isEndLine at hl
      intro h
      rw [beq_eq_false_iff_ne] at hl
      exact hl h
    have ih1 := fun q => ih q (fun x hx => hbody x (List.mem_cons_of_mem l hx))
    rw [List.cons_append, parsePokemonBlock, List.foldl_cons]
    unfold stepLine keyValue
    dsimp only []
    by_cases hemp : (trim l).isEmpty = true
    · simp only [hemp, if_true]
      exact ih1 p
    · simp only [hemp, hneq, if_false, Bool.false_eq_true]
      cases hfind : find ':' (trim l) with
      | none => exact ih1 p
      | some delimPos => exact ih1 _
theorem applyField_stage (value : CppString) (p : Pokemon) :
    (applyField "Stage".toList value p).stage = parseIntOrZero value
      ∧ (applyField "Stage".toList value p).canEvolve
          = if parseIntOrZero value ≠ 0 then false else p.canEvolve := by
  unfold applyField
  simp only [show ("Stage".toList = "Name".toList) = False from by decide,
    show ("Stage".toList = "ex".toList) = False from by decide,
    show ("Stage".toList = "Type".toList) = False from by decide,
    show ("Stage".toList = "Package".toList) = False from by decide,
    show ("Stage".toList = "CanEvolve".toList) = False from by decide,
    show ("Stage".toList = "CardType".toList) = False from by decide,
    show ("Stage".toList = "HP".toList) = False from by decide, if_false, if_true]
  by_cases h : parseIntOrZero value = 0 <;> simp [h]

theorem applyField_canEvolve (value : CppString) (p : Pokemon) :
    (applyField "CanEvolve".toList value p).stage = p.stage
      ∧ (applyField "CanEvolve".toList value p).canEvolve
          = (toLower value == "true".toList) := by
  unfold applyField
  simp only [show ("CanEvolve".toList = "Name".toList) = False from by decide,
    show ("CanEvolve".toList = "ex".toList) = False from by decide,
    show ("CanEvolve".toList = "Type".toList) = False from by decide,
    show ("CanEvolve".toList = "Package".toList) = False from by decide, if_false, if_true,
    and_self]

theorem foldl_keeps {α β γ : Type} (f : β → α → β) (proj : β → γ)
    (hf : ∀ b a, proj (f b a) = proj b) (l : List α) (b : β) :
    proj (l.foldl f b) = proj b := by
  induction l generalizing b with
  | nil => rfl
  | cons a l ih => rw [List.foldl_cons, ih, hf]

theorem parseSkillToken_keeps (skillToken : CppString) (p : Pokemon) :
    ((parseSkillToken skillToken p).canEvolve, (parseSkillToken skillToken p).stage)
      = (p.canEvolve, p.stage) := by
  unfold parseSkillToken
  dsimp only []
  split_ifs <;> rfl

theorem parseAbilityToken_keeps (tok : CppString) (p : Pokemon) :
    ((parseAbilityToken tok p).canEvolve, (parseAbilityToken tok p).stage)
      = (p.canEvolve, p.stage) := by
  unfold parseAbilityToken
  dsimp only []
  split_ifs <;> rfl

/-- Only the keys `CanEvolve` and `Stage` touch the fields `canEvolve` and
`stage`. -/
theorem applyField_other (key value : CppString) (p : Pokemon)
    (h1 : key ≠ "CanEvolve".toList) (h2 : key ≠ "Stage".toList) :
    ((applyField key value p).canEvolve, (applyField key value p).stage)
      = (p.canEvolve, p.stage) := by
  suffices hall : ∀ q, applyField key value p = q →
      (q.canEvolve, q.stage) = (p.canEvolve, p.stage) from hall _ rfl
  intro q hq
  unfold applyField at hq
  by_cases k0 : key = "Name".toList
  · rw [if_pos k0] at hq
    subst hq
    rfl
  rw [if_neg k0] at hq
  by_cases k1 : key = "ex".toList
  · rw [if_pos k1] at hq
    subst hq
    rfl
  rw [if_neg k1] at hq
  by_cases k2 : key = "Type".toList
  · rw [if_pos k2] at hq
    subst hq
    dsimp only []
    split_ifs <;> rfl
  rw [if_neg k2] at hq
  by_cases k3 : key = "Package".toList
  · rw [if_pos k3] at hq
    subst hq
    rfl
  rw [if_neg k3] at hq
  rw [if_neg h1] at hq
  by_cases k5 : key = "CardType".toList
  · rw [if_pos k5] at hq
    subst hq
    rfl
  rw [if_neg k5] at hq
  by_cases k6 : key = "HP".toList
  · rw [if_pos k6] at hq
    subst hq
    rfl
  rw [if_neg k6] at hq
  rw [if_neg h2] at hq
  by_cases k8 : key = "Weakness".toList
  · rw [if_pos k8] at hq
    subst hq
    rfl
  rw [if_neg k8] at hq
  by_cases k9 : key = "RetreatCost".toList
  · rw [if_pos k9] at hq
    subst hq
    rfl
  rw [if_neg k9] at hq
  by_cases k10 : key = "PrevEvo".toList
  · rw [if_pos k10] at hq
    subst hq
    rfl
  rw [if_neg k10] at hq
  by_cases k11 : key = "NextEvo".toList
  · rw [if_pos k11] at hq
    subst hq
    rfl
  rw [if_neg k11] at hq
  by_cases k12 : key = "Skills".toList
  · rw [if_pos k12] at hq
    subst hq
    exact foldl_keeps (fun p skillToken => parseSkillToken skillToken p)
      (fun q => (q.canEvolve, q.stage)) (fun b a => parseSkillToken_keeps a b) _ p
  rw [if_neg k12] at hq
  by_cases k13 : key = "SkillEffect".toList
  · rw [if_pos k13] at hq
    subst hq
    cases p.skills.getLast? <;> rfl
  rw [if_neg k13] at hq
  by_cases k14 : key = "Abilities".toList
  · rw [if_pos k14] at hq
    subst hq
    exact foldl_keeps (fun p tok => parseAbilityToken tok p)
      (fun q => (q.canEvolve, q.stage)) (fun b a => parseAbilityToken_keeps a b) _ p
  rw [if_neg k14] at hq
  subst hq
  rfl
/-- What one loop iteration does to `stage` and `canEvolve`, by the kind of
line. -/
theorem stepLine_stage_canEvolve (q : Pokemon) (l : CppString) :
    (keyValue l = none →
        (stepLine q l).canEvolve = q.canEvolve ∧ (stepLine q l).stage = q.stage)
      ∧ (∀ key value, keyValue l = some (key, value) →
          (key = "Stage".toList →
            (stepLine q l).stage = parseIntOrZero value
              ∧ (stepLine q l).canEvolve
                  = if parseIntOrZero value ≠ 0 then false else q.canEvolve)
          ∧ (key = "CanEvolve".toList →
            (stepLine q l).stage = q.stage
              ∧ (stepLine q l).canEvolve = (toLower value == "true".toList))
          ∧ (key ≠ "Stage".toList → key ≠ "CanEvolve".toList →
            (stepLine q l).canEvolve = q.canEvolve ∧ (stepLine q l).stage = q.stage)) := by
  unfold stepLine
  refine ⟨fun hnone => by rw [hnone]; exact ⟨rfl, rfl⟩, fun key value hkv => ?_⟩
  rw [hkv]
  dsimp only []
  refine ⟨fun hk => ?_, fun hk => ?_, fun hs hc => ?_⟩
  · rw [hk]
    exact applyField_stage value q
  · rw [hk]
    exact applyField_canEvolve value q
  · have h := applyField_other key value q hc hs
    exact ⟨congrArg Prod.fst h, congrArg Prod.snd h⟩

/-- A line that is not a `CanEvolve` line leaves a false `canEvolve` false. -/
theorem stepLine_keeps_canEvolve_false (q : Pokemon) (l : CppString)
    (hl : canEvolveLine l = false) (hq : q.canEvolve = false) :
    (stepLine q l).canEvolve = false := by
  have h := stepLine_stage_canEvolve q l
  cases hkv : keyValue l with
  | none => rw [(h.1 hkv).1, hq]
  | some kv =>
    obtain ⟨key, value⟩ := kv
    have hkey : key ≠ "CanEvolve".toList := by
      unfold canEvolveLine at hl
      rw [hkv] at hl
      simpa using hl
    by_cases hs : key = "Stage".toList
    · rw [((h.2 key value hkv).1 hs).2, hq]
      simp
    · rw [((h.2 key value hkv).2.2 hs hkey).1, hq]

theorem foldl_stepLine_keeps_canEvolve_false (post : List CppString) (q : Pokemon)
    (hpost : ∀ l ∈ post, canEvolveLine l = false) (hq : q.canEvolve = false) :
    (post.foldl stepLine q).canEvolve = false := by
  induction post generalizing q with
  | nil => exact hq
  | cons l post ih =>
    rw [List.foldl_cons]
    exact ih _ (fun x hx => hpost x (List.mem_cons_of_mem l hx))
      (stepLine_keeps_canEvolve_false q l (hpost l (List.mem_cons_self l post)) hq)

theorem stepLine_nonzeroStage (q : Pokemon) (l : CppString) (hl : nonzeroStageLine l = true) :
    (stepLine q l).canEvolve = false ∧ isEndLine l = false := by
  unfold nonzeroStageLine at hl
  cases hkv : keyValue l with
  | none => rw [hkv] at hl; exact absurd hl (by decide)
  | some kv =>
    obtain ⟨key, value⟩ := kv
    rw [hkv] at hl
    simp only [Bool.and_eq_true, beq_iff_eq, bne_iff_ne, ne_eq] at hl
    refine ⟨?_, ?_⟩
    · rw [(((stepLine_stage_canEvolve q l).2 key value hkv).1 hl.1).2]
      simp [hl.2]
    · cases hend : isEndLine l with
      | false => rfl
      | true =>
        rw [keyValue_none_of_isEndLine hend] at hkv
        exact absurd hkv (by simp)

/-- C7. Stage overrides earlier CanEvolve: in a complete block (ended by an
`END_POKEMON` line) that has a `Stage` line whose value parses to a nonzero
number and no `CanEvolve` line after that line, `parsePokemonBlock` succeeds
with a card whose `canEvolve` is false, whatever the lines before the `Stage`
line and the card passed in were. -/
theorem stage_overrides_earlier_canEvolve (before after rest : List CppString)
    (stageLine endLine : CppString) (p : Pokemon)
    (hbefore : ∀ l ∈ before, isEndLine l = false)
    (hstage : nonzeroStageLine stageLine = true)
    (hafter : ∀ l ∈ after, isEndLine l = false ∧ canEvolveLine l = false)
    (hend : isEndLine endLine = true) :
    ∃ card,
      parsePokemonBlock (before ++ stageLine :: (after ++ endLine :: rest)) p
          = (true, card, rest)
        ∧ card.canEvolve = false := by
  have hbody : ∀ l ∈ before ++ stageLine :: after, isEndLine l = false := by
    intro l hl
    rcases List.mem_append.mp hl with h | h
    · exact hbefore l h
    · rcases List.mem_cons.mp h with rfl | h
      · exact (stepLine_nonzeroStage p l hstage).2
      · exact (hafter l h).1
  have hlist : before ++ stageLine :: (after ++ endLine :: rest)
      = (before ++ stageLine :: after) ++ endLine :: rest := by simp
  refine ⟨(before ++ stageLine :: after).foldl stepLine p, ?_, ?_⟩
  · rw [hlist, parsePokemonBlock_terminated _ rest endLine p hbody hend]
  · rw [List.foldl_append, List.foldl_cons]
    exact foldl_stepLine_keeps_canEvolve_false after _ (fun l hl => (hafter l hl).2)
      (stepLine_nonzeroStage _ stageLine hstage).1

/-- C7, worked example: `CanEvolve: true` followed by `Stage: 1` gives a card
that cannot evolve. -/
theorem stage_overrides_earlier_canEvolve_witness :
    (∀ l ∈ ["Name: Charmeleon".toList, "CanEvolve: true".toList], isEndLine l = false)
      ∧ nonzeroStageLine "Stage: 1".toList = true
      ∧ (∀ l ∈ ["HP: 90".toList], isEndLine l = false ∧ canEvolveLine l = false)
      ∧ isEndLine "END_POKEMON".toList = true
      ∧ (∃ card,
          parsePokemonBlock (["Name: Charmeleon".toList, "CanEvolve: true".toList]
              ++ "Stage: 1".toList :: (["HP: 90".toList] ++ "END_POKEMON".toList :: [])) {}
            = (true, card, [])
          ∧ card.canEvolve = false)
      ∧ parsePokemonBlock ["Name: Charmeleon".toList, "CanEvolve: true".toList,
            "Stage: 1".toList, "HP: 90".toList, "END_POKEMON".toList] {}
          = (true, { name := "Charmeleon".toList, canEvolve := false, stage := 1, hp := 90 },
              []) :=
  ⟨by decide, by decide, by decide, by decide,
    stage_overrides_earlier_canEvolve _ _ [] _ _ {} (by decide) (by decide) (by decide)
      (by decide),
    by decide⟩

/-- C8, as stated, fails: a `CanEvolve: true` line after `Stage: 1` gives a card
with `stage = 1` and `canEvolve = true`. -/
theorem canEvolve_after_stage_breaks_invariant :
    parsePokemonBlock
        ["Stage: 1".toList, "CanEvolve: true".toList, "END_POKEMON".toList] {}
      = (true, { stage := 1, canEvolve := true }, [])
      ∧ ¬ ((parsePokemonBlock
              ["Stage: 1".toList, "CanEvolve: true".toList, "END_POKEMON".toList] {}).2.1.stage
            ≠ 0 →
          (parsePokemonBlock
              ["Stage: 1".toList, "CanEvolve: true".toList, "END_POKEMON".toList]
              {}).2.1.canEvolve = false) := by
  decide
/-- The loop keeps `stage ≠ 0 → canEvolve = false` as long as no
`CanEvolve: true` line is met after a nonzero `Stage` line. -/
theorem foldl_stepLine_invariant (body : List CppString) (q : Pokemon)
    (hord : body.Pairwise
      (fun a b => ¬ (nonzeroStageLine a = true ∧ canEvolveTrueLine b = true)))
    (hq : q.stage ≠ 0 → q.canEvolve = false ∧ ∀ l ∈ body, canEvolveTrueLine l = false) :
    (body.foldl stepLine q).stage ≠ 0 → (body.foldl stepLine q).canEvolve = false := by
  induction body generalizing q with
  | nil => exact fun h => (hq h).1
  | cons l body ih =>
    rw [List.foldl_cons]
    obtain ⟨hl, hrest⟩ := List.pairwise_cons.mp hord
    apply ih (stepLine q l) hrest
    have hstep := stepLine_stage_canEvolve q l
    have hbody : q.stage ≠ 0 → ∀ x ∈ body, canEvolveTrueLine x = false :=
      fun h x hx => (hq h).2 x (List.mem_cons_of_mem l hx)
    cases hkv : keyValue l with
    | none =>
      rw [(hstep.1 hkv).1, (hstep.1 hkv).2]
      exact fun h => ⟨(hq h).1, hbody h⟩
    | some kv =>
      obtain ⟨key, value⟩ := kv
      by_cases hs : key = "Stage".toList
      · obtain ⟨hstage, hcan⟩ := (hstep.2 key value hkv).1 hs
        rw [hstage, hcan]
        intro hnz
        refine ⟨by simp [hnz], fun x hx => ?_⟩
        have hnzl : nonzeroStageLine l = true := by
          unfold nonzeroStageLine
          rw [hkv]
          simp [hs, hnz]
        cases hx1 : canEvolveTrueLine x with
        | false => rfl
        | true => exact absurd ⟨hnzl, hx1⟩ (hl x hx)
      · by_cases hc : key = "CanEvolve".toList
        · obtain ⟨hstage, hcan⟩ := (hstep.2 key value hkv).2.1 hc
          rw [hstage, hcan]
          intro hnz
          refine ⟨?_, hbody hnz⟩
          have hfalse := (hq hnz).2 l (List.mem_cons_self l body)
          unfold canEvolveTrueLine at hfalse
          rw [hkv] at hfalse
          simpa [hc] using hfalse
        · obtain ⟨hcan, hstage⟩ := (hstep.2 key value hkv).2.2 hs hc
          rw [hstage, hcan]
          exact fun h => ⟨(hq h).1, hbody h⟩

/-- C8, amended. Card invariant: starting from a card at stage 0 (such as the
freshly constructed card that the loaders pass), every card produced by
`parsePokemonBlock` from a sequence of lines in which no `CanEvolve` line with
value true comes after a `Stage` line with a nonzero value satisfies
`stage ≠ 0 → canEvolve = false`. -/
theorem card_invariant_without_late_canEvolve (lines : List CppString) (p : Pokemon)
    (hp : p.stage = 0)
    (hord : (blockBody lines).Pairwise
      (fun a b => ¬ (nonzeroStageLine a = true ∧ canEvolveTrueLine b = true))) :
    (parsePokemonBlock lines p).2.1.stage ≠ 0 →
      (parsePokemonBlock lines p).2.1.canEvolve = false := by
  rw [parsePokemonBlock_card]
  exact foldl_stepLine_invariant (blockBody lines) p hord (fun h => absurd hp h)

/-- C8 amended, worked example: with `CanEvolve: true` before `Stage: 1` the
card has stage 1 and cannot evolve. -/
theorem card_invariant_without_late_canEvolve_witness :
    ({} : Pokemon).stage = 0
      ∧ (blockBody ["CanEvolve: true".toList, "Stage: 1".toList,
            "END_POKEMON".toList]).Pairwise
          (fun a b => ¬ (nonzeroStageLine a = true ∧ canEvolveTrueLine b = true))
      ∧ (parsePokemonBlock ["CanEvolve: true".toList, "Stage: 1".toList,
            "END_POKEMON".toList] {}).2.1.stage ≠ 0
      ∧ (parsePokemonBlock ["CanEvolve: true".toList, "Stage: 1".toList,
            "END_POKEMON".toList] {}).2.1.canEvolve = false :=
  ⟨rfl, by decide, by decide,
    card_invariant_without_late_canEvolve
      ["CanEvolve: true".toList, "Stage: 1".toList, "END_POKEMON".toList] {} rfl
      (by decide) (by decide)⟩

/-! ## Properties of the skill, effect and ability tokens -/

/-- C11, what the code does: on the token `CoinFlip:ParalyzeOpp` the generic
`CoinFlip:` prefix rule, tested first, applies; it sets `doCoinFlips` and
overwrites `damagePerFlip` with 0 (the number read from `ParalyzeOpp`), and it
leaves `paralyzeOpp` and `numFlips` as they were. -/
theorem coinFlip_paralyze_takes_prefix_rule (e : SpecialSkill) :
    applySkillEffectToken "CoinFlip:ParalyzeOpp".toList e
        = { e with doCoinFlips := true, damagePerFlip := 0 }
      ∧ (applySkillEffectToken "CoinFlip:ParalyzeOpp".toList e).paralyzeOpp = e.paralyzeOpp
      ∧ (applySkillEffectToken "CoinFlip:ParalyzeOpp".toList e).numFlips = e.numFlips
      ∧ (applySkillEffectToken "CoinFlip:ParalyzeOpp".toList {}).paralyzeOpp = false
      ∧ (applySkillEffectToken "CoinFlip:ParalyzeOpp".toList {}).numFlips = 0 := by
  have hmain : applySkillEffectToken "CoinFlip:ParalyzeOpp".toList e
      = { e with doCoinFlips := true, damagePerFlip := 0 } := by
    unfold applySkillEffectToken
    rw [if_neg (by decide), if_neg (by decide), if_pos (by decide)]
    have hnum : parseIntOrZero (List.drop 9 "CoinFlip:ParalyzeOpp".toList) = 0 := by decide
    rw [hnum]
  refine ⟨hmain, ?_, ?_, by decide, by decide⟩
  · rw [hmain]
  · rw [hmain]

theorem dropWhile_rdropWhile_dropWhile {α : Type} (p : α → Bool) (s : List α) :
    ((s.dropWhile p).rdropWhile p).dropWhile p = (s.dropWhile p).rdropWhile p := by
  cases ht : s.dropWhile p with
  | nil => simp [List.rdropWhile]
  | cons x r =>
    have hx : ¬ p x = true := by
      have := List.head_dropWhile_not p s (by rw [ht]; simp)
      simpa [ht] using this
    obtain ⟨t, ht2⟩ := List.rdropWhile_prefix p (x :: r)
    cases hq : (x :: r).rdropWhile p with
    | nil => rfl
    | cons y q =>
      rw [hq] at ht2
      have hy : y = x := by
        simp at ht2
        exact ht2.1
      rw [hy]
      exact List.dropWhile_cons_of_neg hx

/-- The function `trim` is idempotent. -/
theorem trim_trim (s : CppString) : trim (trim s) = trim s := by
  rw [trim_eq (trim s), trim_eq s, dropWhile_rdropWhile_dropWhile,
    List.rdropWhile_idempotent]

theorem parseIntOrZero_trim (s : CppString) : parseIntOrZero (trim s) = parseIntOrZero s := by
  unfold parseIntOrZero
  rw [trim_trim]

theorem splitLoop_trimmed (delimiter : Char) (n : Nat) (s : CppString) :
    ∀ t ∈ splitLoop delimiter n s, trim t = t := by
  induction n generalizing s with
  | zero => intro t ht; simp [splitLoop] at ht
  | succ n ih =>
    intro t ht
    rw [splitLoop] at ht
    cases hg : getline delimiter s with
    | none => rw [hg] at ht; simp at ht
    | some r =>
      obtain ⟨token, rest⟩ := r
      rw [hg] at ht
      rcases List.mem_cons.mp ht with rfl | ht
      · exact trim_trim token
      · exact ih rest t ht

/-- Every token that `splitAndTrim` returns is trimmed. -/
theorem splitAndTrim_trimmed (s : CppString) (delimiter : Char) :
    ∀ t ∈ splitAndTrim s delimiter, trim t = t :=
  splitLoop_trimmed delimiter _ s

/-- The call `s.find(c)` gives the length of the text before the first `c`. -/
theorem find_eq (c : Char) (s : CppString) :
    find c s = if c ∈ s then some (s.takeWhile (fun x => x != c)).length else none := by
  unfold find
  induction s with
  | nil => simp
  | cons a s ih =>
    rw [List.findIdx?_cons]
    by_cases h : a = c
    · subst h
      simp
    · have hne : (a == c) = false := by simpa using h
      have hne2 : (a != c) = true := by simpa using h
      rw [hne, List.findIdx?_succ, ih, List.takeWhile_cons_of_pos (p := fun x => x != c) hne2]
      have hmem : (c ∈ a :: s) ↔ c ∈ s := by
        rw [List.mem_cons]
        constructor
        · rintro (rfl | hm)
          · exact absurd rfl h
          · exact hm
        · exact Or.inr
      simp only [Bool.false_eq_true, if_false, hmem]
      split_ifs <;> simp

theorem take_drop_of_find {c : Char} {s : CppString} {pos : Nat} (h : find c s = some pos) :
    c ∈ s ∧ s.take pos = s.takeWhile (fun x => x != c)
      ∧ s.drop (pos + 1) = (s.dropWhile (fun x => x != c)).drop 1 := by
  rw [find_eq] at h
  by_cases hm : c ∈ s
  · rw [if_pos hm] at h
    have hpos : pos = (s.takeWhile (fun x => x != c)).length := (Option.some.inj h).symm
    refine ⟨hm, ?_, ?_⟩
    · rw [hpos]
      have := List.takeWhile_append_dropWhile (fun x => x != c) s
      conv_lhs => arg 2; rw [← this]
      exact List.take_left _ _
    · rw [hpos, ← drop_length_takeWhile (fun x => x != c) s, List.drop_drop]
  · rw [if_neg hm] at h
    exact absurd h (by simp)
theorem energyStep_eq (s : Skill) (enToken : CppString) :
    (match find ':' enToken with
      | none => s
      | some pos =>
        { s with energyRequirements := s.energyRequirements ++
            [({ energyType := trim (enToken.take pos),
                amount := parseIntOrZero (trim (enToken.drop (pos + 1))) } :
              EnergyRequirement)] })
      = { s with energyRequirements := s.energyRequirements ++
          (if ':' ∈ enToken then
            [({ energyType := trim (enToken.takeWhile (fun c => c != ':')),
                amount := parseIntOrZero ((enToken.dropWhile (fun c => c != ':')).drop 1) } :
              EnergyRequirement)]
          else []) } := by
  cases hf : find ':' enToken with
  | none =>
    have hm : ¬ ':' ∈ enToken := by
      intro hm
      rw [find_eq, if_pos hm] at hf
      exact absurd hf (by simp)
    simp [hm]
  | some pos =>
    obtain ⟨hm, htake, hdrop⟩ := take_drop_of_find hf
    simp only [hm, if_true, htake, hdrop, parseIntOrZero_trim]

/-- The energy loop appends, to the requirements the skill already has, the
entries that the cost field denotes, and touches no other field. -/
theorem parseEnergyRequirements_eq (field : CppString) (s : Skill) :
    parseEnergyRequirements field s
      = { s with energyRequirements := s.energyRequirements ++ energyOfField field } := by
  unfold parseEnergyRequirements energyOfField
  generalize splitAndTrim field '|' = elements
  induction elements generalizing s with
  | nil => simp
  | cons el rest ih =>
    rw [List.foldl_cons, energyStep_eq, ih, List.filterMap_cons]
    by_cases hm : ':' ∈ el
    · simp [hm]
    · simp [hm]

/-- The loop body for one skill token appends the skill that the token
denotes, if any, and touches no other field of the card. -/
theorem parseSkillToken_eq (skillToken : CppString) (p : Pokemon) :
    parseSkillToken skillToken p
      = { p with skills := p.skills ++ (skillOfToken skillToken).toList } := by
  unfold parseSkillToken skillOfToken
  dsimp only []
  by_cases h : (splitAndTrim skillToken ',').length < 6
  · have h6 : ¬ 6 ≤ (splitAndTrim skillToken ',').length := by omega
    simp [h, h6]
  · have h6 : 6 ≤ (splitAndTrim skillToken ',').length := by omega
    rw [if_neg h, if_pos h6, parseEnergyRequirements_eq]
    simp [Skill.make]

theorem foldl_parseSkillToken (tokens : List CppString) (p : Pokemon) :
    tokens.foldl (fun p skillToken => parseSkillToken skillToken p) p
      = { p with skills := p.skills ++ tokens.filterMap skillOfToken } := by
  induction tokens generalizing p with
  | nil => simp
  | cons t rest ih =>
    rw [List.foldl_cons, ih, parseSkillToken_eq, List.filterMap_cons]
    cases skillOfToken t <;> simp

theorem applyField_skills_eq (value : CppString) (p : Pokemon) :
    applyField "Skills".toList value p
      = (splitAndTrim value ';').foldl (fun p skillToken => parseSkillToken skillToken p) p := by
  unfold applyField
  rw [if_neg (by decide), if_neg (by decide), if_neg (by decide), if_neg (by decide),
    if_neg (by decide), if_neg (by decide), if_neg (by decide), if_neg (by decide),
    if_neg (by decide), if_neg (by decide), if_neg (by decide), if_neg (by decide),
    if_pos (by decide)]

/-- C12. Skills line: processing a `Skills` line keeps the skills the card
already has and appends, in token order, one skill for each `;`-separated
token that has at least 6 `,`-separated fields (tokens and fields as
`splitAndTrim` delivers them), with `skillName` = field 0, `dmg`, `energyDrop`
and `maxFlip` = `parseIntOrZero` of fields 1, 3 and 5, `flipCoin` = (lower-cased
field 4 = `true`) and the default special effect; a token with fewer fields
contributes nothing, and no other field of the card changes. -/
theorem skills_line_appends (value : CppString) (p : Pokemon) :
    applyField "Skills".toList value p
        = { p with skills := p.skills ++ (splitAndTrim value ';').filterMap skillOfToken }
      ∧ ∀ token : CppString,
          ((splitAndTrim token ',').length < 6 → skillOfToken token = none)
          ∧ (6 ≤ (splitAndTrim token ',').length →
              ∃ s, skillOfToken token = some s
                ∧ s.skillName = (splitAndTrim token ',').getD 0 []
                ∧ s.dmg = parseIntOrZero ((splitAndTrim token ',').getD 1 [])
                ∧ s.energyDrop = parseIntOrZero ((splitAndTrim token ',').getD 3 [])
                ∧ s.flipCoin = (toLower ((splitAndTrim token ',').getD 4 []) == "true".toList)
                ∧ s.maxFlip = parseIntOrZero ((splitAndTrim token ',').getD 5 [])
                ∧ s.specialEffect = {}) := by
  refine ⟨?_, fun token => ⟨fun h => ?_, fun h => ?_⟩⟩
  · rw [applyField_skills_eq, foldl_parseSkillToken]
  · unfold skillOfToken
    dsimp only []
    rw [if_neg (by omega)]
  · unfold skillOfToken
    dsimp only []
    rw [if_pos h]
    exact ⟨_, rfl, rfl, rfl, rfl, rfl, rfl, rfl⟩

/-- C12, worked example: a card with one skill and a `Skills` line of three
tokens, the second with 2 fields only, ends with three skills. -/
theorem skills_line_appends_witness :
    (splitAndTrim "bad, 1".toList ',').length < 6
      ∧ skillOfToken "bad, 1".toList = none
      ∧ 6 ≤ (splitAndTrim "Tackle,10,,0,TRUE,2".toList ',').length
      ∧ skillOfToken "Tackle,10,,0,TRUE,2".toList
          = some { skillName := "Tackle".toList, dmg := 10, flipCoin := true, maxFlip := 2 }
      ∧ applyField "Skills".toList
          "Fire Blast, 60, Fire:2, 0, false, 0; bad, 1; Tackle,10,,0,TRUE,2".toList
          { skills := [ember] }
        = { skills := [ember,
              { skillName := "Fire Blast".toList, dmg := 60,
                energyRequirements := [{ energyType := "Fire".toList, amount := 2 }] },
              { skillName := "Tackle".toList, dmg := 10, flipCoin := true, maxFlip := 2 }] } :=
  ⟨by decide,
    ((skills_line_appends [] {}).2 "bad, 1".toList).1 (by decide),
    by decide, by decide, by decide⟩
/-- C13. Energy cost spec: for a skill token with at least 6 fields, the skill
that the loop body appends has as `energyRequirements` exactly, in order, one
entry for each `|`-separated element of field 2 that contains a colon, with
`energyType` = the trimmed text before the first colon and `amount` =
`parseIntOrZero` of the text after it; an element without a colon gives no
entry and leaves the entries of the other elements as they are. -/
theorem energy_cost_spec (skillToken : CppString) (p : Pokemon)
    (h : 6 ≤ (splitAndTrim skillToken ',').length) :
    ∃ s, parseSkillToken skillToken p = { p with skills := p.skills ++ [s] }
      ∧ s.energyRequirements
          = (splitAndTrim ((splitAndTrim skillToken ',').getD 2 []) '|').filterMap
              (fun element =>
                if ':' ∈ element then
                  some { energyType := trim (element.takeWhile (fun c => c != ':')),
                         amount := parseIntOrZero
                           ((element.dropWhile (fun c => c != ':')).drop 1) }
                else none) := by
  rw [parseSkillToken_eq]
  unfold skillOfToken
  dsimp only []
  rw [if_pos h]
  exact ⟨_, rfl, rfl⟩

/-- C13, worked example: the cost field `Fire:2|Any|Water: 1x` gives the two
entries (Fire, 2) and (Water, 1); the element `Any` gives none. -/
theorem energy_cost_spec_witness :
    6 ≤ (splitAndTrim "Fire Blast, 60, Fire:2|Any|Water: 1x, 0, false, 0".toList ',').length
      ∧ (∃ s, parseSkillToken "Fire Blast, 60, Fire:2|Any|Water: 1x, 0, false, 0".toList {}
            = { ({} : Pokemon) with skills := ({} : Pokemon).skills ++ [s] }
          ∧ s.energyRequirements
              = (splitAndTrim
                  ((splitAndTrim "Fire Blast, 60, Fire:2|Any|Water: 1x, 0, false, 0".toList
                    ',').getD 2 []) '|').filterMap
                  (fun element =>
                    if ':' ∈ element then
                      some { energyType := trim (element.takeWhile (fun c => c != ':')),
                             amount := parseIntOrZero
                               ((element.dropWhile (fun c => c != ':')).drop 1) }
                    else none))
      ∧ parseSkillToken "Fire Blast, 60, Fire:2|Any|Water: 1x, 0, false, 0".toList {}
          = { skills :=
                [{ skillName := "Fire Blast".toList
                   dmg := 60
                   energyRequirements :=
                     [{ energyType := "Fire".toList, amount := 2 },
                      { energyType := "Water".toList, amount := 1 }] }] } :=
  ⟨by decide,
    energy_cost_spec "Fire Blast, 60, Fire:2|Any|Water: 1x, 0, false, 0".toList {}
      (by decide),
    by decide⟩

theorem applyField_skillEffect_eq (value : CppString) (p : Pokemon) :
    applyField "SkillEffect".toList value p
      = match p.skills.getLast? with
        | none => p
        | some last =>
          let effect := (splitAndTrim value ';').foldl
            (fun effect tok => applySkillEffectToken (trim tok) effect) last.specialEffect
          { p with skills := p.skills.dropLast ++ [{ last with specialEffect := effect }] } := by
  unfold applyField
  rw [if_neg (by decide), if_neg (by decide), if_neg (by decide), if_neg (by decide),
    if_neg (by decide), if_neg (by decide), if_neg (by decide), if_neg (by decide),
    if_neg (by decide), if_neg (by decide), if_neg (by decide), if_neg (by decide),
    if_neg (by decide), if_pos (by decide)]

theorem foldl_effect_trimmed (tokens : List CppString) (htrim : ∀ t ∈ tokens, trim t = t)
    (e : SpecialSkill) :
    tokens.foldl (fun effect tok => applySkillEffectToken (trim tok) effect) e
      = tokens.foldl (fun effect tok => applySkillEffectToken tok effect) e := by
  induction tokens generalizing e with
  | nil => rfl
  | cons t rest ih =>
    rw [List.foldl_cons, List.foldl_cons, htrim t (List.mem_cons_self t rest)]
    exact ih (fun x hx => htrim x (List.mem_cons_of_mem t hx)) _

/-- C14. SkillEffect target and frame: on a card without skills a `SkillEffect`
line leaves the whole card as it is; on a card whose skills are `earlier`
followed by `last` it folds the `;`-separated tokens, in order, into the
special effect of `last`, and every earlier skill, the other fields of `last`
and all other fields of the card stay as they are. -/
theorem skillEffect_line_frame (value : CppString) (p : Pokemon) :
    (p.skills = [] → applyField "SkillEffect".toList value p = p)
      ∧ ∀ (earlier : List Skill) (last : Skill), p.skills = earlier ++ [last] →
          applyField "SkillEffect".toList value p
            = { p with
                skills := earlier ++
                  [{ last with
                     specialEffect :=
                       (splitAndTrim value ';').foldl
                         (fun effect token => applySkillEffectToken token effect)
                         last.specialEffect }] } := by
  rw [applyField_skillEffect_eq]
  refine ⟨fun hnil => by rw [hnil]; rfl, fun earlier last hskills => ?_⟩
  rw [hskills, List.getLast?_concat, List.dropLast_concat]
  dsimp only []
  rw [foldl_effect_trimmed _ (splitAndTrim_trimmed value ';')]

/-- C14, worked example: `Heal:20; PoisonOpp` on a card with the skills
`fireBlast` and `ember` changes the special effect of `ember` only; on a card
without skills it changes nothing. -/
theorem skillEffect_line_frame_witness :
    ({ name := "Eevee".toList } : Pokemon).skills = []
      ∧ applyField "SkillEffect".toList "Heal:20; PoisonOpp".toList { name := "Eevee".toList }
          = { name := "Eevee".toList }
      ∧ ({ hp := 90, skills := [fireBlast, ember] } : Pokemon).skills = [fireBlast] ++ [ember]
      ∧ applyField "SkillEffect".toList "Heal:20; PoisonOpp".toList
          { hp := 90, skills := [fireBlast, ember] }
          = { hp := 90, skills := [fireBlast,
                { ember with specialEffect := { heal := 20, poisonOpp := true } }] } :=
  ⟨rfl,
    (skillEffect_line_frame "Heal:20; PoisonOpp".toList { name := "Eevee".toList }).1 rfl,
    rfl,
    by
      rw [(skillEffect_line_frame "Heal:20; PoisonOpp".toList
        { hp := 90, skills := [fireBlast, ember] }).2 [fireBlast] ember rfl]
      decide⟩

theorem parseAbilityToken_eq (tok : CppString) (p : Pokemon) :
    parseAbilityToken tok p
      = { p with abilities := p.abilities ++ (abilityOfEntry tok).toList } := by
  unfold parseAbilityToken abilityOfEntry
  dsimp only []
  cases hparts : splitAndTrim tok '|' with
  | nil => simp
  | cons name rest =>
    have hemp : ¬ (name :: rest).isEmpty = true := by simp
    have hget : (name :: rest).getD 0 [] = name := rfl
    rw [if_neg hemp, hget]
    dsimp only []
    by_cases hnone : toLower name = "none".toList
    · rw [if_pos hnone, if_pos hnone]
      simp
    · rw [if_neg hnone, if_neg hnone]
      cases rest with
      | nil => simp [Ability.named]
      | cons d more => simp [Ability.named]

theorem foldl_parseAbilityToken (entries : List CppString) (p : Pokemon) :
    entries.foldl (fun p tok => parseAbilityToken tok p) p
      = { p with abilities := p.abilities ++ entries.filterMap abilityOfEntry } := by
  induction entries generalizing p with
  | nil => simp
  | cons t rest ih =>
    rw [List.foldl_cons, ih, parseAbilityToken_eq, List.filterMap_cons]
    cases abilityOfEntry t <;> simp

theorem applyField_abilities_eq (value : CppString) (p : Pokemon) :
    applyField "Abilities".toList value p
      = (splitAndTrim value ';').foldl (fun p tok => parseAbilityToken tok p) p := by
  unfold applyField
  rw [if_neg (by decide), if_neg (by decide), if_neg (by decide), if_neg (by decide),
    if_neg (by decide), if_neg (by decide), if_neg (by decide), if_neg (by decide),
    if_neg (by decide), if_neg (by decide), if_neg (by decide), if_neg (by decide),
    if_neg (by decide), if_neg (by decide), if_pos (by decide)]

/-- C16. Abilities line: processing an `Abilities` line keeps the abilities the
card already has and appends, in order, one ability for each `;`-separated
entry whose first `|`-separated element is not `none` in any letter case, with
`name` = the first element and `description` = the second element, or the
empty string when there is none; an empty entry and an entry named `none`
append nothing, and no other field of the card changes. -/
theorem abilities_line_appends (value : CppString) (p : Pokemon) :
    applyField "Abilities".toList value p
        = { p with abilities := p.abilities
              ++ (splitAndTrim value ';').filterMap abilityOfEntry }
      ∧ ∀ entry : CppString,
          (splitAndTrim entry '|' = [] → abilityOfEntry entry = none)
          ∧ ∀ name rest, splitAndTrim entry '|' = name :: rest →
              (toLower name = "none".toList → abilityOfEntry entry = none)
              ∧ (toLower name ≠ "none".toList →
                  abilityOfEntry entry
                    = some (Ability.named name (match rest with | [] => [] | d :: _ => d))) := by
  refine ⟨?_, fun entry => ⟨fun h => ?_, fun name rest h => ⟨fun hn => ?_, fun hn => ?_⟩⟩⟩
  · rw [applyField_abilities_eq, foldl_parseAbilityToken]
  · unfold abilityOfEntry
    rw [h]
  · unfold abilityOfEntry
    rw [h]
    dsimp only []
    rw [if_pos hn]
  · unfold abilityOfEntry
    rw [h]
    dsimp only []
    rw [if_neg hn]
    cases rest <;> rfl

/-- C16, worked example: of the entries `Static|Paralyzes`, `NONE`, an empty
one and `Swift`, the first and the last are appended. -/
theorem abilities_line_appends_witness :
    splitAndTrim "NONE".toList '|' = ["NONE".toList]
      ∧ toLower "NONE".toList = "none".toList
      ∧ abilityOfEntry "NONE".toList = none
      ∧ splitAndTrim [] '|' = []
      ∧ abilityOfEntry [] = none
      ∧ applyField "Abilities".toList "Static|Paralyzes; NONE; ;Swift".toList
          { abilities := [Ability.named "Run Away".toList []] }
        = { abilities := [Ability.named "Run Away".toList [],
              Ability.named "Static".toList "Paralyzes".toList,
              Ability.named "Swift".toList []] } :=
  ⟨by decide, by decide,
    (((abilities_line_appends [] {}).2 "NONE".toList).2 "NONE".toList [] (by decide)).1
      (by decide),
    by decide,
    ((abilities_line_appends [] {}).2 []).1 (by decide),
    by decide⟩

/-! ## Properties of the card kind, of truncated blocks and of ignored lines -/

theorem applyField_type_eq (value : CppString) (p : Pokemon) :
    applyField "Type".toList value p
      = { p with type := value, cardType := cardKindOfType value } := by
  unfold applyField cardKindOfType
  rw [if_neg (by decide), if_neg (by decide), if_pos (by decide)]
  dsimp only []
  split_ifs <;> rfl

theorem applyField_cardType_eq (value : CppString) (p : Pokemon) :
    applyField "CardType".toList value p = { p with cardType := parseIntOrZero value } := by
  unfold applyField
  rw [if_neg (by decide), if_neg (by decide), if_neg (by decide), if_neg (by decide),
    if_neg (by decide), if_pos (by decide)]

/-- Only the keys `Type` and `CardType` touch the fields `cardType` and
`type`. -/
theorem applyField_keeps_cardType (key value : CppString) (p : Pokemon)
    (h1 : key ≠ "Type".toList) (h2 : key ≠ "CardType".toList) :
    ((applyField key value p).cardType, (applyField key value p).type)
      = (p.cardType, p.type) := by
  suffices hall : ∀ q, applyField key value p = q →
      (q.cardType, q.type) = (p.cardType, p.type) from hall _ rfl
  intro q hq
  unfold applyField at hq
  by_cases k0 : key = "Name".toList
  · rw [if_pos k0] at hq
    subst hq
    rfl
  rw [if_neg k0] at hq
  by_cases k1 : key = "ex".toList
  · rw [if_pos k1] at hq
    subst hq
    rfl
  rw [if_neg k1] at hq
  rw [if_neg h1] at hq
  by_cases k3 : key = "Package".toList
  · rw [if_pos k3] at hq
    subst hq
    rfl
  rw [if_neg k3] at hq
  by_cases k4 : key = "CanEvolve".toList
  · rw [if_pos k4] at hq
    subst hq
    rfl
  rw [if_neg k4] at hq
  rw [if_neg h2] at hq
  by_cases k6 : key = "HP".toList
  · rw [if_pos k6] at hq
    subst hq
    rfl
  rw [if_neg k6] at hq
  by_cases k7 : key = "Stage".toList
  · rw [if_pos k7] at hq
    subst hq
    dsimp only []
    split_ifs <;> rfl
  rw [if_neg k7] at hq
  by_cases k8 : key = "Weakness".toList
  · rw [if_pos k8] at hq
    subst hq
    rfl
  rw [if_neg k8] at hq
  by_cases k9 : key = "RetreatCost".toList
  · rw [if_pos k9] at hq
    subst hq
    rfl
  rw [if_neg k9] at hq
  by_cases k10 : key = "PrevEvo".toList
  · rw [if_pos k10] at hq
    subst hq
    rfl
  rw [if_neg k10] at hq
  by_cases k11 : key = "NextEvo".toList
  · rw [if_pos k11] at hq
    subst hq
    rfl
  rw [if_neg k11] at hq
  by_cases k12 : key = "Skills".toList
  · rw [if_pos k12] at hq
    subst hq
    rw [foldl_parseSkillToken]
  rw [if_neg k12] at hq
  by_cases k13 : key = "SkillEffect".toList
  · rw [if_pos k13] at hq
    subst hq
    cases p.skills.getLast? <;> rfl
  rw [if_neg k13] at hq
  by_cases k14 : key = "Abilities".toList
  · rw [if_pos k14] at hq
    subst hq
    rw [foldl_parseAbilityToken]
  rw [if_neg k14] at hq
  subst hq
  rfl

/-- A line that is neither a `Type` nor a `CardType` line keeps `cardType` and
`type`. -/
theorem stepLine_keeps_cardType (q : Pokemon) (l : CppString)
    (hl : cardTypeLine l = false) :
    (stepLine q l).cardType = q.cardType ∧ (stepLine q l).type = q.type := by
  unfold stepLine
  unfold cardTypeLine at hl
  cases hkv : keyValue l with
  | none => exact ⟨rfl, rfl⟩
  | some kv =>
    obtain ⟨key, value⟩ := kv
    rw [hkv] at hl
    simp only [Bool.or_eq_false_iff, beq_eq_false_iff_ne, ne_eq] at hl
    have h := applyField_keeps_cardType key value q hl.1 hl.2
    exact ⟨congrArg Prod.fst h, congrArg Prod.snd h⟩

theorem foldl_stepLine_keeps_cardType (after : List CppString) (q : Pokemon)
    (hafter : ∀ l ∈ after, cardTypeLine l = false) :
    (after.foldl stepLine q).cardType = q.cardType
      ∧ (after.foldl stepLine q).type = q.type := by
  induction after generalizing q with
  | nil => exact ⟨rfl, rfl⟩
  | cons l after ih =>
    rw [List.foldl_cons]
    have hstep := stepLine_keeps_cardType q l (hafter l (List.mem_cons_self l after))
    have hrest := ih (stepLine q l) (fun x hx => hafter x (List.mem_cons_of_mem l hx))
    exact ⟨hrest.1.trans hstep.1, hrest.2.trans hstep.2⟩

theorem isEndLine_false_of_keyValue {l : CppString} {kv : CppString × CppString}
    (h : keyValue l = some kv) : isEndLine l = false := by
  cases hend : isEndLine l with
  | false => rfl
  | true =>
    rw [keyValue_none_of_isEndLine hend] at h
    exact absurd h (by simp)

/-- A complete block with one line singled out: the card is the one obtained
by applying the lines before it, the line, and the lines after it. -/
theorem parsePokemonBlock_around (before after rest : List CppString)
    (line endLine : CppString) (p : Pokemon)
    (hbefore : ∀ l ∈ before, isEndLine l = false) (hline : isEndLine line = false)
    (hafter : ∀ l ∈ after, isEndLine l = false) (hend : isEndLine endLine = true) :
    parsePokemonBlock (before ++ line :: (after ++ endLine :: rest)) p
      = (true, after.foldl stepLine (stepLine (before.foldl stepLine p) line), rest) := by
  have hbody : ∀ l ∈ before ++ line :: after, isEndLine l = false := by
    intro l hl
    rcases List.mem_append.mp hl with h | h
    · exact hbefore l h
    · rcases List.mem_cons.mp h with rfl | h
      · exact hline
      · exact hafter l h
  have hlist : before ++ line :: (after ++ endLine :: rest)
      = (before ++ line :: after) ++ endLine :: rest := by simp
  rw [hlist, parsePokemonBlock_terminated _ rest endLine p hbody hend, List.foldl_append,
    List.foldl_cons]

/-- C15. Card kind classification: a `Type` line with value `v` records `v` as
the raw type and sets `cardType` to 1 if `v` is exactly `Supporter`, 2 if it is
exactly `Item` and 0 for every other `v`; in a complete block the card keeps
this kind when no `Type` or `CardType` line follows, and when a `CardType` line
is the last line of the block that assigns the kind, the final `cardType` is
`parseIntOrZero` of that line's value instead. -/
theorem cardType_classification (before after rest : List CppString)
    (line endLine value : CppString) (p : Pokemon)
    (hbefore : ∀ l ∈ before, isEndLine l = false)
    (hafter : ∀ l ∈ after, isEndLine l = false ∧ cardTypeLine l = false)
    (hend : isEndLine endLine = true) :
    applyField "Type".toList value p
        = { p with
            type := value
            cardType := if value = "Supporter".toList then 1
                        else if value = "Item".toList then 2 else 0 }
      ∧ (keyValue line = some ("Type".toList, value) →
          ∃ card,
            parsePokemonBlock (before ++ line :: (after ++ endLine :: rest)) p
                = (true, card, rest)
              ∧ card.type = value
              ∧ card.cardType = if value = "Supporter".toList then 1
                                else if value = "Item".toList then 2 else 0)
      ∧ (keyValue line = some ("CardType".toList, value) →
          ∃ card,
            parsePokemonBlock (before ++ line :: (after ++ endLine :: rest)) p
                = (true, card, rest)
              ∧ card.cardType = parseIntOrZero value) := by
  have hkeep := fun q => foldl_stepLine_keeps_cardType after q (fun l hl => (hafter l hl).2)
  refine ⟨applyField_type_eq value p, fun hkv => ?_, fun hkv => ?_⟩
  · refine ⟨_, parsePokemonBlock_around before after rest line endLine p hbefore
      (isEndLine_false_of_keyValue hkv) (fun l hl => (hafter l hl).1) hend, ?_, ?_⟩
    · rw [(hkeep _).2]
      unfold stepLine
      rw [hkv]
      dsimp only []
      rw [applyField_type_eq]
    · rw [(hkeep _).1]
      unfold stepLine
      rw [hkv]
      dsimp only []
      rw [applyField_type_eq]
      rfl
  · refine ⟨_, parsePokemonBlock_around before after rest line endLine p hbefore
      (isEndLine_false_of_keyValue hkv) (fun l hl => (hafter l hl).1) hend, ?_⟩
    rw [(hkeep _).1]
    unfold stepLine
    rw [hkv]
    dsimp only []
    rw [applyField_cardType_eq]

/-- C15, worked example: `Type: Item` gives kind 2; a later `CardType: 1`
makes the final kind 1, the raw type staying `Item`. -/
theorem cardType_classification_witness :
    (∀ l ∈ ["Type: Item".toList, "HP: 10".toList], isEndLine l = false)
      ∧ (∀ l ∈ ["Name: Potion".toList], isEndLine l = false ∧ cardTypeLine l = false)
      ∧ isEndLine "END_POKEMON".toList = true
      ∧ keyValue "CardType: 1".toList = some ("CardType".toList, "1".toList)
      ∧ (∃ card,
          parsePokemonBlock (["Type: Item".toList, "HP: 10".toList]
              ++ "CardType: 1".toList :: (["Name: Potion".toList]
              ++ "END_POKEMON".toList :: [])) {}
            = (true, card, [])
          ∧ card.cardType = parseIntOrZero "1".toList)
      ∧ parsePokemonBlock ["Type: Item".toList, "HP: 10".toList, "CardType: 1".toList,
            "Name: Potion".toList, "END_POKEMON".toList] {}
          = (true, { name := "Potion".toList, type := "Item".toList, cardType := 1, hp := 10 },
              [])
      ∧ applyField "Type".toList "Item".toList {} = { type := "Item".toList, cardType := 2 }
      ∧ applyField "Type".toList "Supporter".toList {}
          = { type := "Supporter".toList, cardType := 1 }
      ∧ applyField "Type".toList "Fire".toList { cardType := 2 }
          = { type := "Fire".toList, cardType := 0 } :=
  ⟨by decide, by decide, by decide, by decide,
    (cardType_classification ["Type: Item".toList, "HP: 10".toList] ["Name: Potion".toList] []
      "CardType: 1".toList "END_POKEMON".toList "1".toList {} (by decide) (by decide)
      (by decide)).2.2 (by decide),
    by decide, by decide, by decide, by decide⟩

theorem isEndLine_iff (l : CppString) : isEndLine l = true ↔ trim l = "END_POKEMON".toList := by
  unfold isEndLine
  exact beq_iff_eq

theorem isEndLine_false_iff (l : CppString) :
    isEndLine l = false ↔ trim l ≠ "END_POKEMON".toList := by
  unfold isEndLine
  exact beq_eq_false_iff_ne

/-- One iteration of the loop of `parsePokemonBlock`. -/
theorem parsePokemonBlock_cons (l : CppString) (rest : List CppString) (p : Pokemon) :
    parsePokemonBlock (l :: rest) p
      = if isEndLine l = true then (true, p, rest) else parsePokemonBlock rest (stepLine p l) := by
  by_cases hend : isEndLine l = true
  · rw [if_pos hend]
    exact parsePokemonBlock_terminated [] rest l p (by simp) hend
  · rw [if_neg hend, parsePokemonBlock]
    have hneq : ¬ trim l = "END_POKEMON".toList := fun h => hend ((isEndLine_iff l).mpr h)
    unfold stepLine keyValue
    dsimp only []
    by_cases hemp : (trim l).isEmpty = true
    · simp only [hemp, if_true]
    · simp only [hemp, hneq, if_false, Bool.false_eq_true]
      cases hfind : find ':' (trim l) <;> rfl

/-- The lines before the first end marker are applied one after the other. -/
theorem parsePokemonBlock_append (body lines : List CppString) (p : Pokemon)
    (hbody : ∀ l ∈ body, isEndLine l = false) :
    parsePokemonBlock (body ++ lines) p = parsePokemonBlock lines (body.foldl stepLine p) := by
  induction body generalizing p with
  | nil => rfl
  | cons l body ih =>
    have hl : ¬ isEndLine l = true := by
      rw [hbody l (List.mem_cons_self l body)]
      decide
    rw [List.cons_append, parsePokemonBlock_cons, if_neg hl, List.foldl_cons]
    exact ih _ (fun x hx => hbody x (List.mem_cons_of_mem l hx))

/-- Without an end marker the stream is read to its end and the result is
failure. -/
theorem parsePokemonBlock_unterminated (lines : List CppString) (p : Pokemon)
    (hlines : ∀ l ∈ lines, isEndLine l = false) :
    parsePokemonBlock lines p = (false, lines.foldl stepLine p, []) := by
  have h := parsePokemonBlock_append lines [] p hlines
  rw [List.append_nil] at h
  rw [h]
  rfl

theorem parsePokemonBlock_flag (lines : List CppString) (p : Pokemon) :
    (parsePokemonBlock lines p).1 = true ↔ ∃ l ∈ lines, isEndLine l = true := by
  induction lines generalizing p with
  | nil => simp [parsePokemonBlock]
  | cons l rest ih =>
    rw [parsePokemonBlock_cons]
    by_cases hend : isEndLine l = true
    · rw [if_pos hend]
      exact ⟨fun _ => ⟨l, List.mem_cons_self l rest, hend⟩, fun _ => rfl⟩
    · rw [if_neg hend, ih]
      constructor
      · rintro ⟨x, hx, hxe⟩
        exact ⟨x, List.mem_cons_of_mem l hx, hxe⟩
      · rintro ⟨x, hx, hxe⟩
        rcases List.mem_cons.mp hx with rfl | hx
        · exact absurd hxe hend
        · exact ⟨x, hx, hxe⟩

theorem parsePokemonBlock_rest_length (lines : List CppString) (p : Pokemon) :
    (parsePokemonBlock lines p).2.2.length ≤ lines.length := by
  induction lines generalizing p with
  | nil => simp [parsePokemonBlock]
  | cons l rest ih =>
    rw [parsePokemonBlock_cons]
    by_cases hend : isEndLine l = true
    · rw [if_pos hend]
      simp
    · rw [if_neg hend]
      have := ih (stepLine p l)
      simp only [List.length_cons]
      omega

theorem parsePokemonBlock_rest_of_failure (lines : List CppString) (p : Pokemon)
    (h : (parsePokemonBlock lines p).1 = false) : (parsePokemonBlock lines p).2.2 = [] := by
  have hno : ∀ l ∈ lines, isEndLine l = false := by
    intro l hl
    cases hend : isEndLine l with
    | false => rfl
    | true =>
      have := (parsePokemonBlock_flag lines p).mpr ⟨l, hl, hend⟩
      rw [h] at this
      exact absurd this (by decide)
  rw [parsePokemonBlock_unterminated lines p hno]

/-- The one-pass reading of a block agrees with `parsePokemonBlock`. -/
theorem blockCardsFrom_some (lines : List CppString) (p : Pokemon) :
    blockCardsFrom (some p) lines
      = if (parsePokemonBlock lines p).1 = true then
          (parsePokemonBlock lines p).2.1 :: blockCardsFrom none (parsePokemonBlock lines p).2.2
        else [] := by
  induction lines generalizing p with
  | nil => simp [blockCardsFrom, parsePokemonBlock]
  | cons l rest ih =>
    rw [blockCardsFrom, parsePokemonBlock_cons]
    by_cases hend : isEndLine l = true
    · simp [hend]
    · rw [if_neg hend, if_neg hend]
      exact ih _

theorem loadCardDatabaseLoop_nil (n : Nat) (cardMap : CardMap) :
    loadCardDatabaseLoop n [] cardMap = cardMap := by
  cases n <;> rfl

theorem loadCardMapLoop_nil (n : Nat) (cardMap : CardMap) :
    loadCardMapLoop n [] cardMap = cardMap := by
  cases n <;> rfl

theorem isBeginLine_false_of_blank {l : CppString} (h : (trim l).isEmpty = true) :
    isBeginLine l = false := by
  unfold isBeginLine
  rw [List.isEmpty_iff] at h
  rw [h]
  decide

/-- The nested reading loops of `loadCardDatabase` register the cards of the
complete blocks, in source order. -/
theorem loadCardDatabaseLoop_eq (n : Nat) :
    ∀ (lines : List CppString) (cardMap : CardMap), lines.length ≤ n →
      loadCardDatabaseLoop n lines cardMap
        = (blockCardsFrom none lines).foldl register cardMap := by
  induction n using Nat.strong_induction_on with
  | _ n ih =>
    intro lines cardMap hlen
    cases lines with
    | nil => rw [loadCardDatabaseLoop_nil]; rfl
    | cons l rest =>
      obtain ⟨k, rfl⟩ : ∃ k, n = k + 1 := ⟨n - 1, by simp at hlen; omega⟩
      have hrest : rest.length ≤ k := by simp at hlen; omega
      rw [loadCardDatabaseLoop, blockCardsFrom]
      dsimp only []
      by_cases hemp : (trim l).isEmpty = true
      · rw [if_pos hemp, isBeginLine_false_of_blank hemp]
        simp only [Bool.false_eq_true, if_false]
        exact ih k (by omega) rest cardMap hrest
      · rw [if_neg hemp]
        by_cases hbegin : trim l = "BEGIN_POKEMON".toList
        · have hb : isBeginLine l = true := by
            unfold isBeginLine
            exact beq_iff_eq.mpr hbegin
          rw [if_pos hbegin, if_pos hb, blockCardsFrom_some]
          have hlen2 := parsePokemonBlock_rest_length rest {}
          by_cases hflag : (parsePokemonBlock rest {}).1 = true
          · rw [if_pos hflag, if_pos hflag, List.foldl_cons]
            exact ih k (by omega) _ _ (by omega)
          · rw [if_neg hflag, if_neg hflag]
            have hnil := parsePokemonBlock_rest_of_failure rest {} (by simpa using hflag)
            rw [hnil, loadCardDatabaseLoop_nil]
            rfl
        · have hb : ¬ isBeginLine l = true := by
            unfold isBeginLine
            intro h
            exact hbegin (beq_iff_eq.mp h)
          rw [if_neg hbegin, if_neg hb]
          exact ih k (by omega) rest cardMap hrest

/-- The reading loops of `loadCardMapFromFile` do the same. -/
theorem loadCardMapLoop_eq (n : Nat) :
    ∀ (lines : List CppString) (cardMap : CardMap), lines.length ≤ n →
      loadCardMapLoop n lines cardMap
        = (blockCardsFrom none lines).foldl register cardMap := by
  induction n using Nat.strong_induction_on with
  | _ n ih =>
    intro lines cardMap hlen
    cases lines with
    | nil => rw [loadCardMapLoop_nil]; rfl
    | cons l rest =>
      obtain ⟨k, rfl⟩ : ∃ k, n = k + 1 := ⟨n - 1, by simp at hlen; omega⟩
      have hrest : rest.length ≤ k := by simp at hlen; omega
      rw [loadCardMapLoop, blockCardsFrom]
      by_cases hbegin : trim l = "BEGIN_POKEMON".toList
      · have hb : isBeginLine l = true := by
          unfold isBeginLine
          exact beq_iff_eq.mpr hbegin
        rw [if_pos hbegin, if_pos hb, blockCardsFrom_some]
        dsimp only []
        have hlen2 := parsePokemonBlock_rest_length rest {}
        by_cases hflag : (parsePokemonBlock rest {}).1 = true
        · rw [if_pos hflag, if_pos hflag, List.foldl_cons]
          exact ih k (by omega) _ _ (by omega)
        · rw [if_neg hflag, if_neg hflag]
          have hnil := parsePokemonBlock_rest_of_failure rest {} (by simpa using hflag)
          rw [hnil, loadCardMapLoop_nil]
          rfl
      · have hb : ¬ isBeginLine l = true := by
          unfold isBeginLine
          intro h
          exact hbegin (beq_iff_eq.mp h)
        rw [if_neg hbegin, if_neg hb]
        exact ih k (by omega) rest cardMap hrest

theorem loadCardDatabase_eq (lines : List CppString) (cardMap : CardMap) :
    loadCardDatabase (some lines) cardMap = (blockCards lines).foldl register cardMap :=
  loadCardDatabaseLoop_eq lines.length lines cardMap (le_refl _)

theorem loadCardMapFromFile_eq (lines : List CppString) (cardMap : CardMap) :
    loadCardMapFromFile (some lines) cardMap = (blockCards lines).foldl register cardMap :=
  loadCardMapLoop_eq lines.length lines cardMap (le_refl _)
/-- C17. Truncated block: `parsePokemonBlock` returns success exactly when some
remaining line, trimmed, equals `END_POKEMON`, and it then leaves unread the
lines after the first such line; when the stream ends first it returns
failure, and `loadCardDatabase` and `loadCardMapFromFile`, arrived at the
`BEGIN_POKEMON` line of such a block, return the card map as it was. -/
theorem truncated_block (lines : List CppString) (p : Pokemon) (cardMap : CardMap) :
    ((parsePokemonBlock lines p).1 = true ↔ ∃ l ∈ lines, trim l = "END_POKEMON".toList)
      ∧ (∀ body endLine rest, lines = body ++ endLine :: rest →
          (∀ l ∈ body, trim l ≠ "END_POKEMON".toList) → trim endLine = "END_POKEMON".toList →
          (parsePokemonBlock lines p).1 = true ∧ (parsePokemonBlock lines p).2.2 = rest)
      ∧ ((∀ l ∈ lines, trim l ≠ "END_POKEMON".toList) →
          (parsePokemonBlock lines p).1 = false
            ∧ ∀ beginLine, trim beginLine = "BEGIN_POKEMON".toList →
                loadCardDatabase (some (beginLine :: lines)) cardMap = cardMap
                  ∧ loadCardMapFromFile (some (beginLine :: lines)) cardMap = cardMap) := by
  refine ⟨?_, ?_, ?_⟩
  · rw [parsePokemonBlock_flag]
    constructor
    · rintro ⟨l, hl, he⟩
      exact ⟨l, hl, (isEndLine_iff l).mp he⟩
    · rintro ⟨l, hl, he⟩
      exact ⟨l, hl, (isEndLine_iff l).mpr he⟩
  · intro body endLine rest hlines hbody hend
    rw [hlines, parsePokemonBlock_terminated body rest endLine p
      (fun l hl => (isEndLine_false_iff l).mpr (hbody l hl)) ((isEndLine_iff endLine).mpr hend)]
    exact ⟨rfl, rfl⟩
  · intro hno
    have hno1 : ∀ l ∈ lines, isEndLine l = false :=
      fun l hl => (isEndLine_false_iff l).mpr (hno l hl)
    refine ⟨by rw [parsePokemonBlock_unterminated lines p hno1], fun beginLine hbegin => ?_⟩
    have hb : isBeginLine beginLine = true := by
      unfold isBeginLine
      exact beq_iff_eq.mpr hbegin
    have hcards : blockCards (beginLine :: lines) = [] := by
      unfold blockCards
      rw [blockCardsFrom, if_pos hb, blockCardsFrom_some,
        parsePokemonBlock_unterminated lines {} hno1]
      rfl
    rw [loadCardDatabase_eq, loadCardMapFromFile_eq, hcards]
    exact ⟨rfl, rfl⟩

/-- C17, worked example: a block without `END_POKEMON` fails and registers
nothing; the same block with the end marker succeeds and leaves the line after
the marker unread. -/
theorem truncated_block_witness :
    (∀ l ∈ ["Name: Eevee".toList, "HP: 50".toList], trim l ≠ "END_POKEMON".toList)
      ∧ trim "BEGIN_POKEMON".toList = "BEGIN_POKEMON".toList
      ∧ (parsePokemonBlock ["Name: Eevee".toList, "HP: 50".toList] {}).1 = false
      ∧ loadCardDatabase
          (some ("BEGIN_POKEMON".toList :: ["Name: Eevee".toList, "HP: 50".toList]))
          [("pikachu".toList, pikachu60)] = [("pikachu".toList, pikachu60)]
      ∧ loadCardMapFromFile
          (some ("BEGIN_POKEMON".toList :: ["Name: Eevee".toList, "HP: 50".toList]))
          [("pikachu".toList, pikachu60)] = [("pikachu".toList, pikachu60)]
      ∧ parsePokemonBlock
          ["Name: Eevee".toList, "HP: 50".toList, " END_POKEMON ".toList, "next".toList] {}
          = (true, { name := "Eevee".toList, hp := 50 }, ["next".toList])
      ∧ loadCardDatabase
          (some ["BEGIN_POKEMON".toList, "Name: Eevee".toList, "HP: 50".toList,
            "END_POKEMON".toList]) []
          = [("eevee".toList, { name := "Eevee".toList, hp := 50 })] :=
  ⟨by decide, by decide,
    ((truncated_block ["Name: Eevee".toList, "HP: 50".toList] {} []).2.2 (by decide)).1,
    (((truncated_block ["Name: Eevee".toList, "HP: 50".toList] {}
      [("pikachu".toList, pikachu60)]).2.2 (by decide)).2 "BEGIN_POKEMON".toList
      (by decide)).1,
    (((truncated_block ["Name: Eevee".toList, "HP: 50".toList] {}
      [("pikachu".toList, pikachu60)]).2.2 (by decide)).2 "BEGIN_POKEMON".toList
      (by decide)).2,
    by decide, by decide⟩

/-- A key outside the recognized keys leaves the card as it is. -/
theorem applyField_unrecognized (key value : CppString) (p : Pokemon)
    (h : key ∉ recognizedKeys) : applyField key value p = p := by
  unfold recognizedKeys at h
  simp only [List.mem_cons, List.mem_singleton, not_or, List.not_mem_nil, not_false_eq_true,
    and_true] at h
  obtain ⟨h1, h2, h3, h4, h5, h6, h7, h8, h9, h10, h11, h12, h13, h14, h15⟩ := h
  unfold applyField
  rw [if_neg h1, if_neg h2, if_neg h3, if_neg h4, if_neg h5, if_neg h6, if_neg h7, if_neg h8,
    if_neg h9, if_neg h10, if_neg h11, if_neg h12, if_neg h13, if_neg h14, if_neg h15]

/-- A blank line, a line without a colon that is not the end marker, and a
line with an unrecognized key are passed over by the loop. -/
theorem stepLine_of_ignored (extra : CppString)
    (hextra : trim extra = []
      ∨ (find ':' (trim extra) = none ∧ trim extra ≠ "END_POKEMON".toList)
      ∨ ∃ key value, keyValue extra = some (key, value) ∧ key ∉ recognizedKeys) :
    isEndLine extra = false ∧ ∀ q, stepLine q extra = q := by
  rcases hextra with hblank | ⟨hfind, hne⟩ | ⟨key, value, hkv, hkey⟩
  · constructor
    · rw [isEndLine_false_iff, hblank]
      decide
    · intro q
      unfold stepLine keyValue
      rw [hblank]
      rfl
  · refine ⟨(isEndLine_false_iff extra).mpr hne, fun q => ?_⟩
    unfold stepLine keyValue
    dsimp only []
    rw [hfind]
    split_ifs <;> rfl
  · refine ⟨isEndLine_false_of_keyValue hkv, fun q => ?_⟩
    unfold stepLine
    rw [hkv]
    exact applyField_unrecognized key value q hkey

/-- C18. Bad-line resilience: an extra line that is blank, or has no colon and
is not `END_POKEMON`, or has a key that is not one of the recognized keys,
inserted at any position before the terminating `END_POKEMON` line, changes
neither the success result of `parsePokemonBlock`, nor the card, nor the lines
left unread. -/
theorem bad_line_resilience (before after : List CppString) (extra : CppString) (p : Pokemon)
    (hbefore : ∀ l ∈ before, trim l ≠ "END_POKEMON".toList)
    (hextra : trim extra = []
      ∨ (find ':' (trim extra) = none ∧ trim extra ≠ "END_POKEMON".toList)
      ∨ ∃ key value, keyValue extra = some (key, value) ∧ key ∉ recognizedKeys) :
    parsePokemonBlock (before ++ extra :: after) p = parsePokemonBlock (before ++ after) p := by
  have hb : ∀ l ∈ before, isEndLine l = false :=
    fun l hl => (isEndLine_false_iff l).mpr (hbefore l hl)
  obtain ⟨hend, hstep⟩ := stepLine_of_ignored extra hextra
  have hne : ¬ isEndLine extra = true := by
    rw [hend]
    decide
  rw [parsePokemonBlock_append before _ p hb, parsePokemonBlock_append before _ p hb,
    parsePokemonBlock_cons, if_neg hne, hstep]

/-- C18, worked example: a line with the unknown key `Rarity`, a line without a
colon and a blank line, each inserted after the `Name` line of a block, leave
the result as it is. -/
theorem bad_line_resilience_witness :
    (∀ l ∈ ["Name: Eevee".toList], trim l ≠ "END_POKEMON".toList)
      ∧ (∃ key value, keyValue "Rarity: common".toList = some (key, value)
          ∧ key ∉ recognizedKeys)
      ∧ parsePokemonBlock (["Name: Eevee".toList]
            ++ "Rarity: common".toList :: ["HP: 50".toList, "END_POKEMON".toList]) {}
          = parsePokemonBlock (["Name: Eevee".toList]
            ++ ["HP: 50".toList, "END_POKEMON".toList]) {}
      ∧ parsePokemonBlock ["Name: Eevee".toList, "BEGIN_POKEMON".toList, "  ".toList,
            "HP: 50".toList, "END_POKEMON".toList] {}
          = (true, { name := "Eevee".toList, hp := 50 }, [])
      ∧ parsePokemonBlock ["Name: Eevee".toList, "HP: 50".toList, "END_POKEMON".toList] {}
          = (true, { name := "Eevee".toList, hp := 50 }, []) :=
  ⟨by decide, ⟨"Rarity".toList, "common".toList, by decide, by decide⟩,
    bad_line_resilience ["Name: Eevee".toList] ["HP: 50".toList, "END_POKEMON".toList]
      "Rarity: common".toList {} (by decide)
      (Or.inr (Or.inr ⟨"Rarity".toList, "common".toList, by decide, by decide⟩)),
    by decide, by decide⟩

/-! ## Properties of the card repository and of deck assembly -/

theorem mem_mapAssign {m : CardMap} {key : CppString} {card : Pokemon}
    {e : CppString × Pokemon} (h : e ∈ mapAssign m key card) : e ∈ m ∨ e = (key, card) := by
  induction m with
  | nil =>
    rw [mapAssign] at h
    exact Or.inr (List.mem_singleton.mp h)
  | cons x rest ih =>
    obtain ⟨k, c⟩ := x
    rw [mapAssign] at h
    by_cases hk : k = key
    · rw [if_pos hk] at h
      rcases List.mem_cons.mp h with rfl | h
      · exact Or.inr rfl
      · exact Or.inl (List.mem_cons_of_mem _ h)
    · rw [if_neg hk] at h
      rcases List.mem_cons.mp h with rfl | h
      · exact Or.inl (List.mem_cons_self _ _)
      · rcases ih h with h1 | h1
        · exact Or.inl (List.mem_cons_of_mem _ h1)
        · exact Or.inr h1

theorem keys_mapAssign (m : CardMap) (key : CppString) (card : Pokemon) :
    (mapAssign m key card).map Prod.fst
      = if key ∈ m.map Prod.fst then m.map Prod.fst else m.map Prod.fst ++ [key] := by
  induction m with
  | nil => simp [mapAssign]
  | cons x rest ih =>
    obtain ⟨k, c⟩ := x
    rw [mapAssign]
    by_cases hk : k = key
    · subst hk
      rw [if_pos rfl, List.map_cons, List.map_cons, if_pos (List.mem_cons_self _ _)]
    · rw [if_neg hk, List.map_cons, ih, List.map_cons]
      have hk2 : ¬ key = k := fun h => hk h.symm
      by_cases hmem : key ∈ rest.map Prod.fst
      · rw [if_pos hmem, if_pos (List.mem_cons_of_mem _ hmem)]
      · have hmem2 : ¬ key ∈ k :: rest.map Prod.fst := by
          intro h
          rcases List.mem_cons.mp h with h | h
          · exact hk2 h
          · exact hmem h
        rw [if_neg hmem, if_neg hmem2]
        rfl

theorem nodup_keys_mapAssign (m : CardMap) (key : CppString) (card : Pokemon)
    (h : (m.map Prod.fst).Nodup) : ((mapAssign m key card).map Prod.fst).Nodup := by
  rw [keys_mapAssign]
  by_cases hmem : key ∈ m.map Prod.fst
  · rw [if_pos hmem]
    exact h
  · rw [if_neg hmem]
    exact List.Nodup.append h (List.nodup_singleton key)
      (by
        intro a ha hb
        rw [List.mem_singleton] at hb
        exact hmem (hb ▸ ha))

theorem mapFind_mapAssign (m : CardMap) (key : CppString) (card : Pokemon)
    (key1 : CppString) :
    mapFind (mapAssign m key card) key1 = if key = key1 then some card else mapFind m key1 := by
  induction m with
  | nil => simp [mapAssign, mapFind]
  | cons x rest ih =>
    obtain ⟨k, c⟩ := x
    rw [mapAssign]
    by_cases hk : k = key
    · subst hk
      rw [if_pos rfl, mapFind, mapFind]
      split_ifs <;> rfl
    · rw [if_neg hk, mapFind, mapFind, ih]
      by_cases hk1 : k = key1
      · have : ¬ key = key1 := fun h => hk (hk1.trans h.symm)
        rw [if_pos hk1, if_neg this, if_pos hk1]
      · rw [if_neg hk1, if_neg hk1]

/-- After a sequence of registrations the card found under a key is the last
registered card with that normalized name, or else the card found before. -/
theorem mapFind_foldl_register (cards : List Pokemon) (m : CardMap) (key : CppString) :
    mapFind (cards.foldl register m) key
      = match cards.reverse.find? (fun c => normalize c.name == key) with
        | some c => some c
        | none => mapFind m key := by
  induction cards generalizing m with
  | nil => rfl
  | cons c rest ih =>
    rw [List.foldl_cons, ih, List.reverse_cons, List.find?_append]
    cases hfind : rest.reverse.find? (fun c => normalize c.name == key) with
    | some d => rfl
    | none =>
      unfold register
      rw [mapFind_mapAssign]
      by_cases hk : normalize c.name = key
      · simp [hk]
      · simp [hk]

theorem foldl_register_invariants (cards : List Pokemon) (m : CardMap) :
    ((∀ e ∈ m, e.1 = normalize e.2.name) →
        ∀ e ∈ cards.foldl register m, e.1 = normalize e.2.name)
      ∧ ((m.map Prod.fst).Nodup → ((cards.foldl register m).map Prod.fst).Nodup) := by
  induction cards generalizing m with
  | nil => exact ⟨fun h => h, fun h => h⟩
  | cons c rest ih =>
    rw [List.foldl_cons]
    refine ⟨fun h => (ih (register m c)).1 ?_, fun h => (ih (register m c)).2 ?_⟩
    · intro e he
      unfold register at he
      rcases mem_mapAssign he with h1 | h1
      · exact h e h1
      · rw [h1]
    · exact nodup_keys_mapAssign m _ c h

/-- The cards of a source that starts with a complete block. -/
theorem blockCards_complete_block (beginLine endLine : CppString) (body rest : List CppString)
    (hbegin : isBeginLine beginLine = true) (hbody : ∀ l ∈ body, isEndLine l = false)
    (hend : isEndLine endLine = true) :
    blockCards (beginLine :: (body ++ endLine :: rest))
      = body.foldl stepLine {} :: blockCards rest := by
  unfold blockCards
  rw [blockCardsFrom, if_pos hbegin, blockCardsFrom_some,
    parsePokemonBlock_terminated body rest endLine {} hbody hend]
  rfl

/-- C19. Repository keys and last-write-wins: loading a source registers the
cards of its complete blocks in source order; if every card of the map was
stored under `normalize` of its name, so is every card afterwards; keys that
were unique stay unique; and the card found under a key is the card of the
last complete block whose name has that normalized form (an earlier block with
the same normalized name is overwritten), or the card found before the load
when there is no such block. -/
theorem repository_keys_last_write_wins (lines : List CppString) (cardMap : CardMap) :
    loadCardDatabase (some lines) cardMap = (blockCards lines).foldl register cardMap
      ∧ ((∀ e ∈ cardMap, e.1 = normalize e.2.name) →
          ∀ e ∈ loadCardDatabase (some lines) cardMap, e.1 = normalize e.2.name)
      ∧ ((cardMap.map Prod.fst).Nodup →
          ((loadCardDatabase (some lines) cardMap).map Prod.fst).Nodup)
      ∧ ∀ key, mapFind (loadCardDatabase (some lines) cardMap) key
          = match (blockCards lines).reverse.find? (fun c => normalize c.name == key) with
            | some c => some c
            | none => mapFind cardMap key := by
  rw [loadCardDatabase_eq]
  exact ⟨rfl, (foldl_register_invariants _ _).1, (foldl_register_invariants _ _).2,
    fun key => mapFind_foldl_register _ _ key⟩

/-- C19, worked example: the blocks `Pikachu` (hp 60) and `pika chu` (hp 70)
have the normalized name `pikachu`; after the load the map has the one key
`pikachu`, with the card of the second block. -/
theorem repository_keys_last_write_wins_witness :
    (∀ e ∈ ([] : CardMap), e.1 = normalize e.2.name)
      ∧ (([] : CardMap).map Prod.fst).Nodup
      ∧ blockCards twoPikachuSource = [pikachu60, pikachu70]
      ∧ normalize pikachu60.name = normalize pikachu70.name
      ∧ (∀ e ∈ loadCardDatabase (some twoPikachuSource) [], e.1 = normalize e.2.name)
      ∧ ((loadCardDatabase (some twoPikachuSource) []).map Prod.fst).Nodup
      ∧ loadCardDatabase (some twoPikachuSource) [] = [("pikachu".toList, pikachu70)] :=
  ⟨by decide, by decide, by decide, by decide,
    (repository_keys_last_write_wins twoPikachuSource []).2.1 (by decide),
    (repository_keys_last_write_wins twoPikachuSource []).2.2.1 (by decide),
    by decide⟩
theorem pushCopies_eq (card : Pokemon) (count : Int) (deck : List Pokemon) :
    pushCopies card count deck = deck ++ List.replicate count.toNat card := by
  unfold pushCopies
  generalize count.toNat = n
  induction n with
  | zero => simp
  | succ n ih =>
    rw [List.range_succ, List.foldl_append, ih, List.replicate_succ', List.foldl_cons,
      List.foldl_nil, List.append_assoc]

/-- The loop body of `loadPresetDeck` appends the cards that the line
denotes. -/
theorem presetDeckLine_eq (cardMap : CardMap) (deck : List Pokemon) (rawLine : CppString) :
    presetDeckLine cardMap deck rawLine = deck ++ entryCards cardMap rawLine := by
  unfold presetDeckLine entryCards
  dsimp only []
  by_cases hemp : (trim rawLine).isEmpty = true
  · rw [if_pos hemp]
    rw [List.isEmpty_iff] at hemp
    rw [hemp]
    simp [splitAndTrim, splitLoop, getline]
  · rw [if_neg hemp]
    cases htok : splitAndTrim (trim rawLine) ',' with
    | nil => simp
    | cons name rest =>
      cases rest with
      | nil => simp
      | cons count more =>
        have hlen : ¬ (name :: count :: more).length < 2 := by simp
        rw [if_neg hlen]
        have h0 : (name :: count :: more).getD 0 [] = name := rfl
        have h1 : (name :: count :: more).getD 1 [] = count := rfl
        rw [h0, h1]
        dsimp only []
        cases mapFind cardMap (normalize name) with
        | none => simp
        | some card => exact pushCopies_eq card _ deck

theorem foldl_presetDeckLine (cardMap : CardMap) (lines : List CppString)
    (deck : List Pokemon) :
    lines.foldl (presetDeckLine cardMap) deck
      = deck ++ (lines.map (entryCards cardMap)).flatten := by
  induction lines generalizing deck with
  | nil => simp
  | cons l rest ih =>
    rw [List.foldl_cons, ih, presetDeckLine_eq, List.map_cons, List.flatten_cons,
      List.append_assoc]

/-- C20. Deck assembly: `loadPresetDeck` returns the repository as it was and
the prior deck followed, line by line in order, by the cards of each entry:
`count` copies (none when `count ≤ 0`) of the card stored under `normalize` of
the name when that key exists, and nothing when the key does not exist or the
line has fewer than two fields; a deck file that cannot be opened leaves the
deck as it was. -/
theorem deck_assembly (lines : List CppString) (cardMap : CardMap) (deck : List Pokemon) :
    loadPresetDeck (some lines) cardMap deck
        = (cardMap, deck ++ (lines.map (entryCards cardMap)).flatten)
      ∧ loadPresetDeck none cardMap deck = (cardMap, deck)
      ∧ ∀ line : CppString,
          ((splitAndTrim (trim line) ',').length < 2 → entryCards cardMap line = [])
          ∧ ∀ name count more, splitAndTrim (trim line) ',' = name :: count :: more →
              (mapFind cardMap (normalize name) = none → entryCards cardMap line = [])
              ∧ ∀ card, mapFind cardMap (normalize name) = some card →
                  entryCards cardMap line = List.replicate (parseIntOrZero count).toNat card
                    ∧ (parseIntOrZero count ≤ 0 → entryCards cardMap line = []) := by
  refine ⟨?_, rfl, fun line => ⟨fun hlen => ?_, fun name count more htok => ⟨fun hnone => ?_,
    fun card hcard => ?_⟩⟩⟩
  · unfold loadPresetDeck
    dsimp only []
    rw [foldl_presetDeckLine]
  · unfold entryCards
    cases htok : splitAndTrim (trim line) ',' with
    | nil => rfl
    | cons name rest =>
      cases rest with
      | nil => rfl
      | cons count more =>
        rw [htok] at hlen
        simp only [List.length_cons] at hlen
        omega
  · unfold entryCards
    rw [htok]
    dsimp only []
    rw [hnone]
  · have heq : entryCards cardMap line
        = List.replicate (parseIntOrZero count).toNat card := by
      unfold entryCards
      rw [htok]
      dsimp only []
      rw [hcard]
    refine ⟨heq, fun hle => ?_⟩
    rw [heq, Int.toNat_of_nonpos hle]
    rfl

/-- C20, worked example: the entry `Pikachu, 3` with Pikachu in the repository
appends exactly 3 cards, each equal to the stored card; an entry for an unknown
card, an entry with one field and an entry with a negative count append
nothing. -/
theorem deck_assembly_witness :
    splitAndTrim (trim "Pikachu, 3".toList) ',' = "Pikachu".toList :: "3".toList :: []
      ∧ mapFind [("pikachu".toList, pikachu60)] (normalize "Pikachu".toList) = some pikachu60
      ∧ entryCards [("pikachu".toList, pikachu60)] "Pikachu, 3".toList
          = List.replicate (parseIntOrZero "3".toList).toNat pikachu60
      ∧ loadPresetDeck (some ["Pikachu, 3".toList]) [("pikachu".toList, pikachu60)] []
          = ([("pikachu".toList, pikachu60)], [pikachu60, pikachu60, pikachu60])
      ∧ loadPresetDeck
          (some ["Raichu, 2".toList, "Pikachu".toList, "Pikachu, -1".toList, "".toList])
          [("pikachu".toList, pikachu60)] [pikachu70]
          = ([("pikachu".toList, pikachu60)], [pikachu70]) :=
  ⟨by decide, by decide,
    ((((deck_assembly [] [("pikachu".toList, pikachu60)] []).2.2 "Pikachu, 3".toList).2
      "Pikachu".toList "3".toList [] (by decide)).2 pikachu60 (by decide)).1,
    by decide, by decide⟩

/-! ## Properties of `splitAndTrim` and of `trim` -/

theorem splitOn_ne_nil (s : CppString) (c : Char) : s.splitOn c ≠ [] :=
  List.splitOnP_ne_nil _ s

theorem splitOn_cons_delim (c : Char) (xs : CppString) :
    (c :: xs).splitOn c = [] :: xs.splitOn c := by
  unfold List.splitOn
  rw [List.splitOnP_cons]
  simp

theorem splitOn_cons_other {x c : Char} (h : x ≠ c) (xs : CppString) :
    (x :: xs).splitOn c = (xs.splitOn c).modifyHead (List.cons x) := by
  unfold List.splitOn
  rw [List.splitOnP_cons]
  simp [h]

theorem segmentsDropLastEmpty_nil (c : Char) : segmentsDropLastEmpty [] c = [] := by
  unfold segmentsDropLastEmpty
  simp [List.splitOn_nil]

theorem segmentsDropLastEmpty_cons_delim (c : Char) (xs : CppString) :
    segmentsDropLastEmpty (c :: xs) c = [] :: segmentsDropLastEmpty xs c := by
  unfold segmentsDropLastEmpty
  rw [splitOn_cons_delim]
  obtain ⟨h, t, hsplit⟩ := List.exists_cons_of_ne_nil (splitOn_ne_nil xs c)
  rw [hsplit]
  have hlast : ([] :: h :: t).getLast? = (h :: t).getLast? := by
    simp [List.getLast?_cons_cons]
  rw [hlast]
  by_cases hl : (h :: t).getLast? = some []
  · rw [if_pos hl, if_pos hl]
    rfl
  · rw [if_neg hl, if_neg hl]

theorem segmentsDropLastEmpty_cons_other {x c : Char} (h : x ≠ c) (xs : CppString) :
    segmentsDropLastEmpty (x :: xs) c
      = match segmentsDropLastEmpty xs c with
        | [] => [[x]]
        | seg :: rest => (x :: seg) :: rest := by
  unfold segmentsDropLastEmpty
  rw [splitOn_cons_other h]
  obtain ⟨seg, t, hsplit⟩ := List.exists_cons_of_ne_nil (splitOn_ne_nil xs c)
  rw [hsplit, List.modifyHead_cons]
  cases t with
  | nil =>
    by_cases hseg : seg = []
    · subst hseg
      simp
    · simp [hseg]
  | cons u t =>
    have hlast : ((x :: seg) :: u :: t).getLast? = (seg :: u :: t).getLast? := by
      simp [List.getLast?_cons_cons]
    rw [hlast]
    by_cases hl : (seg :: u :: t).getLast? = some []
    · rw [if_pos hl, if_pos hl]
      rfl
    · rw [if_neg hl, if_neg hl]

/-- The first segment is the text before the first delimiter, and the other
segments are those of the text after it. -/
theorem segmentsDropLastEmpty_unfold (c : Char) (s : CppString) (hs : s ≠ []) :
    segmentsDropLastEmpty s c
      = s.takeWhile (fun x => x != c)
          :: segmentsDropLastEmpty ((s.dropWhile (fun x => x != c)).drop 1) c := by
  induction s with
  | nil => exact absurd rfl hs
  | cons x xs ih =>
    by_cases hx : x = c
    · subst hx
      rw [segmentsDropLastEmpty_cons_delim]
      simp
    · have hne : (x != c) = true := by simpa using hx
      rw [segmentsDropLastEmpty_cons_other hx,
        List.takeWhile_cons_of_pos (p := fun y => y != c) hne,
        List.dropWhile_cons_of_pos (p := fun y => y != c) hne]
      cases xs with
      | nil => simp [segmentsDropLastEmpty_nil]
      | cons y ys => rw [ih (by simp)]

theorem getline_eq (c : Char) (s : CppString) (hs : s ≠ []) :
    getline c s
      = some (s.takeWhile (fun x => x != c), (s.dropWhile (fun x => x != c)).drop 1) := by
  induction s with
  | nil => exact absurd rfl hs
  | cons x xs ih =>
    rw [getline]
    by_cases hx : x = c
    · subst hx
      simp
    · have hne : (x != c) = true := by simpa using hx
      rw [if_neg hx, List.takeWhile_cons_of_pos (p := fun y => y != c) hne,
        List.dropWhile_cons_of_pos (p := fun y => y != c) hne]
      cases xs with
      | nil => simp [getline]
      | cons y ys => rw [ih (by simp)]

theorem splitLoop_eq (c : Char) (n : Nat) :
    ∀ s : CppString, s.length < n →
      splitLoop c n s = (segmentsDropLastEmpty s c).map trim := by
  induction n with
  | zero => intro s hs; omega
  | succ n ih =>
    intro s hs
    rw [splitLoop]
    cases s with
    | nil => simp [getline, segmentsDropLastEmpty_nil]
    | cons x xs =>
      rw [getline_eq c (x :: xs) (by simp), segmentsDropLastEmpty_unfold c (x :: xs) (by simp)]
      dsimp only []
      rw [List.map_cons, ih]
      have h1 : (((x :: xs).dropWhile (fun y => y != c)).drop 1).length
          ≤ ((x :: xs).dropWhile (fun y => y != c)).length := by
        rw [List.length_drop]
        omega
      have h2 := (List.dropWhile_sublist (l := x :: xs) (fun y => y != c)).length_le
      have h3 : ((x :: xs).dropWhile (fun y => y != c)).length ≠ 0
          → (((x :: xs).dropWhile (fun y => y != c)).drop 1).length
            < ((x :: xs).dropWhile (fun y => y != c)).length := by
        intro hpos
        rw [List.length_drop]
        omega
      by_cases h0 : ((x :: xs).dropWhile (fun y => y != c)).length = 0
      · rw [List.length_drop, h0]
        simp at hs
        omega
      · have := h3 h0
        simp at hs h2
        omega

/-- The tokens of `splitAndTrim` are the trimmed segments, the last segment
being left out when it is empty. -/
theorem splitAndTrim_eq (s : CppString) (c : Char) :
    splitAndTrim s c = (segmentsDropLastEmpty s c).map trim :=
  splitLoop_eq c (s.length + 1) s (by omega)

/-- C29. `splitAndTrim` drops a final empty field: `splitAndTrim s c` is the
list of the trimmed segments of `s` between the occurrences of `c`, empty
segments in the interior being kept and the last segment being left out when
it is empty; the empty string gives the empty list and `a,b,` gives `a`, `b`;
a skill token of 6 segments whose sixth is empty has 5 fields and is dropped by
the loop body of the `Skills` branch. -/
theorem splitAndTrim_drops_final_empty (s : CppString) (c : Char) :
    splitAndTrim s c
        = (if (s.splitOn c).getLast? = some [] then (s.splitOn c).dropLast
            else s.splitOn c).map trim
      ∧ splitAndTrim [] c = []
      ∧ splitAndTrim "a,b,".toList ',' = ["a".toList, "b".toList]
      ∧ splitAndTrim "a,,b".toList ',' = ["a".toList, [], "b".toList]
      ∧ ∀ (skillToken : CppString) (p : Pokemon),
          (skillToken.splitOn ',').length = 6 → (skillToken.splitOn ',').getLast? = some [] →
          (splitAndTrim skillToken ',').length = 5 ∧ parseSkillToken skillToken p = p := by
  refine ⟨splitAndTrim_eq s c, ?_, by decide, by decide, fun skillToken p hlen hlast => ?_⟩
  · rw [splitAndTrim_eq, segmentsDropLastEmpty_nil]
    rfl
  · have h5 : (splitAndTrim skillToken ',').length = 5 := by
      rw [splitAndTrim_eq]
      unfold segmentsDropLastEmpty
      rw [if_pos hlast, List.length_map, List.length_dropLast, hlen]
    refine ⟨h5, ?_⟩
    unfold parseSkillToken
    dsimp only []
    rw [if_pos (by omega)]

/-- C29, worked example: the skill token `Tackle,10,,0,false,` has 6 segments,
the last one empty, hence 5 fields, and the loop body drops it. -/
theorem splitAndTrim_drops_final_empty_witness :
    ("Tackle,10,,0,false,".toList.splitOn ',').length = 6
      ∧ ("Tackle,10,,0,false,".toList.splitOn ',').getLast? = some []
      ∧ (splitAndTrim "Tackle,10,,0,false,".toList ',').length = 5
      ∧ parseSkillToken "Tackle,10,,0,false,".toList { name := "Eevee".toList }
          = { name := "Eevee".toList }
      ∧ splitAndTrim "Tackle,10,,0,false,".toList ','
          = ["Tackle".toList, "10".toList, [], "0".toList, "false".toList] :=
  ⟨by decide, by decide,
    ((splitAndTrim_drops_final_empty [] ',').2.2.2.2 "Tackle,10,,0,false,".toList {}
      (by decide) (by decide)).1,
    ((splitAndTrim_drops_final_empty [] ',').2.2.2.2 "Tackle,10,,0,false,".toList
      { name := "Eevee".toList } (by decide) (by decide)).2,
    by decide⟩

theorem rdropWhile_append_rtakeWhile (p : Char → Bool) (l : CppString) :
    l.rdropWhile p ++ l.rtakeWhile p = l := by
  rw [List.rdropWhile, List.rtakeWhile, ← List.reverse_append, List.takeWhile_append_dropWhile,
    List.reverse_reverse]

theorem trim_decomposition (s : CppString) :
    ∃ leading trailing : CppString,
      s = leading ++ trim s ++ trailing
        ∧ (∀ c ∈ leading, isBlank c = true) ∧ (∀ c ∈ trailing, isBlank c = true) := by
  refine ⟨s.takeWhile isBlank, (s.dropWhile isBlank).rtakeWhile isBlank, ?_, ?_, ?_⟩
  · rw [trim_eq, List.append_assoc, rdropWhile_append_rtakeWhile,
      List.takeWhile_append_dropWhile]
  · intro c hc
    exact List.mem_takeWhile_imp hc
  · intro c hc
    exact List.mem_rtakeWhile_imp hc

theorem trimmed_ends (t : CppString) (ht : (t.dropWhile isBlank).rdropWhile isBlank = t) :
    (∀ h : t ≠ [], isBlank (t.head h) = false)
      ∧ ∀ h : t ≠ [], isBlank (t.getLast h) = false := by
  constructor
  · intro h
    cases t with
    | nil => exact absurd rfl h
    | cons x r =>
      simp only [List.head_cons]
      cases hx : isBlank x with
      | false => rfl
      | true =>
        rw [List.dropWhile_cons_of_pos hx] at ht
        have h1 := (List.rdropWhile_prefix isBlank (l := r.dropWhile isBlank)).length_le
        have h2 := (List.dropWhile_sublist (l := r) isBlank).length_le
        rw [ht] at h1
        simp at h1
        omega
  · intro h
    have hne : (t.dropWhile isBlank).rdropWhile isBlank ≠ [] := by rw [ht]; exact h
    have hl := List.rdropWhile_last_not isBlank (t.dropWhile isBlank) hne
    have heq : t.getLast h = ((t.dropWhile isBlank).rdropWhile isBlank).getLast hne := by
      congr 1
      exact ht.symm
    rw [heq]
    simpa using hl

theorem trim_ends (s : CppString) :
    (∀ h : trim s ≠ [], isBlank ((trim s).head h) = false)
      ∧ ∀ h : trim s ≠ [], isBlank ((trim s).getLast h) = false :=
  trimmed_ends (trim s) (by rw [← trim_eq, trim_trim])

/-- C26, what the code does: `trim` deletes the leading and the trailing
characters of the set `" \t"` only.  The result is a contiguous part of `s`
that neither begins nor ends with a space or a tab, and `trim` is idempotent;
but a carriage return or a newline at either end stays: `abc\r` and `\nabc`
are returned as they are, ending and beginning with a whitespace character. -/
theorem trim_keeps_carriage_return_and_newline :
    trim "abc\r".toList = "abc\r".toList
      ∧ trim "\nabc".toList = "\nabc".toList
      ∧ trim " \tabc \t".toList = "abc".toList
      ∧ isspace '\r' = true ∧ isspace '\n' = true
      ∧ ∀ s : CppString,
          trim s = (s.dropWhile isBlank).rdropWhile isBlank
            ∧ (∃ leading trailing : CppString,
                s = leading ++ trim s ++ trailing
                  ∧ (∀ c ∈ leading, c = ' ' ∨ c = '\t')
                  ∧ (∀ c ∈ trailing, c = ' ' ∨ c = '\t'))
            ∧ (trim s).head? ≠ some ' ' ∧ (trim s).head? ≠ some '\t'
            ∧ (trim s).getLast? ≠ some ' ' ∧ (trim s).getLast? ≠ some '\t'
            ∧ trim (trim s) = trim s := by
  refine ⟨by decide, by decide, by decide, by decide, by decide, fun s => ⟨trim_eq s, ?_, ?_, ?_,
    ?_, ?_, trim_trim s⟩⟩
  · obtain ⟨leading, trailing, hs, hl, ht⟩ := trim_decomposition s
    exact ⟨leading, trailing, hs, fun c hc => (isBlank_iff c).mp (hl c hc),
      fun c hc => (isBlank_iff c).mp (ht c hc)⟩
  · intro h
    have hne : trim s ≠ [] := by intro h0; rw [h0] at h; simp at h
    have hb := (trim_ends s).1 hne
    rw [List.head?_eq_head hne] at h
    rw [Option.some.inj h] at hb
    exact absurd hb (by decide)
  · intro h
    have hne : trim s ≠ [] := by intro h0; rw [h0] at h; simp at h
    have hb := (trim_ends s).1 hne
    rw [List.head?_eq_head hne] at h
    rw [Option.some.inj h] at hb
    exact absurd hb (by decide)
  · intro h
    have hne : trim s ≠ [] := by intro h0; rw [h0] at h; simp at h
    have hb := (trim_ends s).2 hne
    rw [List.getLast?_eq_getLast _ hne] at h
    rw [Option.some.inj h] at hb
    exact absurd hb (by decide)
  · intro h
    have hne : trim s ≠ [] := by intro h0; rw [h0] at h; simp at h
    have hb := (trim_ends s).2 hne
    rw [List.getLast?_eq_getLast _ hne] at h
    rw [Option.some.inj h] at hb
    exact absurd hb (by decide)

/-! ## The parallel first ply and the sequential search -/

theorem sumOutcomes_of_state_function {σ : Type} (run : GameState → σ → Option (ℚ × σ))
    (value : GameState → ℚ) (cs : List GameState)
    (hrun : ∀ c ∈ cs, ∀ g, run c g = some (value c, g)) (total : ℚ) (g : σ) :
    sumOutcomes run cs total g = some (total + (cs.map value).sum, g) := by
  induction cs generalizing total with
  | nil => simp [sumOutcomes]
  | cons c rest ih =>
    rw [sumOutcomes, hrun c (List.mem_cons_self c rest) g]
    simp only []
    rw [ih (fun c1 hc1 => hrun c1 (List.mem_cons_of_mem c hc1))]
    simp [add_assoc]

theorem sequential_of_state_function {σ : Type} (f : GameState → ℚ) :
    ∀ (d budget : Nat) (state : GameState) (g : σ), d < budget →
      simulateDecisionTreeSequential (fun s (g1 : σ) => (f s, g1)) budget state (d : Int) g
        = some (searchValue f d state, g) := by
  intro d
  induction d with
  | zero =>
    intro budget state g hb
    obtain ⟨b, rfl⟩ : ∃ b, budget = b + 1 := ⟨budget - 1, by omega⟩
    rw [simulateDecisionTreeSequential_succ]
    simp [searchValue]
  | succ n ih =>
    intro budget state g hb
    obtain ⟨b, rfl⟩ : ∃ b, budget = b + 1 := ⟨budget - 1, by omega⟩
    rw [simulateDecisionTreeSequential_succ, searchValue]
    have hd : ((n + 1 : Nat) : Int) ≠ 0 := by omega
    rw [if_neg hd]
    by_cases he : (nextStates state).isEmpty = true
    · rw [if_pos he, if_pos he]
    · rw [if_neg he, if_neg he]
      have hsub : ((n + 1 : Nat) : Int) - 1 = (n : Int) := by omega
      rw [hsub, sumOutcomes_of_state_function _ (searchValue f n) (nextStates state)
        (fun c _ g1 => ih b c g1 (by omega))]
      simp

/-- C27: for a deterministic leaf evaluator (a function `f` of the state that
leaves the generator alone), every state, every depth `>= 0` and a nesting
budget above the depth, `simulateDecisionTree` returns a value, the same one
as `simulateDecisionTreeSequential`, namely `searchValue f depth state`; and
the first ply summed in any rearrangement `order` of the children and divided
by the branch count gives that value too. -/
theorem parallel_first_ply_equals_sequential {σ : Type} (f : GameState → ℚ) (budget : Nat)
    (state : GameState) (depth : Int) (g : σ) (order : List GameState)
    (hdepth : 0 ≤ depth) (hbudget : depth.toNat < budget)
    (horder : order.Perm (nextStates state)) :
    simulateDecisionTree (fun s (g1 : σ) => (f s, g1)) budget state depth g
        = simulateDecisionTreeSequential (fun s (g1 : σ) => (f s, g1)) budget state depth g
      ∧ simulateDecisionTreeReduction (fun s (g1 : σ) => (f s, g1)) budget state depth g order
        = simulateDecisionTreeSequential (fun s (g1 : σ) => (f s, g1)) budget state depth g
      ∧ simulateDecisionTreeSequential (fun s (g1 : σ) => (f s, g1)) budget state depth g
        = some (searchValue f depth.toNat state, g) := by
  obtain ⟨d, rfl⟩ : ∃ d : Nat, depth = (d : Int) := ⟨depth.toNat, (Int.toNat_of_nonneg hdepth).symm⟩
  simp only [Int.toNat_ofNat] at hbudget ⊢
  have hseq := sequential_of_state_function (σ := σ) f d budget state g hbudget
  refine ⟨simulateDecisionTree_eq_sequential _ budget state _ g, ?_, hseq⟩
  rw [hseq]
  obtain ⟨b, rfl⟩ : ∃ b, budget = b + 1 := ⟨budget - 1, by omega⟩
  rw [simulateDecisionTreeReduction]
  cases d with
  | zero => simp [searchValue]
  | succ n =>
    have hd : ((n + 1 : Nat) : Int) ≠ 0 := by omega
    rw [if_neg hd, searchValue]
    simp only []
    by_cases he : (nextStates state).isEmpty = true
    · rw [if_pos he, if_pos he]
    · rw [if_neg he, if_neg he]
      have hsub : ((n + 1 : Nat) : Int) - 1 = (n : Int) := by omega
      rw [hsub, sumOutcomes_of_state_function _ (searchValue f n) order
        (fun c _ g1 => sequential_of_state_function f n b c g1 (by omega))]
      simp only [zero_add]
      rw [(horder.map (searchValue f n)).sum_eq]

theorem parallel_first_ply_equals_sequential_witness :
    simulateDecisionTree (fun s (g1 : Nat) => ((s.opponentActivePokemon.hp : ℚ), g1)) 3 (twoSkillState 100) 2 0
        = simulateDecisionTreeSequential (fun s (g1 : Nat) => ((s.opponentActivePokemon.hp : ℚ), g1)) 3
            (twoSkillState 100) 2 0
      ∧ simulateDecisionTreeReduction (fun s (g1 : Nat) => ((s.opponentActivePokemon.hp : ℚ), g1)) 3
            (twoSkillState 100) 2 0 (nextStates (twoSkillState 100)).reverse
        = simulateDecisionTreeSequential (fun s (g1 : Nat) => ((s.opponentActivePokemon.hp : ℚ), g1)) 3
            (twoSkillState 100) 2 0
      ∧ simulateDecisionTreeSequential (fun s (g1 : Nat) => ((s.opponentActivePokemon.hp : ℚ), g1)) 3
            (twoSkillState 100) 2 0
        = some (searchValue (fun s => (s.opponentActivePokemon.hp : ℚ)) (2 : Int).toNat (twoSkillState 100), 0) :=
  parallel_first_ply_equals_sequential (fun s => (s.opponentActivePokemon.hp : ℚ)) 3 (twoSkillState 100) 2 0
    (nextStates (twoSkillState 100)).reverse (by decide) (by decide) (List.reverse_perm _)

/-! ## The grammar of the effect tokens -/

theorem parseIntOrZero_digits (n : CppString) (hn : ∀ c ∈ n, c.isDigit = true)
    (hfit : decimalValue n ≤ 2147483647) :
    parseIntOrZero n = (decimalValue n : Int) := by
  have hstrip := strip_trim_digits_append n [] hn (by simp)
  rw [List.append_nil] at hstrip
  unfold parseIntOrZero
  simp only [hstrip]
  by_cases hne : n = []
  · subst hne
    simp [decimalValue]
  · have hemp : ¬ n.isEmpty = true := by rwa [List.isEmpty_iff]
    rw [if_neg hemp, stoi_digits hne hn hfit]

theorem trim_of_no_blank (s : CppString) (h : ∀ c ∈ s, isBlank c = false) : trim s = s := by
  have h1 : s.dropWhile isBlank = s := by
    cases s with
    | nil => rfl
    | cons x r =>
      exact List.dropWhile_cons_of_neg (by simp [h x (List.mem_cons_self x r)])
  rw [trim_eq, h1, List.rdropWhile_eq_self_iff]
  intro hne
  simp [h _ (List.getLast_mem hne)]

theorem trim_digits (n : CppString) (hn : ∀ c ∈ n, c.isDigit = true) : trim n = n :=
  trim_of_no_blank n (fun c hc => by
    have := not_isBlank_of_isDigit (hn c hc)
    simpa using this)

theorem takeWhile_ne_append {c : Char} (d rest : CppString) (hd : c ∉ d) :
    (d ++ c :: rest).takeWhile (fun x => x != c) = d
      ∧ (d ++ c :: rest).dropWhile (fun x => x != c) = c :: rest := by
  induction d with
  | nil => simp
  | cons x r ih =>
    have hx : (x != c) = true := by
      have : x ≠ c := fun hxc => hd (by simp [hxc])
      simpa using this
    have hr : c ∉ r := fun hc => hd (List.mem_cons_of_mem x hc)
    rw [List.cons_append, List.takeWhile_cons_of_pos (p := fun x => x != c) hx,
      List.dropWhile_cons_of_pos (p := fun x => x != c) hx, (ih hr).1, (ih hr).2]
    exact ⟨rfl, rfl⟩

theorem takeWhile_ne_self {c : Char} (d : CppString) (hd : c ∉ d) :
    d.takeWhile (fun x => x != c) = d ∧ d.dropWhile (fun x => x != c) = [] := by
  constructor
  · rw [List.takeWhile_eq_self_iff]
    intro x hx
    have : x ≠ c := fun hxc => hd (hxc ▸ hx)
    simpa using this
  · rw [List.dropWhile_eq_nil_iff]
    intro x hx
    have : x ≠ c := fun hxc => hd (hxc ▸ hx)
    simpa using this

theorem splitAndTrim_two_digit_fields (d k : CppString) (hd : ∀ c ∈ d, c.isDigit = true)
    (hk : ∀ c ∈ k, c.isDigit = true) (hkne : k ≠ []) :
    splitAndTrim (d ++ ',' :: k) ',' = [d, k] := by
  have hcd : ',' ∉ d := fun h => absurd (hd _ h) (by decide)
  have hck : ',' ∉ k := fun h => absurd (hk _ h) (by decide)
  rw [splitAndTrim_eq, segmentsDropLastEmpty_unfold ',' _ (by simp),
    (takeWhile_ne_append d k hcd).1, (takeWhile_ne_append d k hcd).2, List.drop_one,
    List.tail_cons, segmentsDropLastEmpty_unfold ',' k hkne, (takeWhile_ne_self k hck).1,
    (takeWhile_ne_self k hck).2, List.drop_nil, segmentsDropLastEmpty_nil]
  simp [trim_digits d hd, trim_digits k hk]

theorem effect_heal (e : SpecialSkill) (n : CppString) :
    applySkillEffectToken ("Heal:".toList ++ n) e = { e with heal := parseIntOrZero n } := by
  simp [applySkillEffectToken, startsWith, List.isPrefixOf]

theorem effect_coinFlip (e : SpecialSkill) (n : CppString) :
    applySkillEffectToken ("CoinFlip:".toList ++ n) e
      = { e with doCoinFlips := true, damagePerFlip := parseIntOrZero n } := by
  simp [applySkillEffectToken, startsWith, List.isPrefixOf]

theorem effect_damagePerEnergy (e : SpecialSkill) (n : CppString) :
    applySkillEffectToken ("DamagePerEnergy:".toList ++ n) e
      = { e with damagePerEnergyAttached := parseIntOrZero n } := by
  simp [applySkillEffectToken, startsWith, List.isPrefixOf, find, List.findIdx?_cons]

theorem effect_energyAttached (e : SpecialSkill) (n : CppString) :
    applySkillEffectToken ("energyAttached:".toList ++ n) e
      = { e with damagePerEnergyAttached := parseIntOrZero n } := by
  simp [applySkillEffectToken, startsWith, List.isPrefixOf, find, List.findIdx?_cons]

theorem effect_randomDmg (e : SpecialSkill) (rest : CppString) :
    applySkillEffectToken ("randomDmg:".toList ++ rest) e
      = if (splitAndTrim rest ',').length = 2 then
          { e with randomHitDamage := parseIntOrZero ((splitAndTrim rest ',').getD 0 []),
                   randomHitCount := parseIntOrZero ((splitAndTrim rest ',').getD 1 []) }
        else e := by
  simp [applySkillEffectToken, startsWith, List.isPrefixOf]

theorem effect_dmgIfPoisoned (e : SpecialSkill) (n : CppString) :
    applySkillEffectToken ("dmgIfPoisoned:".toList ++ n) e
      = { e with extraDmgIfPoisoned := parseIntOrZero n } := by
  simp [applySkillEffectToken, startsWith, List.isPrefixOf]

theorem effect_reduceDmg (e : SpecialSkill) (n : CppString) :
    applySkillEffectToken ("reduceDmg:".toList ++ n) e
      = { e with damageReduction := parseIntOrZero n } := by
  simp [applySkillEffectToken, startsWith, List.isPrefixOf]

theorem effect_benchedDmg (e : SpecialSkill) (n : CppString) :
    applySkillEffectToken ("benchedDmg:".toList ++ n) e
      = { e with benchedDamage := parseIntOrZero n } := by
  simp [applySkillEffectToken, startsWith, List.isPrefixOf]

theorem effect_literals (e : SpecialSkill) :
    applySkillEffectToken "PoisonOpp".toList e = { e with poisonOpp := true }
      ∧ applySkillEffectToken "switchOut".toList e = { e with switchOutOpp := true }
      ∧ applySkillEffectToken "banSupporter".toList e = { e with banSupporter := true }
      ∧ applySkillEffectToken "BanSupporter:nextTurn".toList e = { e with banSupporter := true }
      ∧ applySkillEffectToken "ShuffleBackIfHeads".toList e
          = { e with doCoinFlips := true, numFlips := 1, shuffleOpponentBackIfHeads := true }
      ∧ applySkillEffectToken "None".toList e = e := by
  refine ⟨?_, ?_, ?_, ?_, ?_, ?_⟩ <;>
    simp [applySkillEffectToken, startsWith, List.isPrefixOf]

theorem effect_unrecognized (e : SpecialSkill) (token : CppString)
    (hliteral : token ∉ ["None".toList, "CoinFlip:ParalyzeOpp".toList,
      "ShuffleBackIfHeads".toList, "PoisonOpp".toList, "switchOut".toList,
      "banSupporter".toList, "BanSupporter:nextTurn".toList])
    (hstart : ∀ lit ∈ ["Heal:".toList, "CoinFlip:".toList, "DamagePerEnergy:".toList,
      "energyAttached:".toList, "randomDmg:".toList, "dmgIfPoisoned:".toList,
      "reduceDmg:".toList, "benchedDmg:".toList], startsWith lit token = false) :
    applySkillEffectToken token e = e := by
  simp only [List.mem_cons, List.mem_singleton, List.not_mem_nil, or_false, not_or] at hliteral
  obtain ⟨l1, l2, l3, l4, l5, l6, l7⟩ := hliteral
  have p1 := hstart "Heal:".toList (by simp)
  have p2 := hstart "CoinFlip:".toList (by simp)
  have p3 := hstart "DamagePerEnergy:".toList (by simp)
  have p4 := hstart "energyAttached:".toList (by simp)
  have p5 := hstart "randomDmg:".toList (by simp)
  have p6 := hstart "dmgIfPoisoned:".toList (by simp)
  have p7 := hstart "reduceDmg:".toList (by simp)
  have p8 := hstart "benchedDmg:".toList (by simp)
  unfold applySkillEffectToken
  rw [if_neg l1, p1, p2, p3, p4, p5, p6, p7, p8, if_neg l2, if_neg l3, if_neg l4, if_neg l5]
  simp
  intro h
  rcases h with h | h
  · exact (l6 h).elim
  · exact (l7 h).elim

/-- C28. The grammar table of the effect tokens: for every effect record `e`
and digit strings `n`, `d`, `k` (values that fit an `int`, `k` not empty),
`applySkillEffectToken` sets exactly the designated fields and keeps the other
fields of `e`: `Heal:n`, `CoinFlip:n`, `DamagePerEnergy:n` and
`energyAttached:n` (the same effect), `randomDmg:d,k`, `dmgIfPoisoned:n`,
`reduceDmg:n`, `benchedDmg:n`, the literals `PoisonOpp`, `switchOut`,
`banSupporter` and `BanSupporter:nextTurn` (the same effect),
`ShuffleBackIfHeads`, and `None`; a token that is none of the literals and
begins with none of the prefixes leaves `e` unchanged. -/
theorem effect_token_grammar (e : SpecialSkill) (n d k : CppString)
    (hn : ∀ c ∈ n, c.isDigit = true) (hnfit : decimalValue n ≤ 2147483647)
    (hd : ∀ c ∈ d, c.isDigit = true) (hdfit : decimalValue d ≤ 2147483647)
    (hk : ∀ c ∈ k, c.isDigit = true) (hkfit : decimalValue k ≤ 2147483647) (hkne : k ≠ []) :
    applySkillEffectToken ("Heal:".toList ++ n) e = { e with heal := (decimalValue n : Int) }
      ∧ applySkillEffectToken ("CoinFlip:".toList ++ n) e
          = { e with doCoinFlips := true, damagePerFlip := (decimalValue n : Int) }
      ∧ applySkillEffectToken ("DamagePerEnergy:".toList ++ n) e
          = { e with damagePerEnergyAttached := (decimalValue n : Int) }
      ∧ applySkillEffectToken ("energyAttached:".toList ++ n) e
          = { e with damagePerEnergyAttached := (decimalValue n : Int) }
      ∧ applySkillEffectToken ("randomDmg:".toList ++ (d ++ ',' :: k)) e
          = { e with randomHitDamage := (decimalValue d : Int),
                     randomHitCount := (decimalValue k : Int) }
      ∧ applySkillEffectToken ("dmgIfPoisoned:".toList ++ n) e
          = { e with extraDmgIfPoisoned := (decimalValue n : Int) }
      ∧ applySkillEffectToken ("reduceDmg:".toList ++ n) e
          = { e with damageReduction := (decimalValue n : Int) }
      ∧ applySkillEffectToken ("benchedDmg:".toList ++ n) e
          = { e with benchedDamage := (decimalValue n : Int) }
      ∧ applySkillEffectToken "PoisonOpp".toList e = { e with poisonOpp := true }
      ∧ applySkillEffectToken "switchOut".toList e = { e with switchOutOpp := true }
      ∧ applySkillEffectToken "banSupporter".toList e = { e with banSupporter := true }
      ∧ applySkillEffectToken "BanSupporter:nextTurn".toList e = { e with banSupporter := true }
      ∧ applySkillEffectToken "ShuffleBackIfHeads".toList e
          = { e with doCoinFlips := true, numFlips := 1, shuffleOpponentBackIfHeads := true }
      ∧ applySkillEffectToken "None".toList e = e
      ∧ ∀ token : CppString,
          token ∉ ["None".toList, "CoinFlip:ParalyzeOpp".toList, "ShuffleBackIfHeads".toList,
            "PoisonOpp".toList, "switchOut".toList, "banSupporter".toList,
            "BanSupporter:nextTurn".toList] →
          (∀ lit ∈ ["Heal:".toList, "CoinFlip:".toList, "DamagePerEnergy:".toList,
            "energyAttached:".toList, "randomDmg:".toList, "dmgIfPoisoned:".toList,
            "reduceDmg:".toList, "benchedDmg:".toList], startsWith lit token = false) →
          applySkillEffectToken token e = e := by
  have hpn := parseIntOrZero_digits n hn hnfit
  have hlit := effect_literals e
  refine ⟨?_, ?_, ?_, ?_, ?_, ?_, ?_, ?_, hlit.1, hlit.2.1, hlit.2.2.1, hlit.2.2.2.1,
    hlit.2.2.2.2.1, hlit.2.2.2.2.2, fun token h1 h2 => effect_unrecognized e token h1 h2⟩
  · rw [effect_heal, hpn]
  · rw [effect_coinFlip, hpn]
  · rw [effect_damagePerEnergy, hpn]
  · rw [effect_energyAttached, hpn]
  · rw [effect_randomDmg, splitAndTrim_two_digit_fields d k hd hk hkne]
    simp [parseIntOrZero_digits d hd hdfit, parseIntOrZero_digits k hk hkfit]
  · rw [effect_dmgIfPoisoned, hpn]
  · rw [effect_reduceDmg, hpn]
  · rw [effect_benchedDmg, hpn]

theorem effect_token_grammar_witness :
    applySkillEffectToken "Heal:30".toList {} = { heal := 30 }
      ∧ applySkillEffectToken "randomDmg:50,4".toList {}
          = { randomHitDamage := 50, randomHitCount := 4 }
      ∧ applySkillEffectToken "Burn".toList {} = {} := by
  have h := effect_token_grammar {} "30".toList "50".toList "4".toList (by decide) (by decide)
    (by decide) (by decide) (by decide) (by decide) (by decide)
  refine ⟨?_, ?_, ?_⟩
  · have h1 := h.1
    have hv : decimalValue "30".toList = 30 := by decide
    rw [hv] at h1
    exact h1
  · have h5 := h.2.2.2.2.1
    have hd : decimalValue "50".toList = 50 := by decide
    have hk : decimalValue "4".toList = 4 := by decide
    rw [hd, hk] at h5
    exact h5
  · exact h.2.2.2.2.2.2.2.2.2.2.2.2.2.2 "Burn".toList (by decide) (by decide)

/-! ## Properties of the meta-deck filter -/

theorem range_filterMap_get? (l : List CppString) :
    (List.range l.length).filterMap l.get? = l := by
  induction l with
  | nil => rfl
  | cons x r ih =>
    rw [List.length_cons, List.range_succ_eq_map, List.filterMap_cons, List.filterMap_map]
    simp only [List.get?_cons_zero]
    exact congrArg (List.cons x) ih

theorem deckPokemons_foldl (lines names : List CppString) :
    lines.foldl
        (fun names line =>
          if line.isEmpty || line == "BEGIN_DECK".toList || line == "END_DECK".toList then names
          else
            let tokens := splitAndTrim line ','
            if tokens.length = 2 then names ++ [toLower (tokens.getD 0 [])] else names) names
      = names ++ lines.filterMap (fun line =>
          match splitAndTrim line ',' with
          | [name, _] => some (toLower name)
          | _ => none) := by
  induction lines generalizing names with
  | nil => simp
  | cons line rest ih =>
    rw [List.foldl_cons, ih, List.filterMap_cons]
    by_cases hskip : (line.isEmpty || line == "BEGIN_DECK".toList || line == "END_DECK".toList)
        = true
    · rw [if_pos hskip]
      have hnone : (match splitAndTrim line ',' with
          | [name, _] => some (toLower name)
          | _ => none) = none := by
        simp only [Bool.or_eq_true, List.isEmpty_iff, beq_iff_eq] at hskip
        rcases hskip with (h | h) | h <;> subst h <;> decide
      rw [hnone]
    · rw [if_neg hskip]
      simp only []
      rcases hsplit : splitAndTrim line ',' with _ | ⟨a, _ | ⟨b, _ | ⟨c, t⟩⟩⟩
      · simp
      · simp
      · simp [List.getD]
      · simp

theorem deckPokemons_eq_cardNameSet (deck : CppString) : deckPokemons deck = cardNameSet deck := by
  unfold deckPokemons cardNameSet
  rw [deckPokemons_foldl, List.nil_append]

theorem allMatch_eq_deckMatches (visiblePokemons : List CppString) (deck : CppString) :
    allMatch (deckPokemons deck) visiblePokemons = deckMatches visiblePokemons deck := by
  unfold allMatch deckMatches
  rw [deckPokemons_eq_cardNameSet]

theorem localFilteredDecks_foldl (allMetaDecks visiblePokemons : List CppString)
    (indices : List Nat) (found : List CppString) :
    indices.foldl
        (fun found i =>
          match allMetaDecks.get? i with
          | none => found
          | some deck =>
            if allMatch (deckPokemons deck) visiblePokemons then found ++ [deck] else found) found
      = found ++ (indices.filterMap allMetaDecks.get?).filter (deckMatches visiblePokemons) := by
  induction indices generalizing found with
  | nil => simp
  | cons i rest ih =>
    rw [List.foldl_cons, ih, List.filterMap_cons]
    cases hget : allMetaDecks.get? i with
    | none => rfl
    | some deck =>
      simp only []
      rw [allMatch_eq_deckMatches, List.filter_cons]
      by_cases hm : deckMatches visiblePokemons deck = true
      · rw [if_pos hm, if_pos hm, List.append_assoc]
        rfl
      · rw [if_neg hm, if_neg hm]

theorem localFilteredDecks_eq (allMetaDecks visiblePokemons : List CppString)
    (indices : List Nat) :
    localFilteredDecks allMetaDecks visiblePokemons indices
      = (indices.filterMap allMetaDecks.get?).filter (deckMatches visiblePokemons) := by
  unfold localFilteredDecks
  rw [localFilteredDecks_foldl, List.nil_append]

theorem merged_foldl (allMetaDecks visiblePokemons : List CppString)
    (schedule : List (List Nat)) (filteredDecks : List CppString) :
    schedule.foldl
        (fun filteredDecks indices =>
          filteredDecks ++ localFilteredDecks allMetaDecks visiblePokemons indices) filteredDecks
      = filteredDecks
          ++ (schedule.flatten.filterMap allMetaDecks.get?).filter
              (deckMatches visiblePokemons) := by
  induction schedule generalizing filteredDecks with
  | nil => simp
  | cons indices rest ih =>
    rw [List.foldl_cons, ih, localFilteredDecks_eq, List.flatten_cons, List.filterMap_append,
      List.filter_append, List.append_assoc]

/-- The filter in closed form: the matching decks at the scheduled indices, in
the order of the schedule, and the whole catalog when there is none. -/
theorem filterMetaDecksByVisibleBoard_eq (allMetaDecks visiblePokemons : List CppString)
    (schedule : List (List Nat)) :
    filterMetaDecksByVisibleBoard allMetaDecks visiblePokemons schedule
      = if ((schedule.flatten.filterMap allMetaDecks.get?).filter
            (deckMatches visiblePokemons)).isEmpty
        then allMetaDecks
        else (schedule.flatten.filterMap allMetaDecks.get?).filter
          (deckMatches visiblePokemons) := by
  unfold filterMetaDecksByVisibleBoard
  simp only []
  rw [merged_foldl, List.nil_append]

theorem scheduled_decks_perm (allMetaDecks : List CppString) (schedule : List (List Nat))
    (hschedule : ValidSchedule allMetaDecks.length schedule) :
    (schedule.flatten.filterMap allMetaDecks.get?).Perm allMetaDecks := by
  have h := List.Perm.filterMap allMetaDecks.get? hschedule
  rwa [range_filterMap_get?] at h

theorem mem_of_mem_scheduled {allMetaDecks : List CppString} {indices : List Nat}
    {deck : CppString} (h : deck ∈ indices.filterMap allMetaDecks.get?) :
    deck ∈ allMetaDecks := by
  obtain ⟨i, _, hi⟩ := List.mem_filterMap.mp h
  exact List.get?_mem hi

theorem filter_scheduled_perm (allMetaDecks visiblePokemons : List CppString)
    (schedule : List (List Nat)) (hschedule : ValidSchedule allMetaDecks.length schedule) :
    ((schedule.flatten.filterMap allMetaDecks.get?).filter (deckMatches visiblePokemons)).Perm
      (allMetaDecks.filter (deckMatches visiblePokemons)) :=
  (scheduled_decks_perm allMetaDecks schedule hschedule).filter _

theorem filter_result_of_match (allMetaDecks visiblePokemons : List CppString)
    (schedule : List (List Nat)) (hschedule : ValidSchedule allMetaDecks.length schedule)
    (hmatch : ∃ deck ∈ allMetaDecks, deckMatches visiblePokemons deck = true) :
    filterMetaDecksByVisibleBoard allMetaDecks visiblePokemons schedule
      = (schedule.flatten.filterMap allMetaDecks.get?).filter (deckMatches visiblePokemons) := by
  rw [filterMetaDecksByVisibleBoard_eq, if_neg]
  rw [List.isEmpty_iff]
  intro hnil
  obtain ⟨deck, hmem, hm⟩ := hmatch
  have hin : deck ∈ allMetaDecks.filter (deckMatches visiblePokemons) :=
    List.mem_filter.mpr ⟨hmem, hm⟩
  have := (filter_scheduled_perm allMetaDecks visiblePokemons schedule hschedule).mem_iff.mpr hin
  rw [hnil] at this
  exact absurd this (List.not_mem_nil _)

theorem validSchedule_range (n : Nat) : ValidSchedule n [List.range n] := by
  unfold ValidSchedule
  simp

/-- C21. The matching case of the meta-deck filter: when some candidate of the
catalog matches, `filterMetaDecksByVisibleBoard` returns the candidates whose
card-name set contains the lower-cased form of every visible name, each as
often as it occurs in the catalog and no other deck; the order of the result
is that of the schedule of the loop, and a single thread gives them in
catalog order. -/
theorem filter_returns_matching_candidates (allMetaDecks visiblePokemons : List CppString)
    (schedule : List (List Nat)) (hschedule : ValidSchedule allMetaDecks.length schedule)
    (hmatch : ∃ deck ∈ allMetaDecks, deckMatches visiblePokemons deck = true) :
    (filterMetaDecksByVisibleBoard allMetaDecks visiblePokemons schedule).Perm
        (allMetaDecks.filter (deckMatches visiblePokemons))
      ∧ (∀ deck : CppString,
          (filterMetaDecksByVisibleBoard allMetaDecks visiblePokemons schedule).countP
              (fun d => decide (d = deck))
            = if deckMatches visiblePokemons deck = true
              then allMetaDecks.countP (fun d => decide (d = deck)) else 0)
      ∧ (∀ deck ∈ filterMetaDecksByVisibleBoard allMetaDecks visiblePokemons schedule,
          deck ∈ allMetaDecks ∧ deckMatches visiblePokemons deck = true)
      ∧ filterMetaDecksByVisibleBoard allMetaDecks visiblePokemons
            [List.range allMetaDecks.length]
          = allMetaDecks.filter (deckMatches visiblePokemons) := by
  have hperm : (filterMetaDecksByVisibleBoard allMetaDecks visiblePokemons schedule).Perm
      (allMetaDecks.filter (deckMatches visiblePokemons)) := by
    rw [filter_result_of_match allMetaDecks visiblePokemons schedule hschedule hmatch]
    exact filter_scheduled_perm allMetaDecks visiblePokemons schedule hschedule
  refine ⟨hperm, ?_, ?_, ?_⟩
  · intro deck
    rw [hperm.countP_eq, List.countP_filter]
    by_cases hm : deckMatches visiblePokemons deck = true
    · rw [if_pos hm]
      apply List.countP_congr
      intro d _
      by_cases hd : d = deck
      · subst hd
        simp [hm]
      · simp [hd]
    · rw [if_neg hm, List.countP_eq_zero]
      intro d _
      by_cases hd : d = deck
      · subst hd
        simp [hm]
      · simp [hd]
  · intro deck hdeck
    exact List.mem_filter.mp (hperm.mem_iff.mp hdeck)
  · rw [filter_result_of_match allMetaDecks visiblePokemons _ (validSchedule_range _) hmatch]
    simp only [List.flatten_cons, List.flatten_nil, List.append_nil]
    rw [range_filterMap_get?]

theorem filter_returns_matching_candidates_witness :
    ValidSchedule [pikachuDeck, charizardDeck, pikachuDeck].length [[2], [1, 0]]
      ∧ (∃ deck ∈ [pikachuDeck, charizardDeck, pikachuDeck],
          deckMatches ["PIKACHU".toList] deck = true)
      ∧ filterMetaDecksByVisibleBoard [pikachuDeck, charizardDeck, pikachuDeck]
          ["PIKACHU".toList] [[2], [1, 0]] = [pikachuDeck, pikachuDeck]
      ∧ (filterMetaDecksByVisibleBoard [pikachuDeck, charizardDeck, pikachuDeck]
          ["PIKACHU".toList] [[2], [1, 0]]).Perm
            ([pikachuDeck, charizardDeck, pikachuDeck].filter (deckMatches ["PIKACHU".toList])) :=
  ⟨by unfold ValidSchedule; decide, ⟨pikachuDeck, by simp, by decide⟩, by decide,
    (filter_returns_matching_candidates [pikachuDeck, charizardDeck, pikachuDeck]
      ["PIKACHU".toList] [[2], [1, 0]] (by unfold ValidSchedule; decide)
      ⟨pikachuDeck, by simp, by decide⟩).1⟩

/-- C22. The fallback of the meta-deck filter: when the card-name set of no
candidate contains all the visible names, `filterMetaDecksByVisibleBoard`
returns the catalog itself, the same decks in the same order, whatever the
schedule of the loop. -/
theorem filter_fallback_returns_catalog (allMetaDecks visiblePokemons : List CppString)
    (schedule : List (List Nat))
    (hnone : ∀ deck ∈ allMetaDecks, deckMatches visiblePokemons deck = false) :
    filterMetaDecksByVisibleBoard allMetaDecks visiblePokemons schedule = allMetaDecks := by
  rw [filterMetaDecksByVisibleBoard_eq, if_pos]
  rw [List.isEmpty_iff, List.filter_eq_nil_iff]
  intro deck hdeck
  rw [hnone deck (mem_of_mem_scheduled hdeck)]
  simp

theorem filter_fallback_returns_catalog_witness :
    (∀ deck ∈ [pikachuDeck, charizardDeck], deckMatches ["Mewtwo".toList] deck = false)
      ∧ filterMetaDecksByVisibleBoard [pikachuDeck, charizardDeck] ["Mewtwo".toList] [[1], [0]]
          = [pikachuDeck, charizardDeck] :=
  ⟨by decide,
    filter_fallback_returns_catalog [pikachuDeck, charizardDeck] ["Mewtwo".toList] [[1], [0]]
      (by decide)⟩

/-- C23, counterexample: on the catalog of the single deck `pikachuDeck` and the
visible name `Pikachu` the candidate matches, and the filter returns the whole
catalog: no candidate is excluded. -/
theorem filter_may_return_whole_catalog :
    (∃ deck ∈ [pikachuDeck], deckMatches ["Pikachu".toList] deck = true)
      ∧ ValidSchedule [pikachuDeck].length [[0]]
      ∧ filterMetaDecksByVisibleBoard [pikachuDeck] ["Pikachu".toList] [[0]] = [pikachuDeck] :=
  ⟨⟨pikachuDeck, by simp, by decide⟩, by unfold ValidSchedule; decide, by decide⟩

/-- C23, amended: when some candidate matches, the result of
`filterMetaDecksByVisibleBoard` is a sub-collection of the catalog (every deck
at most as often as in the catalog), so it is at most as long, and it is
shorter than the catalog exactly when some candidate does not match. -/
theorem filter_result_within_catalog (allMetaDecks visiblePokemons : List CppString)
    (schedule : List (List Nat)) (hschedule : ValidSchedule allMetaDecks.length schedule)
    (hmatch : ∃ deck ∈ allMetaDecks, deckMatches visiblePokemons deck = true) :
    (filterMetaDecksByVisibleBoard allMetaDecks visiblePokemons schedule).Subperm allMetaDecks
      ∧ (filterMetaDecksByVisibleBoard allMetaDecks visiblePokemons schedule).length
          ≤ allMetaDecks.length
      ∧ ((filterMetaDecksByVisibleBoard allMetaDecks visiblePokemons schedule).length
            < allMetaDecks.length
          ↔ ∃ deck ∈ allMetaDecks, deckMatches visiblePokemons deck = false) := by
  have hperm : (filterMetaDecksByVisibleBoard allMetaDecks visiblePokemons schedule).Perm
      (allMetaDecks.filter (deckMatches visiblePokemons)) := by
    rw [filter_result_of_match allMetaDecks visiblePokemons schedule hschedule hmatch]
    exact filter_scheduled_perm allMetaDecks visiblePokemons schedule hschedule
  refine ⟨hperm.subperm.trans (List.filter_sublist _).subperm, ?_, ?_⟩
  · rw [hperm.length_eq]
    exact List.length_filter_le _ _
  · rw [hperm.length_eq, List.length_filter_lt_length_iff_exists]
    simp

theorem filter_result_within_catalog_witness :
    ValidSchedule [pikachuDeck, charizardDeck].length [[1], [0]]
      ∧ (∃ deck ∈ [pikachuDeck, charizardDeck], deckMatches ["Raichu".toList] deck = true)
      ∧ (filterMetaDecksByVisibleBoard [pikachuDeck, charizardDeck] ["Raichu".toList]
            [[1], [0]]).length < [pikachuDeck, charizardDeck].length :=
  ⟨by unfold ValidSchedule; decide, ⟨pikachuDeck, by simp, by decide⟩,
    (filter_result_within_catalog [pikachuDeck, charizardDeck] ["Raichu".toList] [[1], [0]]
      (by unfold ValidSchedule; decide) ⟨pikachuDeck, by simp, by decide⟩).2.2.mpr
      ⟨charizardDeck, by simp, by decide⟩⟩

/-! ## The frame of the key chain -/

/-- The frame of `applyField`: a field of the card is kept by every key other
than its own. -/
theorem applyField_frame (key value : CppString) (p : Pokemon) :
    (key ≠ "Name".toList → (applyField key value p).name = p.name)
      ∧ (key ≠ "ex".toList → (applyField key value p).isEx = p.isEx)
      ∧ (key ≠ "Type".toList → (applyField key value p).type = p.type)
      ∧ (key ≠ "Package".toList → (applyField key value p).package = p.package)
      ∧ (key ≠ "HP".toList → (applyField key value p).hp = p.hp)
      ∧ (key ≠ "Stage".toList → (applyField key value p).stage = p.stage)
      ∧ (key ≠ "Weakness".toList → (applyField key value p).weakness = p.weakness)
      ∧ (key ≠ "RetreatCost".toList → (applyField key value p).retreatCost = p.retreatCost)
      ∧ (key ≠ "PrevEvo".toList → (applyField key value p).prevEvo = p.prevEvo)
      ∧ (key ≠ "NextEvo".toList → (applyField key value p).nextEvo = p.nextEvo)
      ∧ (key ≠ "Skills".toList → key ≠ "SkillEffect".toList →
          (applyField key value p).skills = p.skills)
      ∧ (key ≠ "Abilities".toList → (applyField key value p).abilities = p.abilities) := by
  suffices hall : ∀ q, applyField key value p = q →
      (key ≠ "Name".toList → q.name = p.name)
        ∧ (key ≠ "ex".toList → q.isEx = p.isEx)
        ∧ (key ≠ "Type".toList → q.type = p.type)
        ∧ (key ≠ "Package".toList → q.package = p.package)
        ∧ (key ≠ "HP".toList → q.hp = p.hp)
        ∧ (key ≠ "Stage".toList → q.stage = p.stage)
        ∧ (key ≠ "Weakness".toList → q.weakness = p.weakness)
        ∧ (key ≠ "RetreatCost".toList → q.retreatCost = p.retreatCost)
        ∧ (key ≠ "PrevEvo".toList → q.prevEvo = p.prevEvo)
        ∧ (key ≠ "NextEvo".toList → q.nextEvo = p.nextEvo)
        ∧ (key ≠ "Skills".toList → key ≠ "SkillEffect".toList → q.skills = p.skills)
        ∧ (key ≠ "Abilities".toList → q.abilities = p.abilities) from hall _ rfl
  intro q hq
  unfold applyField at hq
  by_cases k0 : key = "Name".toList
  · rw [if_pos k0] at hq
    subst hq
    refine ⟨?_, ?_, ?_, ?_, ?_, ?_, ?_, ?_, ?_, ?_, ?_, ?_⟩ <;>
      first
      | (intro _; rfl)
      | (intro _ _; rfl)
      | (intro h; exact absurd k0 h)
  rw [if_neg k0] at hq
  by_cases k1 : key = "ex".toList
  · rw [if_pos k1] at hq
    subst hq
    refine ⟨?_, ?_, ?_, ?_, ?_, ?_, ?_, ?_, ?_, ?_, ?_, ?_⟩ <;>
      first
      | (intro _; rfl)
      | (intro _ _; rfl)
      | (intro h; exact absurd k1 h)
  rw [if_neg k1] at hq
  by_cases k2 : key = "Type".toList
  · rw [if_pos k2] at hq
    dsimp only [] at hq
    split_ifs at hq <;> subst hq <;>
    refine ⟨?_, ?_, ?_, ?_, ?_, ?_, ?_, ?_, ?_, ?_, ?_, ?_⟩ <;>
        first
        | (intro _; rfl)
        | (intro _ _; rfl)
        | (intro h; exact absurd k2 h)
  rw [if_neg k2] at hq
  by_cases k3 : key = "Package".toList
  · rw [if_pos k3] at hq
    subst hq
    refine ⟨?_, ?_, ?_, ?_, ?_, ?_, ?_, ?_, ?_, ?_, ?_, ?_⟩ <;>
      first
      | (intro _; rfl)
      | (intro _ _; rfl)
      | (intro h; exact absurd k3 h)
  rw [if_neg k3] at hq
  by_cases k4 : key = "CanEvolve".toList
  · rw [if_pos k4] at hq
    subst hq
    refine ⟨?_, ?_, ?_, ?_, ?_, ?_, ?_, ?_, ?_, ?_, ?_, ?_⟩ <;>
      first
      | (intro _; rfl)
      | (intro _ _; rfl)
  rw [if_neg k4] at hq
  by_cases k5 : key = "CardType".toList
  · rw [if_pos k5] at hq
    subst hq
    refine ⟨?_, ?_, ?_, ?_, ?_, ?_, ?_, ?_, ?_, ?_, ?_, ?_⟩ <;>
      first
      | (intro _; rfl)
      | (intro _ _; rfl)
  rw [if_neg k5] at hq
  by_cases k6 : key = "HP".toList
  · rw [if_pos k6] at hq
    subst hq
    refine ⟨?_, ?_, ?_, ?_, ?_, ?_, ?_, ?_, ?_, ?_, ?_, ?_⟩ <;>
      first
      | (intro _; rfl)
      | (intro _ _; rfl)
      | (intro h; exact absurd k6 h)
  rw [if_neg k6] at hq
  by_cases k7 : key = "Stage".toList
  · rw [if_pos k7] at hq
    dsimp only [] at hq
    split_ifs at hq <;> subst hq <;>
    refine ⟨?_, ?_, ?_, ?_, ?_, ?_, ?_, ?_, ?_, ?_, ?_, ?_⟩ <;>
        first
        | (intro _; rfl)
        | (intro _ _; rfl)
        | (intro h; exact absurd k7 h)
  rw [if_neg k7] at hq
  by_cases k8 : key = "Weakness".toList
  · rw [if_pos k8] at hq
    subst hq
    refine ⟨?_, ?_, ?_, ?_, ?_, ?_, ?_, ?_, ?_, ?_, ?_, ?_⟩ <;>
      first
      | (intro _; rfl)
      | (intro _ _; rfl)
      | (intro h; exact absurd k8 h)
  rw [if_neg k8] at hq
  by_cases k9 : key = "RetreatCost".toList
  · rw [if_pos k9] at hq
    subst hq
    refine ⟨?_, ?_, ?_, ?_, ?_, ?_, ?_, ?_, ?_, ?_, ?_, ?_⟩ <;>
      first
      | (intro _; rfl)
      | (intro _ _; rfl)
      | (intro h; exact absurd k9 h)
  rw [if_neg k9] at hq
  by_cases k10 : key = "PrevEvo".toList
  · rw [if_pos k10] at hq
    subst hq
    refine ⟨?_, ?_, ?_, ?_, ?_, ?_, ?_, ?_, ?_, ?_, ?_, ?_⟩ <;>
      first
      | (intro _; rfl)
      | (intro _ _; rfl)
      | (intro h; exact absurd k10 h)
  rw [if_neg k10] at hq
  by_cases k11 : key = "NextEvo".toList
  · rw [if_pos k11] at hq
    subst hq
    refine ⟨?_, ?_, ?_, ?_, ?_, ?_, ?_, ?_, ?_, ?_, ?_, ?_⟩ <;>
      first
      | (intro _; rfl)
      | (intro _ _; rfl)
      | (intro h; exact absurd k11 h)
  rw [if_neg k11] at hq
  by_cases k12 : key = "Skills".toList
  · rw [if_pos k12] at hq
    rw [foldl_parseSkillToken] at hq
    subst hq
    refine ⟨?_, ?_, ?_, ?_, ?_, ?_, ?_, ?_, ?_, ?_, ?_, ?_⟩ <;>
      first
      | (intro _; rfl)
      | (intro h _; exact absurd k12 h)
  rw [if_neg k12] at hq
  by_cases k13 : key = "SkillEffect".toList
  · rw [if_pos k13] at hq
    cases hlast : p.skills.getLast? <;> rw [hlast] at hq <;> subst hq <;>
    refine ⟨?_, ?_, ?_, ?_, ?_, ?_, ?_, ?_, ?_, ?_, ?_, ?_⟩ <;>
        first
        | (intro _; rfl)
        | (intro _ h; exact absurd k13 h)
  rw [if_neg k13] at hq
  by_cases k14 : key = "Abilities".toList
  · rw [if_pos k14] at hq
    rw [foldl_parseAbilityToken] at hq
    subst hq
    refine ⟨?_, ?_, ?_, ?_, ?_, ?_, ?_, ?_, ?_, ?_, ?_, ?_⟩ <;>
      first
      | (intro _; rfl)
      | (intro _ _; rfl)
      | (intro h; exact absurd k14 h)
  rw [if_neg k14] at hq
  subst hq
  exact ⟨fun _ => rfl, fun _ => rfl, fun _ => rfl, fun _ => rfl, fun _ => rfl, fun _ => rfl, fun _ => rfl, fun _ => rfl, fun _ => rfl, fun _ => rfl, fun _ _ => rfl, fun _ => rfl⟩

/-! ## The sign of a parsed number -/

theorem dropWhile_isspace_dropWhile_isBlank (s : CppString) :
    (s.dropWhile isBlank).dropWhile isspace = s.dropWhile isspace := by
  induction s with
  | nil => rfl
  | cons x r ih =>
    by_cases hx : isBlank x = true
    · have hsp : isspace x = true := by
        rcases (isBlank_iff x).mp hx with rfl | rfl <;> decide
      rw [List.dropWhile_cons_of_pos hx, List.dropWhile_cons_of_pos hsp, ih]
    · rw [List.dropWhile_cons_of_neg hx]

theorem head?_dropWhile_of_isPrefix {f : Char → Bool} {p l : CppString} (h : p <+: l) {c : Char}
    {r : CppString} (hp : p.dropWhile f = c :: r) : (l.dropWhile f).head? = some c := by
  obtain ⟨t, rfl⟩ := h
  rw [List.dropWhile_append, hp]
  simp

/-- A text that, after its leading whitespace, does not begin with a minus
sign parses to a number `>= 0`. -/
theorem parseIntOrZero_nonneg_of_unsigned (raw : CppString)
    (hraw : (raw.dropWhile isspace).head? ≠ some '-') : 0 ≤ parseIntOrZero raw := by
  unfold parseIntOrZero
  dsimp only []
  have hpre : stripTrailingNonDigits (trim raw) <+: raw.dropWhile isBlank := by
    rw [trim_eq]
    exact (List.rdropWhile_prefix _ _).trans (List.rdropWhile_prefix _ _)
  generalize stripTrailingNonDigits (trim raw) = s at hpre
  split_ifs
  · exact le_refl _
  · unfold stoi
    split_ifs
    · exact le_refl _
    · have hsign : (numberStart s).1 = false := by
        unfold numberStart
        dsimp only []
        cases hdrop : s.dropWhile isspace with
        | nil => rfl
        | cons c r =>
          have hhead := head?_dropWhile_of_isPrefix hpre hdrop
          rw [dropWhile_isspace_dropWhile_isBlank] at hhead
          have hne : c ≠ '-' := by
            intro hc
            rw [hc] at hhead
            exact hraw hhead
          simp only []
          rw [if_neg hne]
          split_ifs <;> rfl
      dsimp only []
      unfold leadingValue
      rw [hsign]
      simp
    · exact le_refl _

/-- An amount text that is a minus sign followed by digits of a nonzero value
parses to the negative of that value. -/
theorem parseIntOrZero_minus_digits (d : CppString) (hne : d ≠ [])
    (hd : ∀ c ∈ d, c.isDigit = true) (hfit : decimalValue d ≤ 2147483648) :
    parseIntOrZero ('-' :: d) = -(decimalValue d : Int) := by
  have hall : ∀ c ∈ '-' :: d, isBlank c = false := by
    intro c hc
    rcases List.mem_cons.mp hc with rfl | hc1
    · decide
    · have := not_isBlank_of_isDigit (hd c hc1)
      simpa using this
  have hstrip : stripTrailingNonDigits ('-' :: d) = '-' :: d := by
    show ('-' :: d).rdropWhile (fun c => !c.isDigit) = '-' :: d
    rw [List.rdropWhile_eq_self_iff]
    intro hnil
    have hlast : ('-' :: d).getLast hnil = d.getLast hne := List.getLast_cons hne
    rw [hlast]
    simp [hd _ (List.getLast_mem hne)]
  obtain ⟨c, r, rfl⟩ := List.exists_cons_of_ne_nil hne
  have hstart : numberStart ('-' :: c :: r) = (true, c :: r) := by
    unfold numberStart
    rw [List.dropWhile_cons_of_neg (by decide)]
    simp
  unfold parseIntOrZero
  simp only [trim_of_no_blank _ hall, hstrip]
  rw [if_neg (by simp)]
  unfold stoi leadingValue leadingDigits
  rw [hstart]
  have htake : (c :: r).takeWhile Char.isDigit = c :: r := List.takeWhile_eq_self_iff.mpr hd
  simp only [htake]
  rw [if_neg (by simp), digitsValue_eq_decimalValue]
  have hin : InInt32 (-(decimalValue (c :: r) : Int)) := by
    unfold InInt32
    constructor <;> omega
  simp [hin]

/-! ## The skills of a card along the lines of a block -/

/-- What one loop iteration does to the skill list: the skills already there
are kept up to their effect records, and the skills added are those of the
tokens of a `Skills` line. -/
theorem stepLine_skills (q : Pokemon) (l : CppString) :
    ∃ kept added : List Skill,
      (stepLine q l).skills = kept ++ added
        ∧ kept.map withoutEffect = q.skills.map withoutEffect
        ∧ ∀ s ∈ added, ∃ value skillToken,
            keyValue l = some ("Skills".toList, value)
              ∧ skillToken ∈ splitAndTrim value ';' ∧ skillOfToken skillToken = some s := by
  unfold stepLine
  cases hkv : keyValue l with
  | none => exact ⟨q.skills, [], by simp, rfl, by simp⟩
  | some kv =>
    obtain ⟨key, value⟩ := kv
    dsimp only []
    by_cases k12 : key = "Skills".toList
    · subst k12
      rw [applyField_skills_eq, foldl_parseSkillToken]
      refine ⟨q.skills, (splitAndTrim value ';').filterMap skillOfToken, rfl, rfl, ?_⟩
      intro s hs
      obtain ⟨skillToken, hmem, hsome⟩ := List.mem_filterMap.mp hs
      exact ⟨value, skillToken, rfl, hmem, hsome⟩
    · by_cases k13 : key = "SkillEffect".toList
      · subst k13
        rw [applyField_skillEffect_eq]
        cases hlast : q.skills.getLast? with
        | none => exact ⟨q.skills, [], by simp, rfl, by simp⟩
        | some last =>
          dsimp only []
          refine ⟨_, [], (List.append_nil _).symm, ?_, by simp⟩
          have hsplit : q.skills = q.skills.dropLast ++ [last] := by
            have hne : q.skills ≠ [] := by
              intro h
              rw [h] at hlast
              simp at hlast
            rw [List.getLast?_eq_getLast _ hne] at hlast
            rw [← Option.some.inj hlast]
            exact (List.dropLast_append_getLast hne).symm
          conv_rhs => rw [hsplit]
          simp [withoutEffect]
      · have hframe := (applyField_frame key value q).2.2.2.2.2.2.2.2.2.2.1 k12 k13
        exact ⟨q.skills, [], by simp [hframe], rfl, by simp⟩

theorem kept_skills_property {γ : Type} (proj : Skill → γ)
    (hproj : ∀ s, proj (withoutEffect s) = proj s) (P : γ → Prop) {kept orig : List Skill}
    (hmap : kept.map withoutEffect = orig.map withoutEffect) (horig : ∀ s ∈ orig, P (proj s)) :
    ∀ s ∈ kept, P (proj s) := by
  intro s hs
  have hin : withoutEffect s ∈ orig.map withoutEffect := by
    rw [← hmap]
    exact List.mem_map_of_mem _ hs
  obtain ⟨s1, hs1, heq⟩ := List.mem_map.mp hin
  have := horig s1 hs1
  rwa [← hproj s1, heq, hproj s] at this

/-- A property of the skills that does not look at the effect record holds
for every skill of the card after the lines, when it holds for the skills the
card starts with and for the skill of every token of a `Skills` line. -/
theorem foldl_stepLine_skills_property {γ : Type} (proj : Skill → γ)
    (hproj : ∀ s, proj (withoutEffect s) = proj s) (P : γ → Prop) (lines : List CppString) :
    ∀ q : Pokemon, (∀ s ∈ q.skills, P (proj s)) →
      (∀ l ∈ lines, ∀ value skillToken s, keyValue l = some ("Skills".toList, value) →
        skillToken ∈ splitAndTrim value ';' → skillOfToken skillToken = some s → P (proj s)) →
      ∀ s ∈ (lines.foldl stepLine q).skills, P (proj s) := by
  induction lines with
  | nil => intro q hq _; exact hq
  | cons l rest ih =>
    intro q hq hlines
    rw [List.foldl_cons]
    apply ih (stepLine q l)
    · obtain ⟨kept, added, hskills, hkept, hadded⟩ := stepLine_skills q l
      rw [hskills]
      intro s hs
      rcases List.mem_append.mp hs with hk | ha
      · exact kept_skills_property proj hproj P hkept hq s hk
      · obtain ⟨value, skillToken, hkv, hmem, hsome⟩ := hadded s ha
        exact hlines l (List.mem_cons_self l rest) value skillToken s hkv hmem hsome
    · intro l1 hl1
      exact hlines l1 (List.mem_cons_of_mem l hl1)

/-- C24, counterexample: the block with the line
`Skills: Tackle, 10, Fire:-2, 0, false, 1` gives a skill whose energy
requirement has the amount -2. -/
theorem negative_energy_amount_is_kept :
    (parsePokemonBlock
        ["Skills: Tackle, 10, Fire:-2, 0, false, 1".toList, "END_POKEMON".toList] {}).2.1.skills
      = [{ skillName := "Tackle".toList, dmg := 10,
           energyRequirements := [{ energyType := "Fire".toList, amount := -2 }],
           energyDrop := 0, flipCoin := false, maxFlip := 1 }] := by
  decide

/-- C24, amended: every energy amount is the number parsed from the text after
the colon of its cost element, without a check.  When, in the lines of the
block up to its end marker, no amount text of a `Skills` value begins with a
minus sign after its leading whitespace (and the energy amounts of the card
passed in are non-negative), every energy requirement of every skill of the
card that `parsePokemonBlock` produces has an amount `>= 0`; an amount text
that is a minus sign followed by digits of a value `v` parses to `-v`. -/
theorem energy_amounts_nonnegative_unless_signed (lines : List CppString) (p : Pokemon)
    (hp : ∀ s ∈ p.skills, ∀ r ∈ s.energyRequirements, 0 ≤ r.amount)
    (hlines : ∀ l ∈ blockBody lines, ∀ kv ∈ keyValue l, kv.1 = "Skills".toList →
      ∀ t ∈ amountTexts kv.2, (t.dropWhile isspace).head? ≠ some '-') :
    (∀ s ∈ (parsePokemonBlock lines p).2.1.skills, ∀ r ∈ s.energyRequirements, 0 ≤ r.amount)
      ∧ ∀ d : CppString, d ≠ [] → (∀ c ∈ d, c.isDigit = true) →
          decimalValue d ≤ 2147483648 → parseIntOrZero ('-' :: d) = -(decimalValue d : Int) := by
  refine ⟨?_, fun d hne hd hfit => parseIntOrZero_minus_digits d hne hd hfit⟩
  rw [parsePokemonBlock_card]
  refine foldl_stepLine_skills_property (fun s => s.energyRequirements) (fun _ => rfl)
    (fun reqs => ∀ r ∈ reqs, 0 ≤ r.amount) (blockBody lines) p hp ?_
  intro l hl value skillToken s hkv htoken hsome r hr
  have htexts := hlines l hl ("Skills".toList, value) (Option.mem_def.mpr hkv) rfl
  unfold skillOfToken at hsome
  dsimp only [] at hsome
  split_ifs at hsome with hlen
  rw [← Option.some.inj hsome] at hr
  dsimp only [] at hr
  unfold energyOfField at hr
  obtain ⟨element, helement, hreq⟩ := List.mem_filterMap.mp hr
  split_ifs at hreq with hcolon
  rw [← Option.some.inj hreq]
  apply parseIntOrZero_nonneg_of_unsigned
  apply htexts
  unfold amountTexts
  rw [List.mem_flatten]
  refine ⟨costAmountTexts ((splitAndTrim skillToken ',').getD 2 []), ?_, ?_⟩
  · exact List.mem_map.mpr ⟨skillToken, List.mem_filter.mpr ⟨htoken, by simpa using hlen⟩, rfl⟩
  · unfold costAmountTexts
    exact List.mem_map.mpr ⟨element, List.mem_filter.mpr ⟨helement, by simpa using hcolon⟩, rfl⟩

theorem energy_amounts_nonnegative_unless_signed_witness :
    (∀ s ∈ (parsePokemonBlock
        ["Name: Ho-Oh".toList,
          "Skills: Double-Edge, -10, Fire:1|Colorless: 2x, 1, false, 0".toList,
          "END_POKEMON".toList, "Skills: Tackle, 10, Fire:-2, 0, false, 1".toList] {}).2.1.skills,
        ∀ r ∈ s.energyRequirements, 0 ≤ r.amount)
      ∧ ((parsePokemonBlock
        ["Name: Ho-Oh".toList,
          "Skills: Double-Edge, -10, Fire:1|Colorless: 2x, 1, false, 0".toList,
          "END_POKEMON".toList, "Skills: Tackle, 10, Fire:-2, 0, false, 1".toList] {}).2.1.skills.map
            (fun s => (s.skillName, s.dmg, s.energyRequirements.map (fun r => r.amount))))
          = [("Double-Edge".toList, -10, [1, 2])]
      ∧ parseIntOrZero "-2".toList = -2 :=
  ⟨(energy_amounts_nonnegative_unless_signed
      ["Name: Ho-Oh".toList,
        "Skills: Double-Edge, -10, Fire:1|Colorless: 2x, 1, false, 0".toList,
        "END_POKEMON".toList, "Skills: Tackle, 10, Fire:-2, 0, false, 1".toList] {}
      (by simp) (by decide)).1,
    by decide, by decide⟩

/-- A field that every line either keeps or sets without regard to the card:
after the lines it is what the lines give on any other card when some line
sets it, and what it was before otherwise. -/
theorem foldl_stepLine_overwrite {γ : Type} (proj : Pokemon → γ) (sets : CppString → Bool)
    (hkeep : ∀ q l, sets l = false → proj (stepLine q l) = proj q)
    (hset : ∀ q q1 l, sets l = true → proj (stepLine q l) = proj (stepLine q1 l))
    (body : List CppString) (q q1 : Pokemon) :
    proj (body.foldl stepLine q)
      = if body.any sets = true then proj (body.foldl stepLine q1) else proj q := by
  induction body using List.reverseRecOn with
  | nil => simp
  | append_singleton init l ih =>
    rw [List.foldl_append, List.foldl_append, List.foldl_cons, List.foldl_nil, List.foldl_cons,
      List.foldl_nil, List.any_append]
    cases hl : sets l with
    | true =>
      simp only [List.any_cons, hl, List.any_nil, Bool.or_false, Bool.or_true, if_true]
      exact hset _ _ l hl
    | false =>
      simp only [List.any_cons, hl, List.any_nil, Bool.or_false]
      rw [hkeep _ l hl, hkeep _ l hl, ih]

theorem keyLine_false_iff (key l : CppString) :
    keyLine key l = false
      ↔ keyValue l = none ∨ ∃ k value, keyValue l = some (k, value) ∧ k ≠ key := by
  unfold keyLine
  cases hkv : keyValue l with
  | none => simp
  | some kv =>
    obtain ⟨k, value⟩ := kv
    simp

theorem keyLine_true_iff (key l : CppString) :
    keyLine key l = true ↔ ∃ value, keyValue l = some (key, value) := by
  unfold keyLine
  cases hkv : keyValue l with
  | none => simp
  | some kv =>
    obtain ⟨k, value⟩ := kv
    simp

/-- The field of a scalar key after the lines of a body, on top of a card
`q`. -/
theorem foldl_stepLine_scalar {γ : Type} (proj : Pokemon → γ) (key : CppString)
    (hframe : ∀ k value q, k ≠ key → proj (applyField k value q) = proj q)
    (hown : ∀ value q q1, proj (applyField key value q) = proj (applyField key value q1))
    (body : List CppString) (q q1 : Pokemon) :
    proj (body.foldl stepLine q)
      = if body.any (keyLine key) = true then proj (body.foldl stepLine q1) else proj q := by
  apply foldl_stepLine_overwrite proj (keyLine key)
  · intro q l hl
    unfold stepLine
    rcases (keyLine_false_iff key l).mp hl with hnone | ⟨k, value, hkv, hk⟩
    · rw [hnone]
    · rw [hkv]
      exact hframe k value q hk
  · intro q q1 l hl
    obtain ⟨value, hkv⟩ := (keyLine_true_iff key l).mp hl
    unfold stepLine
    rw [hkv]
    exact hown value q q1

/-- The field that a scalar key assigns does not depend on the card. -/
theorem applyField_own (value : CppString) (q q1 : Pokemon) :
    (applyField "Name".toList value q).name = (applyField "Name".toList value q1).name
      ∧ (applyField "ex".toList value q).isEx = (applyField "ex".toList value q1).isEx
      ∧ (applyField "Type".toList value q).type = (applyField "Type".toList value q1).type
      ∧ (applyField "Package".toList value q).package
          = (applyField "Package".toList value q1).package
      ∧ (applyField "HP".toList value q).hp = (applyField "HP".toList value q1).hp
      ∧ (applyField "Stage".toList value q).stage = (applyField "Stage".toList value q1).stage
      ∧ (applyField "Weakness".toList value q).weakness
          = (applyField "Weakness".toList value q1).weakness
      ∧ (applyField "RetreatCost".toList value q).retreatCost
          = (applyField "RetreatCost".toList value q1).retreatCost
      ∧ (applyField "PrevEvo".toList value q).prevEvo
          = (applyField "PrevEvo".toList value q1).prevEvo
      ∧ (applyField "NextEvo".toList value q).nextEvo
          = (applyField "NextEvo".toList value q1).nextEvo := by
  refine ⟨?_, ?_, ?_, ?_, ?_, ?_, ?_, ?_, ?_, ?_⟩
  · simp [applyField]
  · simp [applyField]
  · rw [applyField_type_eq, applyField_type_eq]
  · simp [applyField]
  · simp [applyField]
  · rw [(applyField_stage value q).1, (applyField_stage value q1).1]
  · simp [applyField]
  · simp [applyField]
  · simp [applyField]
  · simp [applyField]

theorem foldl_stepLine_cardType (body : List CppString) (q q1 : Pokemon) :
    (body.foldl stepLine q).cardType
      = if body.any cardTypeLine = true then (body.foldl stepLine q1).cardType
        else q.cardType := by
  apply foldl_stepLine_overwrite (fun p => p.cardType) cardTypeLine
  · intro q l hl
    unfold stepLine
    unfold cardTypeLine at hl
    cases hkv : keyValue l with
    | none => rfl
    | some kv =>
      obtain ⟨k, value⟩ := kv
      rw [hkv] at hl
      simp only [Bool.or_eq_false_iff, beq_eq_false_iff_ne, ne_eq] at hl
      exact congrArg Prod.fst (applyField_keeps_cardType k value q hl.1 hl.2)
  · intro q q1 l hl
    unfold stepLine
    unfold cardTypeLine at hl
    cases hkv : keyValue l with
    | none => rw [hkv] at hl; exact absurd hl (by simp)
    | some kv =>
      obtain ⟨k, value⟩ := kv
      rw [hkv] at hl
      simp only [Bool.or_eq_true, beq_iff_eq] at hl
      rcases hl with rfl | rfl
      · simp only []
        rw [applyField_type_eq, applyField_type_eq]
      · simp only []
        rw [applyField_cardType_eq, applyField_cardType_eq]

theorem foldl_stepLine_canEvolve (body : List CppString) (q q1 : Pokemon) :
    (body.foldl stepLine q).canEvolve
      = if body.any (fun l => canEvolveLine l || nonzeroStageLine l) = true
        then (body.foldl stepLine q1).canEvolve else q.canEvolve := by
  apply foldl_stepLine_overwrite (fun p => p.canEvolve)
    (fun l => canEvolveLine l || nonzeroStageLine l)
  · intro q l hl
    have hstep := stepLine_stage_canEvolve q l
    unfold canEvolveLine nonzeroStageLine at hl
    cases hkv : keyValue l with
    | none => exact (hstep.1 hkv).1
    | some kv =>
      obtain ⟨k, value⟩ := kv
      rw [hkv] at hl
      simp only [Bool.or_eq_false_iff, beq_eq_false_iff_ne, ne_eq, Bool.and_eq_false_imp,
        beq_iff_eq, bne_eq_false_iff_eq] at hl
      obtain ⟨hc, hs⟩ := hl
      by_cases hk : k = "Stage".toList
      · have h := ((hstep.2 k value hkv).1 hk).2
        show (stepLine q l).canEvolve = q.canEvolve
        rw [h, if_neg (by simp [hs hk])]
      · exact ((hstep.2 k value hkv).2.2 hk hc).1
  · intro q q1 l hl
    have hstep := stepLine_stage_canEvolve q l
    have hstep1 := stepLine_stage_canEvolve q1 l
    unfold canEvolveLine nonzeroStageLine at hl
    cases hkv : keyValue l with
    | none => rw [hkv] at hl; exact absurd hl (by simp)
    | some kv =>
      obtain ⟨k, value⟩ := kv
      rw [hkv] at hl
      simp only [Bool.or_eq_true, beq_iff_eq, Bool.and_eq_true, bne_iff_ne, ne_eq] at hl
      rcases hl with hc | ⟨hs, hne⟩
      · show (stepLine q l).canEvolve = (stepLine q1 l).canEvolve
        rw [((hstep.2 k value hkv).2.1 hc).2, ((hstep1.2 k value hkv).2.1 hc).2]
      · show (stepLine q l).canEvolve = (stepLine q1 l).canEvolve
        rw [((hstep.2 k value hkv).1 hs).2, ((hstep1.2 k value hkv).1 hs).2, if_pos hne,
          if_pos hne]

theorem stepLine_abilities_append (prior : List Ability) (q q1 : Pokemon) (l : CppString)
    (h : q.abilities = prior ++ q1.abilities) :
    (stepLine q l).abilities = prior ++ (stepLine q1 l).abilities := by
  unfold stepLine
  cases hkv : keyValue l with
  | none => exact h
  | some kv =>
    obtain ⟨key, value⟩ := kv
    dsimp only []
    by_cases k14 : key = "Abilities".toList
    · subst k14
      rw [applyField_abilities_eq, applyField_abilities_eq, foldl_parseAbilityToken,
        foldl_parseAbilityToken]
      dsimp only []
      rw [h, List.append_assoc]
    · rw [(applyField_frame key value q).2.2.2.2.2.2.2.2.2.2.2 k14,
        (applyField_frame key value q1).2.2.2.2.2.2.2.2.2.2.2 k14]
      exact h

theorem foldl_stepLine_abilities_append (prior : List Ability) (body : List CppString) :
    ∀ q q1 : Pokemon, q.abilities = prior ++ q1.abilities →
      (body.foldl stepLine q).abilities = prior ++ (body.foldl stepLine q1).abilities := by
  induction body with
  | nil => intro q q1 h; exact h
  | cons l rest ih =>
    intro q q1 h
    rw [List.foldl_cons, List.foldl_cons]
    exact ih _ _ (stepLine_abilities_append prior q q1 l h)

theorem stepLine_skills_append (prior : List Skill) (q q1 : Pokemon) (l : CppString)
    (h : ∃ kept, q.skills = kept ++ q1.skills
      ∧ kept.map withoutEffect = prior.map withoutEffect) :
    ∃ kept, (stepLine q l).skills = kept ++ (stepLine q1 l).skills
      ∧ kept.map withoutEffect = prior.map withoutEffect := by
  obtain ⟨kept, hq, hkept⟩ := h
  unfold stepLine
  cases hkv : keyValue l with
  | none => exact ⟨kept, hq, hkept⟩
  | some kv =>
    obtain ⟨key, value⟩ := kv
    dsimp only []
    by_cases k12 : key = "Skills".toList
    · subst k12
      rw [applyField_skills_eq, applyField_skills_eq, foldl_parseSkillToken,
        foldl_parseSkillToken]
      dsimp only []
      exact ⟨kept, by rw [hq, List.append_assoc], hkept⟩
    · by_cases k13 : key = "SkillEffect".toList
      · subst k13
        rw [applyField_skillEffect_eq, applyField_skillEffect_eq]
        by_cases hnil : q1.skills = []
        · rw [hnil, List.append_nil] at hq
          rw [hnil]
          simp only [List.getLast?_nil]
          cases hlast : q.skills.getLast? with
          | none => exact ⟨kept, by simp [hq, hnil], hkept⟩
          | some last =>
            dsimp only []
            refine ⟨_, by rw [hnil, List.append_nil], ?_⟩
            have hne : q.skills ≠ [] := by
              intro h0
              rw [h0] at hlast
              simp at hlast
            rw [List.getLast?_eq_getLast _ hne] at hlast
            have hsplit : q.skills = q.skills.dropLast ++ [last] := by
              rw [← Option.some.inj hlast]
              exact (List.dropLast_append_getLast hne).symm
            rw [← hkept, ← hq]
            conv_rhs => rw [hsplit]
            simp [withoutEffect]
        · have hlast : q.skills.getLast? = q1.skills.getLast? := by
            rw [hq, List.getLast?_append_of_ne_nil _ hnil]
          have hdrop : q.skills.dropLast = kept ++ q1.skills.dropLast := by
            rw [hq, List.dropLast_append_of_ne_nil _ hnil]
          rw [hlast]
          cases hl1 : q1.skills.getLast? with
          | none => exact ⟨kept, hq, hkept⟩
          | some last =>
            dsimp only []
            exact ⟨kept, by rw [hdrop, List.append_assoc], hkept⟩
      · rw [(applyField_frame key value q).2.2.2.2.2.2.2.2.2.2.1 k12 k13,
          (applyField_frame key value q1).2.2.2.2.2.2.2.2.2.2.1 k12 k13]
        exact ⟨kept, hq, hkept⟩

theorem foldl_stepLine_skills_append (prior : List Skill) (body : List CppString) :
    ∀ q q1 : Pokemon,
      (∃ kept, q.skills = kept ++ q1.skills
        ∧ kept.map withoutEffect = prior.map withoutEffect) →
      ∃ kept, (body.foldl stepLine q).skills = kept ++ (body.foldl stepLine q1).skills
        ∧ kept.map withoutEffect = prior.map withoutEffect := by
  induction body with
  | nil => intro q q1 h; exact h
  | cons l rest ih =>
    intro q q1 h
    rw [List.foldl_cons, List.foldl_cons]
    exact ih _ _ (stepLine_skills_append prior q q1 l h)

theorem stepLine_beginLine (beginLine : CppString) (h : isBeginLine beginLine = true)
    (q : Pokemon) : isEndLine beginLine = false ∧ stepLine q beginLine = q := by
  unfold isBeginLine at h
  have htrim : trim beginLine = "BEGIN_POKEMON".toList := by simpa using h
  constructor
  · unfold isEndLine
    rw [htrim]
    decide
  · have hkv : keyValue beginLine = none := by
      unfold keyValue
      rw [htrim]
      decide
    unfold stepLine
    rw [hkv]

theorem foldl_stepLine_skills_exact (prior : List Skill) (body : List CppString)
    (hbody : ∀ l ∈ body, keyLine "SkillEffect".toList l = false) :
    ∀ q q1 : Pokemon, q.skills = prior ++ q1.skills →
      (body.foldl stepLine q).skills = prior ++ (body.foldl stepLine q1).skills := by
  induction body with
  | nil => intro q q1 h; exact h
  | cons l rest ih =>
    intro q q1 h
    rw [List.foldl_cons, List.foldl_cons]
    apply ih (fun l1 hl1 => hbody l1 (List.mem_cons_of_mem l hl1))
    unfold stepLine
    rcases (keyLine_false_iff _ l).mp (hbody l (List.mem_cons_self l rest)) with
      hnone | ⟨key, value, hkv, k13⟩
    · rw [hnone]
      exact h
    · rw [hkv]
      dsimp only []
      by_cases k12 : key = "Skills".toList
      · subst k12
        rw [applyField_skills_eq, applyField_skills_eq, foldl_parseSkillToken,
          foldl_parseSkillToken]
        dsimp only []
        rw [h, List.append_assoc]
      · rw [(applyField_frame key value q).2.2.2.2.2.2.2.2.2.2.1 k12 k13,
          (applyField_frame key value q1).2.2.2.2.2.2.2.2.2.2.1 k12 k13]
        exact h

theorem blockCards_absorbed (beginA beginB endB : CppString) (bodyA bodyB rest : List CppString)
    (hbeginA : isBeginLine beginA = true) (hbeginB : isBeginLine beginB = true)
    (hendB : isEndLine endB = true) (hbodyA : ∀ l ∈ bodyA, isEndLine l = false)
    (hbodyB : ∀ l ∈ bodyB, isEndLine l = false) :
    blockCards (beginA :: (bodyA ++ beginB :: (bodyB ++ endB :: rest)))
      = absorbedCard bodyA bodyB :: blockCards rest := by
  have hbody : ∀ l ∈ bodyA ++ beginB :: bodyB, isEndLine l = false := by
    intro l hl
    rcases List.mem_append.mp hl with ha | hb
    · exact hbodyA l ha
    · rcases List.mem_cons.mp hb with rfl | hb1
      · exact (stepLine_beginLine l hbeginB {}).1
      · exact hbodyB l hb1
  have hsrc : bodyA ++ beginB :: (bodyB ++ endB :: rest)
      = (bodyA ++ beginB :: bodyB) ++ endB :: rest := by simp
  rw [hsrc, blockCards_complete_block beginA endB _ rest hbeginA hbody hendB, List.foldl_append,
    List.foldl_cons, (stepLine_beginLine beginB hbeginB _).2]
  rfl

/-- C30. An unterminated block absorbs the next one: for a source in which the
block A (lines `bodyA` after its `BEGIN_POKEMON`, none of them `END_POKEMON`)
is followed by the complete block B, loading yields one card for the pair, the
card `absorbedCard bodyA bodyB` of the lines of B applied on top of the card of
A, and registers it under its normalized name; the inner `BEGIN_POKEMON` line
changes nothing; a scalar field has the value of B when B has a line that sets
it and the value of A otherwise (so the name is that of B, and that of A when B
has no `Name` line); the abilities of B come after those of A, and the skills
of B after those of A, the skills of A being kept up to their effect record
(and exactly when B has no `SkillEffect` line). -/
theorem unterminated_block_absorbs_next (beginA beginB endB : CppString)
    (bodyA bodyB rest : List CppString) (cardMap : CardMap)
    (hbeginA : isBeginLine beginA = true) (hbeginB : isBeginLine beginB = true)
    (hendB : isEndLine endB = true) (hbodyA : ∀ l ∈ bodyA, isEndLine l = false)
    (hbodyB : ∀ l ∈ bodyB, isEndLine l = false) :
    blockCards (beginA :: (bodyA ++ beginB :: (bodyB ++ endB :: rest)))
        = absorbedCard bodyA bodyB :: blockCards rest
      ∧ loadCardDatabase (some (beginA :: (bodyA ++ beginB :: (bodyB ++ endB :: rest)))) cardMap
          = loadCardDatabase (some rest) (register cardMap (absorbedCard bodyA bodyB))
      ∧ mapFind (register cardMap (absorbedCard bodyA bodyB))
            (normalize (absorbedCard bodyA bodyB).name)
          = some (absorbedCard bodyA bodyB)
      ∧ (∀ q, stepLine q beginB = q)
      ∧ (absorbedCard bodyA bodyB).name
          = (if bodyB.any (keyLine "Name".toList) = true then (cardOfBody bodyB).name
            else (cardOfBody bodyA).name)
      ∧ (absorbedCard bodyA bodyB).isEx
          = (if bodyB.any (keyLine "ex".toList) = true then (cardOfBody bodyB).isEx
            else (cardOfBody bodyA).isEx)
      ∧ (absorbedCard bodyA bodyB).type
          = (if bodyB.any (keyLine "Type".toList) = true then (cardOfBody bodyB).type
            else (cardOfBody bodyA).type)
      ∧ (absorbedCard bodyA bodyB).package
          = (if bodyB.any (keyLine "Package".toList) = true then (cardOfBody bodyB).package
            else (cardOfBody bodyA).package)
      ∧ (absorbedCard bodyA bodyB).hp
          = (if bodyB.any (keyLine "HP".toList) = true then (cardOfBody bodyB).hp
            else (cardOfBody bodyA).hp)
      ∧ (absorbedCard bodyA bodyB).stage
          = (if bodyB.any (keyLine "Stage".toList) = true then (cardOfBody bodyB).stage
            else (cardOfBody bodyA).stage)
      ∧ (absorbedCard bodyA bodyB).weakness
          = (if bodyB.any (keyLine "Weakness".toList) = true then (cardOfBody bodyB).weakness
            else (cardOfBody bodyA).weakness)
      ∧ (absorbedCard bodyA bodyB).retreatCost
          = (if bodyB.any (keyLine "RetreatCost".toList) = true then (cardOfBody bodyB).retreatCost
            else (cardOfBody bodyA).retreatCost)
      ∧ (absorbedCard bodyA bodyB).prevEvo
          = (if bodyB.any (keyLine "PrevEvo".toList) = true then (cardOfBody bodyB).prevEvo
            else (cardOfBody bodyA).prevEvo)
      ∧ (absorbedCard bodyA bodyB).nextEvo
          = (if bodyB.any (keyLine "NextEvo".toList) = true then (cardOfBody bodyB).nextEvo
            else (cardOfBody bodyA).nextEvo)
      ∧ (absorbedCard bodyA bodyB).cardType
          = (if bodyB.any cardTypeLine = true then (cardOfBody bodyB).cardType
            else (cardOfBody bodyA).cardType)
      ∧ (absorbedCard bodyA bodyB).canEvolve
          = (if bodyB.any (fun l => canEvolveLine l || nonzeroStageLine l) = true
            then (cardOfBody bodyB).canEvolve else (cardOfBody bodyA).canEvolve)
      ∧ (absorbedCard bodyA bodyB).abilities
          = (cardOfBody bodyA).abilities ++ (cardOfBody bodyB).abilities
      ∧ (∃ kept : List Skill,
          (absorbedCard bodyA bodyB).skills = kept ++ (cardOfBody bodyB).skills
            ∧ kept.map withoutEffect = (cardOfBody bodyA).skills.map withoutEffect)
      ∧ ((∀ l ∈ bodyB, keyLine "SkillEffect".toList l = false) →
          (absorbedCard bodyA bodyB).skills
            = (cardOfBody bodyA).skills ++ (cardOfBody bodyB).skills) := by
  have hcards := blockCards_absorbed beginA beginB endB bodyA bodyB rest hbeginA hbeginB hendB
    hbodyA hbodyB
  have hown : ∀ value q q1, _ := fun value q q1 => applyField_own value q q1
  refine ⟨hcards, ?_, ?_, fun q => (stepLine_beginLine beginB hbeginB q).2, ?_, ?_, ?_, ?_, ?_,
    ?_, ?_, ?_, ?_, ?_, ?_, ?_, ?_, ?_, ?_⟩
  · rw [loadCardDatabase_eq, loadCardDatabase_eq, hcards, List.foldl_cons]
  · unfold register
    rw [mapFind_mapAssign, if_pos rfl]
  · exact foldl_stepLine_scalar (fun p => p.name) "Name".toList
      (fun k value q hk => (applyField_frame k value q).1 hk)
      (fun value q q1 => (hown value q q1).1) bodyB (cardOfBody bodyA) {}
  · exact foldl_stepLine_scalar (fun p => p.isEx) "ex".toList
      (fun k value q hk => (applyField_frame k value q).2.1 hk)
      (fun value q q1 => (hown value q q1).2.1) bodyB (cardOfBody bodyA) {}
  · exact foldl_stepLine_scalar (fun p => p.type) "Type".toList
      (fun k value q hk => (applyField_frame k value q).2.2.1 hk)
      (fun value q q1 => (hown value q q1).2.2.1) bodyB (cardOfBody bodyA) {}
  · exact foldl_stepLine_scalar (fun p => p.package) "Package".toList
      (fun k value q hk => (applyField_frame k value q).2.2.2.1 hk)
      (fun value q q1 => (hown value q q1).2.2.2.1) bodyB (cardOfBody bodyA) {}
  · exact foldl_stepLine_scalar (fun p => p.hp) "HP".toList
      (fun k value q hk => (applyField_frame k value q).2.2.2.2.1 hk)
      (fun value q q1 => (hown value q q1).2.2.2.2.1) bodyB (cardOfBody bodyA) {}
  · exact foldl_stepLine_scalar (fun p => p.stage) "Stage".toList
      (fun k value q hk => (applyField_frame k value q).2.2.2.2.2.1 hk)
      (fun value q q1 => (hown value q q1).2.2.2.2.2.1) bodyB (cardOfBody bodyA) {}
  · exact foldl_stepLine_scalar (fun p => p.weakness) "Weakness".toList
      (fun k value q hk => (applyField_frame k value q).2.2.2.2.2.2.1 hk)
      (fun value q q1 => (hown value q q1).2.2.2.2.2.2.1) bodyB (cardOfBody bodyA) {}
  · exact foldl_stepLine_scalar (fun p => p.retreatCost) "RetreatCost".toList
      (fun k value q hk => (applyField_frame k value q).2.2.2.2.2.2.2.1 hk)
      (fun value q q1 => (hown value q q1).2.2.2.2.2.2.2.1) bodyB (cardOfBody bodyA) {}
  · exact foldl_stepLine_scalar (fun p => p.prevEvo) "PrevEvo".toList
      (fun k value q hk => (applyField_frame k value q).2.2.2.2.2.2.2.2.1 hk)
      (fun value q q1 => (hown value q q1).2.2.2.2.2.2.2.2.1) bodyB (cardOfBody bodyA) {}
  · exact foldl_stepLine_scalar (fun p => p.nextEvo) "NextEvo".toList
      (fun k value q hk => (applyField_frame k value q).2.2.2.2.2.2.2.2.2.1 hk)
      (fun value q q1 => (hown value q q1).2.2.2.2.2.2.2.2.2) bodyB (cardOfBody bodyA) {}
  · exact foldl_stepLine_cardType bodyB (cardOfBody bodyA) {}
  · exact foldl_stepLine_canEvolve bodyB (cardOfBody bodyA) {}
  · have h := foldl_stepLine_abilities_append (cardOfBody bodyA).abilities bodyB
      (cardOfBody bodyA) {} (List.append_nil _).symm
    exact h
  · exact foldl_stepLine_skills_append (cardOfBody bodyA).skills bodyB (cardOfBody bodyA) {}
      ⟨(cardOfBody bodyA).skills, (List.append_nil _).symm, rfl⟩
  · intro hno
    exact foldl_stepLine_skills_exact (cardOfBody bodyA).skills bodyB hno (cardOfBody bodyA) {}
      (List.append_nil _).symm

theorem unterminated_block_absorbs_next_witness :
    blockCards absorbedSource
        = [absorbedCard
            ["Name: Charmander".toList, "HP: 60".toList,
              "Skills: Scratch, 10, Colorless:1, 0, false, 0".toList]
            ["HP: 90".toList, "SkillEffect: Heal:20".toList,
              "Skills: Ember, 30, Fire:1, 1, false, 0".toList]]
      ∧ loadCardDatabase (some absorbedSource) []
        = [("charmander".toList,
            { name := "Charmander".toList, hp := 90,
              skills :=
                [{ skillName := "Scratch".toList, dmg := 10,
                   energyRequirements := [{ energyType := "Colorless".toList, amount := 1 }],
                   specialEffect := { heal := 20 } },
                 { skillName := "Ember".toList, dmg := 30,
                   energyRequirements := [{ energyType := "Fire".toList, amount := 1 }],
                   energyDrop := 1 }] })] :=
  ⟨(unterminated_block_absorbs_next "BEGIN_POKEMON".toList "BEGIN_POKEMON".toList
      "END_POKEMON".toList
      ["Name: Charmander".toList, "HP: 60".toList,
        "Skills: Scratch, 10, Colorless:1, 0, false, 0".toList]
      ["HP: 90".toList, "SkillEffect: Heal:20".toList,
        "Skills: Ember, 30, Fire:1, 1, false, 0".toList] [] []
      (by decide) (by decide) (by decide) (by decide) (by decide)).1,
    by decide⟩

/-! ## Aggregation in the arithmetic of `double` and on a team of threads -/

theorem sumOutcomesIn_eq_childValues {σ : Type} (ops : DoubleOps)
    (run : GameState → σ → Option (ℚ × σ)) (cs : List GameState) (total : ℚ) (g : σ) :
    sumOutcomesIn ops run cs total g
      = (childValues run cs g).map (fun r => (r.1.foldl ops.add total, r.2)) := by
  induction cs generalizing total g with
  | nil => simp [sumOutcomesIn, childValues]
  | cons c rest ih =>
    rw [sumOutcomesIn, childValues]
    cases hrun : run c g with
    | none => rfl
    | some r =>
      obtain ⟨v, g1⟩ := r
      simp only []
      rw [ih]
      cases childValues run rest g1 with
      | none => rfl
      | some r1 => rfl

theorem simulateDecisionTreeSequentialIn_succ {σ : Type} (ops : DoubleOps)
    (leaf : GameState → σ → ℚ × σ) (budget : Nat) (state : GameState) (depth : Int) (g : σ) :
    simulateDecisionTreeSequentialIn ops leaf (budget + 1) state depth g
      = if depth = 0 then some (leaf state g)
        else if (nextStates state).isEmpty then some (leaf state g)
        else (childValues
                (fun c g1 => simulateDecisionTreeSequentialIn ops leaf budget c (depth - 1) g1)
                (nextStates state) g).map
              (fun r => (ops.divCount (r.1.foldl ops.add 0) (nextStates state).length, r.2)) := by
  rw [simulateDecisionTreeSequentialIn]
  by_cases h0 : depth = 0
  · simp [h0]
  · by_cases he : (nextStates state).isEmpty = true
    · simp [h0, he]
    · simp only [h0, he, if_false]
      rw [sumOutcomesIn_eq_childValues]
      cases childValues
          (fun c g1 => simulateDecisionTreeSequentialIn ops leaf budget c (depth - 1) g1)
          (nextStates state) g with
      | none => rfl
      | some r => rfl

theorem childValues_returns {σ : Type} (run : GameState → σ → Option (ℚ × σ))
    (cs : List GameState) (hrun : ∀ c ∈ cs, ∀ g, ∃ v g1, run c g = some (v, g1)) (g : σ) :
    ∃ vs g1, childValues run cs g = some (vs, g1) ∧ vs.length = cs.length := by
  obtain ⟨vs, g1, h, hlen, _⟩ := childValues_of_forall run (fun _ => True) cs
    (fun c hc g0 => by
      obtain ⟨v, g2, hv⟩ := hrun c hc g0
      exact ⟨v, g2, hv, trivial⟩) g
  exact ⟨vs, g1, h, hlen⟩

theorem sequentialIn_returns {σ : Type} (ops : DoubleOps) (leaf : GameState → σ → ℚ × σ) :
    ∀ (d budget : Nat) (state : GameState) (g : σ), d < budget →
      ∃ v g1, simulateDecisionTreeSequentialIn ops leaf budget state (d : Int) g
        = some (v, g1) := by
  intro d
  induction d with
  | zero =>
    intro budget state g hb
    obtain ⟨b, rfl⟩ : ∃ b, budget = b + 1 := ⟨budget - 1, by omega⟩
    refine ⟨(leaf state g).1, (leaf state g).2, ?_⟩
    rw [simulateDecisionTreeSequentialIn_succ]
    simp
  | succ n ih =>
    intro budget state g hb
    obtain ⟨b, rfl⟩ : ∃ b, budget = b + 1 := ⟨budget - 1, by omega⟩
    rw [simulateDecisionTreeSequentialIn_succ]
    have hd : ((n + 1 : Nat) : Int) ≠ 0 := by omega
    rw [if_neg hd]
    by_cases he : (nextStates state).isEmpty = true
    · rw [if_pos he]
      exact ⟨_, _, rfl⟩
    · rw [if_neg he]
      have hsub : ((n + 1 : Nat) : Int) - 1 = (n : Int) := by omega
      rw [hsub]
      obtain ⟨vs, g1, hvs, _⟩ := childValues_returns
        (fun c g1 => simulateDecisionTreeSequentialIn ops leaf b c (n : Int) g1)
        (nextStates state) (fun c _ g0 => ih b c g0 (by omega)) g
      rw [hvs]
      exact ⟨_, _, rfl⟩

theorem threadOutcome_eq_threadValues {σ : Type} (ops : DoubleOps)
    (run : GameState → σ → Option (ℚ × σ)) (children : List GameState) (indices : List Nat)
    (total : ℚ) (g : σ) :
    threadOutcome ops run children indices total g
      = (threadValues run children indices g).map
          (fun r => (r.1.foldl ops.add total, r.2)) := by
  induction indices generalizing total g with
  | nil => simp [threadOutcome, threadValues]
  | cons i rest ih =>
    rw [threadOutcome, threadValues]
    cases hget : children.get? i with
    | none => exact ih total g
    | some c =>
      simp only []
      cases hrun : run c g with
      | none => rfl
      | some r =>
        obtain ⟨v, g1⟩ := r
        simp only []
        rw [ih]
        cases threadValues run children rest g1 with
        | none => rfl
        | some r1 => rfl

theorem reduceOutcomes_eq_teamValues {σ : Type} (ops : DoubleOps)
    (run : GameState → σ → Option (ℚ × σ)) (children : List GameState)
    (threads : List (TeamThread σ)) (total : ℚ) :
    reduceOutcomes ops run children threads total
      = (teamValues run children threads).map
          (fun r => ((r.1.map (fun vs => vs.foldl ops.add 0)).foldl ops.add total, r.2)) := by
  induction threads generalizing total with
  | nil => simp [reduceOutcomes, teamValues]
  | cons thread rest ih =>
    rw [reduceOutcomes, teamValues, threadOutcome_eq_threadValues]
    cases threadValues run children thread.indices thread.gen with
    | none => rfl
    | some r =>
      obtain ⟨vs, g1⟩ := r
      simp only [Option.map_some']
      rw [ih]
      cases teamValues run children rest with
      | none => rfl
      | some r1 => rfl

theorem threadValues_returns {σ : Type} (run : GameState → σ → Option (ℚ × σ))
    (children : List GameState) (hrun : ∀ c ∈ children, ∀ g, ∃ v g1, run c g = some (v, g1))
    (indices : List Nat) (hin : ∀ i ∈ indices, i < children.length) (g : σ) :
    ∃ vs g1, threadValues run children indices g = some (vs, g1)
      ∧ vs.length = indices.length := by
  induction indices generalizing g with
  | nil => exact ⟨[], g, rfl, rfl⟩
  | cons i rest ih =>
    have hi := hin i (List.mem_cons_self i rest)
    obtain ⟨c, hc⟩ : ∃ c, children.get? i = some c :=
      ⟨children.get ⟨i, hi⟩, List.get?_eq_get hi⟩
    obtain ⟨v, g1, hv⟩ := hrun c (List.get?_mem hc) g
    obtain ⟨vs, g2, hvs, hlen⟩ := ih (fun j hj => hin j (List.mem_cons_of_mem i hj)) g1
    refine ⟨v :: vs, g2, ?_, by simp [hlen]⟩
    rw [threadValues, hc]
    simp only []
    rw [hv]
    simp only []
    rw [hvs]

theorem teamValues_returns {σ : Type} (run : GameState → σ → Option (ℚ × σ))
    (children : List GameState) (hrun : ∀ c ∈ children, ∀ g, ∃ v g1, run c g = some (v, g1))
    (threads : List (TeamThread σ))
    (hin : ∀ i ∈ (threads.map TeamThread.indices).flatten, i < children.length) :
    ∃ perThread gens, teamValues run children threads = some (perThread, gens)
      ∧ perThread.flatten.length = (threads.map TeamThread.indices).flatten.length
      ∧ perThread.length = threads.length ∧ gens.length = threads.length := by
  induction threads with
  | nil => exact ⟨[], [], rfl, rfl, rfl, rfl⟩
  | cons thread rest ih =>
    obtain ⟨vs, g1, hvs, hlen⟩ := threadValues_returns run children hrun thread.indices
      (fun i hi => hin i (by simp [hi])) thread.gen
    obtain ⟨perThread, gens, hteam, hflat, hl1, hl2⟩ := ih (fun i hi => hin i (by
      simp only [List.map_cons, List.flatten_cons, List.mem_append]
      exact Or.inr hi))
    refine ⟨vs :: perThread, g1 :: gens, ?_, ?_, by simp [hl1], by simp [hl2]⟩
    · rw [teamValues, hvs]
      simp only []
      rw [hteam]
    · simp [hlen, hflat]

theorem validSchedule_bounds {n : Nat} {schedule : List (List Nat)}
    (h : ValidSchedule n schedule) :
    schedule.flatten.length = n ∧ ∀ i ∈ schedule.flatten, i < n := by
  unfold ValidSchedule at h
  refine ⟨by rw [h.length_eq, List.length_range], fun i hi => ?_⟩
  exact List.mem_range.mp (h.mem_iff.mp hi)

theorem exactOps_foldl (vs : List ℚ) (total : ℚ) :
    vs.foldl exactOps.add total = total + vs.sum := by
  induction vs generalizing total with
  | nil => simp
  | cons v rest ih =>
    rw [List.foldl_cons, ih, List.sum_cons]
    show total + v + rest.sum = total + (v + rest.sum)
    ring

theorem exactOps_reduce (perThread : List (List ℚ)) :
    (perThread.map (fun vs => vs.foldl exactOps.add 0)).foldl exactOps.add 0
      = perThread.flatten.sum := by
  rw [exactOps_foldl, zero_add, List.sum_flatten]
  congr 1
  apply List.map_congr_left
  intro vs _
  rw [exactOps_foldl, zero_add]

theorem sumOutcomesIn_exactOps {σ : Type} (run : GameState → σ → Option (ℚ × σ))
    (cs : List GameState) (total : ℚ) (g : σ) :
    sumOutcomesIn exactOps run cs total g = sumOutcomes run cs total g := by
  induction cs generalizing total g with
  | nil => rfl
  | cons c rest ih =>
    rw [sumOutcomesIn, sumOutcomes]
    cases run c g with
    | none => rfl
    | some r =>
      obtain ⟨v, g1⟩ := r
      exact ih _ g1

/-- The sequential simulator in exact arithmetic is
`simulateDecisionTreeSequential`. -/
theorem simulateDecisionTreeSequentialIn_exactOps {σ : Type} (leaf : GameState → σ → ℚ × σ) :
    ∀ (budget : Nat) (state : GameState) (depth : Int) (g : σ),
      simulateDecisionTreeSequentialIn exactOps leaf budget state depth g
        = simulateDecisionTreeSequential leaf budget state depth g := by
  intro budget
  induction budget with
  | zero => intro state depth g; rfl
  | succ b ih =>
    intro state depth g
    rw [simulateDecisionTreeSequentialIn, simulateDecisionTreeSequential]
    have hrun : (fun c g1 => simulateDecisionTreeSequentialIn exactOps leaf b c (depth - 1) g1)
        = fun c g1 => simulateDecisionTreeSequential leaf b c (depth - 1) g1 := by
      funext c g1
      exact ih c (depth - 1) g1
    rw [hrun]
    simp only [sumOutcomesIn_exactOps]
    rfl

theorem threadValues_map_succ {σ : Type} (run : GameState → σ → Option (ℚ × σ))
    (c : GameState) (cs : List GameState) (indices : List Nat) (g : σ) :
    threadValues run (c :: cs) (indices.map Nat.succ) g = threadValues run cs indices g := by
  induction indices generalizing g with
  | nil => rfl
  | cons i rest ih =>
    rw [List.map_cons, threadValues, threadValues]
    have hget : (c :: cs).get? (Nat.succ i) = cs.get? i := rfl
    rw [hget]
    cases cs.get? i with
    | none => exact ih g
    | some c1 =>
      simp only []
      cases run c1 g with
      | none => rfl
      | some r =>
        obtain ⟨v, g1⟩ := r
        simp only []
        rw [ih]

/-- One thread that runs all the loop indices in index order obtains the
values of the children in child order. -/
theorem threadValues_range {σ : Type} (run : GameState → σ → Option (ℚ × σ))
    (children : List GameState) (g : σ) :
    threadValues run children (List.range children.length) g = childValues run children g := by
  induction children generalizing g with
  | nil => rfl
  | cons c cs ih =>
    rw [List.length_cons, List.range_succ_eq_map, threadValues, childValues]
    simp only [List.get?_cons_zero]
    cases run c g with
    | none => rfl
    | some r =>
      obtain ⟨v, g1⟩ := r
      simp only []
      rw [threadValues_map_succ, ih]

/-- The function `simulateDecisionTree` of the embedding is the run of
`simulateDecisionTreeTeam` in exact arithmetic by a team of one thread, which
runs the loop in index order. -/
theorem simulateDecisionTree_eq_team {σ : Type} (leaf : GameState → σ → ℚ × σ) (budget : Nat)
    (state : GameState) (depth : Int) (g : σ) :
    simulateDecisionTree leaf budget state depth g
      = (simulateDecisionTreeTeam exactOps leaf budget state depth []
          { gen := g, indices := List.range state.activePokemon.skills.length } []).map
          (fun r => (r.1, r.2.headD g)) := by
  cases budget with
  | zero => rfl
  | succ b =>
    rw [simulateDecisionTree, simulateDecisionTreeTeam]
    by_cases h0 : depth = 0
    · simp [h0]
    · by_cases he : (nextStates state).isEmpty = true
      · simp [h0, he]
      · simp only [h0, he, if_false, List.nil_append]
        rw [sumOutcomes_eq_childValues, reduceOutcomes_eq_teamValues]
        have hrun : (fun c g1 => simulateDecisionTreeSequentialIn exactOps leaf b c (depth - 1) g1)
            = fun c g1 => simulateDecisionTreeSequential leaf b c (depth - 1) g1 := by
          funext c g1
          exact simulateDecisionTreeSequentialIn_exactOps leaf b c (depth - 1) g1
        rw [hrun, teamValues, ← nextStates_length, threadValues_range]
        cases childValues (fun c g1 => simulateDecisionTreeSequential leaf b c (depth - 1) g1)
            (nextStates state) g with
        | none => rfl
        | some r =>
          obtain ⟨vs, g1⟩ := r
          have hsum : List.foldl (fun x y => x + y) 0 vs = vs.sum := by
            have h := exactOps_foldl vs 0
            rwa [zero_add] at h
          simp [teamValues, exactOps, hsum]

/-- C2. Aggregation: for a state whose active card has `k ≥ 1` skills and a
depth `d ≥ 1`, the value that the simulator returns is the sum of the values
that its calls for the `k` child states at depth `d - 1` return, divided by
`k`.  For `simulateDecisionTreeSequential` the calls run in child order on the
generator of the calling thread and the sum is accumulated from 0 in that
order.  For `simulateDecisionTree` the loop is run by a team of threads under a
schedule that runs every child once: every call draws from the generator of the
thread that runs it, every thread accumulates its own total from 0, and the
totals are added thread by thread.  This holds in every arithmetic `ops` of
`double`; in exact arithmetic the value is the arithmetic mean of the `k` child
values.  The function `simulateDecisionTree` of the embedding is the run in
exact arithmetic by a team of one thread. -/
theorem aggregation_is_mean {σ : Type} (ops : DoubleOps) (leaf : GameState → σ → ℚ × σ)
    (state : GameState) (depth : Int) (budget : Nat)
    (before after : List (TeamThread σ)) (master : TeamThread σ)
    (hd : 1 ≤ depth) (hb : depth ≤ (budget : Int)) (hk : state.activePokemon.skills ≠ [])
    (hschedule : ValidSchedule state.activePokemon.skills.length
      ((before ++ master :: after).map TeamThread.indices)) :
    (∃ vs g1,
        childValues
            (fun c g0 => simulateDecisionTreeSequentialIn ops leaf budget c (depth - 1) g0)
            (nextStates state) master.gen = some (vs, g1)
          ∧ vs.length = state.activePokemon.skills.length
          ∧ simulateDecisionTreeSequentialIn ops leaf (budget + 1) state depth master.gen
              = some (ops.divCount (vs.foldl ops.add 0) state.activePokemon.skills.length, g1)
          ∧ (ops = exactOps →
              simulateDecisionTreeSequential leaf (budget + 1) state depth master.gen
                = some (vs.sum / (state.activePokemon.skills.length : ℚ), g1)))
      ∧ (∃ perThread gens,
          teamValues
              (fun c g0 => simulateDecisionTreeSequentialIn ops leaf budget c (depth - 1) g0)
              (nextStates state) (before ++ master :: after) = some (perThread, gens)
            ∧ perThread.flatten.length = state.activePokemon.skills.length
            ∧ simulateDecisionTreeTeam ops leaf (budget + 1) state depth before master after
                = some (ops.divCount
                    ((perThread.map (fun vs => vs.foldl ops.add 0)).foldl ops.add 0)
                    state.activePokemon.skills.length, gens)
            ∧ (ops = exactOps →
                simulateDecisionTreeTeam ops leaf (budget + 1) state depth before master after
                  = some (perThread.flatten.sum / (state.activePokemon.skills.length : ℚ),
                      gens)))
      ∧ simulateDecisionTree leaf (budget + 1) state depth master.gen
          = (simulateDecisionTreeTeam exactOps leaf (budget + 1) state depth []
              { gen := master.gen,
                indices := List.range state.activePokemon.skills.length } []).map
              (fun r => (r.1, r.2.headD master.gen)) := by
  obtain ⟨n, hn⟩ : ∃ n : Nat, depth - 1 = (n : Int) := ⟨(depth - 1).toNat, by omega⟩
  have h0 : ¬ depth = 0 := by omega
  have he : ¬ (nextStates state).isEmpty = true := by
    rw [nextStates_isEmpty_iff]
    exact hk
  have hrun : ∀ c ∈ nextStates state, ∀ g0, ∃ v g1,
      simulateDecisionTreeSequentialIn ops leaf budget c (depth - 1) g0 = some (v, g1) := by
    intro c _ g0
    rw [hn]
    exact sequentialIn_returns ops leaf n budget c g0 (by omega)
  refine ⟨?_, ?_, simulateDecisionTree_eq_team leaf (budget + 1) state depth master.gen⟩
  · obtain ⟨vs, g1, hvs, hlen⟩ := childValues_returns
      (fun c g0 => simulateDecisionTreeSequentialIn ops leaf budget c (depth - 1) g0)
      (nextStates state) hrun master.gen
    have hres : simulateDecisionTreeSequentialIn ops leaf (budget + 1) state depth master.gen
        = some (ops.divCount (vs.foldl ops.add 0) state.activePokemon.skills.length, g1) := by
      rw [simulateDecisionTreeSequentialIn_succ, if_neg h0, if_neg he, hvs, nextStates_length]
      rfl
    refine ⟨vs, g1, hvs, by rw [hlen, nextStates_length], hres, ?_⟩
    intro hops
    subst hops
    rw [← simulateDecisionTreeSequentialIn_exactOps, hres, exactOps_foldl, zero_add]
    rfl
  · have hbounds := validSchedule_bounds hschedule
    obtain ⟨perThread, gens, hteam, hflat, _, _⟩ := teamValues_returns
      (fun c g0 => simulateDecisionTreeSequentialIn ops leaf budget c (depth - 1) g0)
      (nextStates state) hrun (before ++ master :: after)
      (fun i hi => by rw [nextStates_length]; exact hbounds.2 i hi)
    have hres : simulateDecisionTreeTeam ops leaf (budget + 1) state depth before master after
        = some (ops.divCount
            ((perThread.map (fun vs => vs.foldl ops.add 0)).foldl ops.add 0)
            state.activePokemon.skills.length, gens) := by
      rw [simulateDecisionTreeTeam, if_neg h0]
      simp only [he, if_false]
      rw [reduceOutcomes_eq_teamValues, hteam, nextStates_length]
      rfl
    refine ⟨perThread, gens, hteam, by rw [hflat, hbounds.1], hres, ?_⟩
    intro hops
    subst hops
    rw [hres, exactOps_reduce]
    rfl

/-- C2, worked example: two skills, depth 1 and the leaf evaluator
`drawingLeaf`.  Two threads with fresh generators, one child each, both draw
1/8 and the value is 1/8; one thread draws 1/8 and 7/8 and the value is 1/2,
which is also what `simulateDecisionTreeSequential` returns. -/
theorem aggregation_is_mean_witness :
    ValidSchedule (twoSkillState 100).activePokemon.skills.length
        (([] ++ ({ gen := 0, indices := [0] } : TeamThread Nat)
          :: [({ gen := 0, indices := [1] } : TeamThread Nat)]).map TeamThread.indices)
      ∧ (∃ perThread gens,
          teamValues
              (fun c g0 => simulateDecisionTreeSequentialIn exactOps drawingLeaf 1 c (1 - 1) g0)
              (nextStates (twoSkillState 100))
              ([] ++ ({ gen := 0, indices := [0] } : TeamThread Nat)
                :: [({ gen := 0, indices := [1] } : TeamThread Nat)]) = some (perThread, gens)
            ∧ perThread.flatten.length = (twoSkillState 100).activePokemon.skills.length
            ∧ simulateDecisionTreeTeam exactOps drawingLeaf (1 + 1) (twoSkillState 100) 1 []
                { gen := 0, indices := [0] } [{ gen := 0, indices := [1] }]
                = some (exactOps.divCount
                    ((perThread.map (fun vs => vs.foldl exactOps.add 0)).foldl exactOps.add 0)
                    (twoSkillState 100).activePokemon.skills.length, gens)
            ∧ (exactOps = exactOps →
                simulateDecisionTreeTeam exactOps drawingLeaf (1 + 1) (twoSkillState 100) 1 []
                  { gen := 0, indices := [0] } [{ gen := 0, indices := [1] }]
                  = some (perThread.flatten.sum
                      / ((twoSkillState 100).activePokemon.skills.length : ℚ), gens)))
      ∧ simulateDecisionTreeTeam exactOps drawingLeaf 2 (twoSkillState 100) 1 []
          { gen := 0, indices := [0] } [{ gen := 0, indices := [1] }] = some (1 / 8, [1, 1])
      ∧ simulateDecisionTreeTeam exactOps drawingLeaf 2 (twoSkillState 100) 1 []
          { gen := 0, indices := [0, 1] } [] = some (1 / 2, [2])
      ∧ simulateDecisionTreeSequential drawingLeaf 2 (twoSkillState 100) 1 0 = some (1 / 2, 2)
      ∧ simulateDecisionTree drawingLeaf 2 (twoSkillState 100) 1 0 = some (1 / 2, 2) :=
  ⟨by unfold ValidSchedule; decide,
    (aggregation_is_mean exactOps drawingLeaf (twoSkillState 100) 1 1 []
      [{ gen := 0, indices := [1] }] { gen := 0, indices := [0] } (by decide) (by decide)
      (by decide) (by unfold ValidSchedule; decide)).2.1,
    by
      simp [simulateDecisionTreeTeam, simulateDecisionTreeSequentialIn, reduceOutcomes,
        threadOutcome, nextStates, twoSkillState, branchState, drawingLeaf, charizard,
        fireBlast, ember, Skill.make, wrapInt32, exactOps],
    by
      simp [simulateDecisionTreeTeam, simulateDecisionTreeSequentialIn, reduceOutcomes,
        threadOutcome, nextStates, twoSkillState, branchState, drawingLeaf, charizard,
        fireBlast, ember, Skill.make, wrapInt32, exactOps]
      norm_num,
    by
      simp [simulateDecisionTreeSequential, nextStates, twoSkillState,
        sumOutcomes, branchState, drawingLeaf, charizard, fireBlast, ember, Skill.make,
        wrapInt32]
      norm_num,
    by
      simp [simulateDecisionTree, simulateDecisionTreeSequential, nextStates, twoSkillState,
        sumOutcomes, branchState, drawingLeaf, charizard, fireBlast, ember, Skill.make,
        wrapInt32]
      norm_num⟩

end TCGP
